import Mathlib

/-!
# fluxio/logging: the text encoding of log entries, its decoder, and the loggers

A shallow embedding of the package: `text_writer.go` (the encoder
`TextWriter.Write`), `readers.go` (the decoder `LogReader.Next` with
`determineLineType`), `logger.go` (levels and their names), and the loggers of
`std_logger.go`, `mem_logger.go`, `tee_logger.go` and `cancellable_logger.go`.
A logger acts on a state that is passed along explicitly.  Where goroutines
share a `TextWriter` or a `CancellableLogger`, the code is a step function on
the shared state, one step per goroutine and turn, and a schedule is the list
of the goroutines in the order of their steps.

Go strings are byte sequences.  They are modelled as `List Char`, one `Char`
per byte; every test the code makes on a byte (newline, space, the classes of
`entryStartRegexp`) is a test on an ASCII character, so the model and the
code agree on how each position is classified.  `strings.ToLower` alone works
on runes, and for it a `Char` stands for a rune.

Of package `fmt`, `Sprint`, `Sprintln` and `Sprintf` on literal text with the
directives `%v`, `%s`, `%d` and `%%` are computed, for operands that are strings
or ints.  What `Sprintf` returns for a format with any other directive is a
parameter, `FmtPrinter`, of which nothing is assumed: a statement about every
printer holds of `fmt`.
-/

namespace Logging

/-! ## Values of the Go standard library used by the package -/

/-- Go `string`. -/
abbrev Str := List Char

/-- Decimal rendering of a natural number (`strconv.Itoa` on a non-negative int). -/
def natDec (n : Nat) : Str := Nat.toDigits 10 n

/-- Decimal rendering of an `int`, the `%d` verb of package `fmt`. -/
def fmtInt (i : Int) : Str :=
  if i < 0 then '-' :: natDec i.natAbs else natDec i.toNat

/-- Zero padded decimal of at least `width` digits: `appendInt` of package `time`
for a non-negative value. -/
def appendInt (x width : Nat) : Str :=
  List.replicate (width - (natDec x).length) '0' ++ natDec x

/-- The fields of a `time.Time` that the layout `0102 15:04:05.000Z0700` prints:
the broken-down wall clock and the zone offset in seconds east of UTC. -/
structure Time where
  month : Nat
  day : Nat
  hour : Nat
  minute : Nat
  second : Nat
  nanosecond : Nat
  offset : Int
deriving DecidableEq, Repr

/-- The ranges `time.Time` guarantees for its broken-down fields. -/
def Time.valid (t : Time) : Prop :=
  t.month < 100 ∧ t.day < 100 ∧ t.hour < 100 ∧ t.minute < 100 ∧ t.second < 100 ∧
    t.nanosecond < 1000000000

instance (t : Time) : Decidable t.valid := by
  unfold Time.valid; infer_instance

/-- The zone element `Z0700` of a `time` layout: `Z` for offset zero, otherwise
the sign followed by hours and minutes, two digits each. -/
def fmtZone (offset : Int) : Str :=
  if offset = 0 then ['Z']
  else
    let zone := Int.tdiv offset 60
    let sign := if zone < 0 then '-' else '+'
    let z := zone.natAbs
    sign :: (appendInt (z / 60) 2 ++ appendInt (z % 60) 2)

/-- `ts.Format("0102 15:04:05.000Z0700")`. -/
def Time.Format (ts : Time) : Str :=
  appendInt ts.month 2 ++ appendInt ts.day 2 ++ [' '] ++
    appendInt ts.hour 2 ++ [':'] ++ appendInt ts.minute 2 ++ [':'] ++
    appendInt ts.second 2 ++ ['.'] ++ appendInt (ts.nanosecond / 1000000) 3 ++
    fmtZone ts.offset

/-- `filepath.Base` with `/` as the separator: the last element of the path,
trailing slashes removed; `.` for the empty path and `/` for a path of slashes. -/
def filepathBase (path : Str) : Str :=
  if path = [] then ['.']
  else
    let stripped := (path.reverse.dropWhile (fun c => c = '/'))
    if stripped = [] then ['/']
    else (stripped.takeWhile (fun c => c ≠ '/')).reverse

/-- An operand of a log call (`interface{}`): the package only ever renders it. -/
inductive Arg where
  | str (s : Str)
  | int (i : Int)
deriving DecidableEq, Repr

/-- The `%v` rendering of an operand. -/
def Arg.render : Arg → Str
  | .str s => s
  | .int i => fmtInt i

/-- The `type=value` text `fmt` prints for an operand in its error reports. -/
def Arg.typed : Arg → Str
  | .str s => "string=".toList ++ s
  | .int i => "int=".toList ++ fmtInt i

/-- The verbs of the directives modelled here: `%v`, `%s`, `%d`, and the
newline, which is no verb of `fmt` and is what `Write` makes the verb of a
percent sign that ends `Fmt` when it appends its newline. -/
inductive Verb where
  | v
  | s
  | d
  | newline
deriving DecidableEq, Repr

/-- The character of a verb. -/
def Verb.char : Verb → Char
  | .v => 'v'
  | .s => 's'
  | .d => 'd'
  | .newline => '\n'

/-- The verb a character stands for, when it is one of the four. -/
def Verb.ofChar (c : Char) : Option Verb :=
  if c = 'v' then some .v
  else if c = 's' then some .s
  else if c = 'd' then some .d
  else if c = '\n' then some .newline
  else none

/-- One verb without flags applied to one operand: `%v` prints a string as it is
and an int in decimal, `%s` a string, `%d` an int; a verb that does not fit the
operand, and the newline, give `%!verb(type=value)`. -/
def fmtVerb (verb : Verb) (a : Arg) : Str :=
  match verb, a with
  | .v, a => a.render
  | .s, .str s => s
  | .d, .int i => fmtInt i
  | verb, a => '%' :: '!' :: verb.char :: '(' :: (a.typed ++ [')'])

/-- The report `fmt` appends for operands no verb consumed. -/
def fmtExtra : List Arg → Str
  | [] => []
  | a :: as =>
    "%!(EXTRA ".toList ++ a.typed ++ (as.map (fun b => ", ".toList ++ b.typed)).flatten ++ [')']

/-- `fmt.Sprintf` on the formats made of literal text and the directives `%v`,
`%s`, `%d`, `%%` and a percent sign followed by a newline or by nothing:
literal text is copied, `%%` prints a percent sign, a verb consumes the next
operand (`%!verb(MISSING)` when none is left), a format that ends after `%`
gives `%!(NOVERB)`, and unused operands are reported at the end.  `none` for
every other format: one with a flag, a width, a precision, an operand index or
another verb. -/
def simpleSprintf : Str → List Arg → Option Str
  | [], args => some (fmtExtra args)
  | '%' :: [], args => some ("%!(NOVERB)".toList ++ fmtExtra args)
  | '%' :: '%' :: rest, args => (simpleSprintf rest args).map (fun out => '%' :: out)
  | '%' :: c :: rest, [] =>
    match Verb.ofChar c with
    | none => none
    | some verb =>
      (simpleSprintf rest []).map (fun out => '%' :: '!' :: verb.char :: ("(MISSING)".toList ++ out))
  | '%' :: c :: rest, a :: args =>
    match Verb.ofChar c with
    | none => none
    | some verb => (simpleSprintf rest args).map (fun out => fmtVerb verb a ++ out)
  | c :: rest, args => (simpleSprintf rest args).map (fun out => c :: out)

/-- Package `fmt` as far as it is not computed here: `sprintf format a` is the
text `fmt.Sprintf` returns for a format outside the fragment of
`simpleSprintf`.  Nothing is assumed about it; what is proved of the package
holds whatever `fmt` prints for such formats. -/
class FmtPrinter where
  sprintf : Str → List Arg → Str

/-- `fmt.Sprintf`. -/
def Sprintf [FmtPrinter] (format : Str) (a : List Arg) : Str :=
  match simpleSprintf format a with
  | some out => out
  | none => FmtPrinter.sprintf format a

/-- `fmt.Sprintln`: the operands in their `%v` form, always separated by one
space, followed by a newline. -/
def Sprintln (args : List Arg) : Str :=
  [' '].intercalate (args.map Arg.render) ++ ['\n']

/-! ## logger.go -/

/-- `type Level int32`. -/
abbrev Level := Int

def TraceLevel : Level := 1
def DebugLevel : Level := 2
def InfoLevel : Level := 3
def ErrorLevel : Level := 4

/-- `Level.String`; `none` stands for the panic on a value outside the four levels. -/
def Level.String (l : Level) : Option Str :=
  if l = TraceLevel then some ['T']
  else if l = DebugLevel then some ['D']
  else if l = InfoLevel then some ['I']
  else if l = ErrorLevel then some ['E']
  else none

/-- The `%s` rendering of a `Level`: its `String()`, and for a panicking `String()`
the text `fmt` substitutes after recovering from the panic. -/
def Level.render (l : Level) : Str :=
  match Level.String l with
  | some s => s
  | none => "%!s(PANIC=String method: No such log level: ".toList ++ fmtInt l ++ [')']

/-- `type Entry struct`. -/
structure Entry where
  Level : Level
  Time : Time
  File : Str
  Line : Int
  Context : Str
  Fmt : Str
  Args : List Arg
deriving DecidableEq, Repr

/-- `const kNO_FORMAT = ""` (std_logger.go). -/
def kNO_FORMAT : Str := []

/-! ## text_writer.go -/

/-- `const continuation = "    "`. -/
def continuation : Str := "    ".toList

/-- Modelled from the spec: `line.PrefixWriter` of `github.com/fluxio/iohelpers`
is not among the sources.  One `Write` call on the writer, whose state is the
flag "the output is in the middle of a line": the marker is written before the
first byte of every line that starts while the flag is off, and a newline turns
the flag off.  `TextWriter.Write` creates the writer with the flag on, so "every
line after the first is emitted with a fixed continuation prefix". -/
def PrefixWriter.Write (marker : Str) : Bool → Str → Str × Bool
  | midLine, [] => ([], midLine)
  | midLine, c :: cs =>
    let r := PrefixWriter.Write marker (c ≠ '\n') cs
    ((if midLine then [] else marker) ++ c :: r.1, r.2)

/-- `(*TextWriter).fmtTimestamp`. -/
def fmtTimestamp (ts : Time) : Str := ts.Format

/-- `(*TextWriter).fmtOrigin`. -/
def fmtOrigin (file : Str) (line : Int) : Str :=
  let file := if file = [] then "???".toList else filepathBase file
  if line = -1 then file
  else file ++ [':'] ++ fmtInt line

/-- The operands of the first `Fprintf` of `Write`, formatted by
`"%s%s %s (%s): "`. -/
def Entry.header (e : Entry) : Str :=
  Level.render e.Level ++ fmtTimestamp e.Time ++ [' '] ++ fmtOrigin e.File e.Line ++
    " (".toList ++ e.Context ++ "): ".toList

/-- The text of the second write of `Write`: `Fprintln` of the operands when
there is no format, `Fprintf` with `e.Fmt+"\n"` otherwise. -/
def Entry.content [FmtPrinter] (e : Entry) : Str :=
  if e.Fmt = kNO_FORMAT then Sprintln e.Args
  else Sprintf (e.Fmt ++ ['\n']) e.Args

/-- `(*TextWriter).Write`: the bytes handed to the sink in the single `WriteTo`.
The buffer is filled through a `PrefixWriter` that starts in the middle of a
line, first with the header, then with the content. -/
def TextWriter.Write [FmtPrinter] (e : Entry) : Str :=
  let w1 := PrefixWriter.Write continuation true e.header
  let w2 := PrefixWriter.Write continuation w1.2 e.content
  w1.1 ++ w2.1

/-! ## Package regexp, as far as `entryStartRegexp` needs it -/

/-- The regular expressions `entryStartRegexp` is built from. -/
inductive Regex where
  | bol : Regex
  | lit : Char → Regex
  | cls : (Char → Bool) → Regex
  | seq : Regex → Regex → Regex
  | alt : Regex → Regex → Regex
  | star : (Char → Bool) → Regex
  | group : Nat → Regex → Regex

/-- A position of a match attempt: the offset reached, the text from there on,
and the offsets recorded so far (start and end of group `n` at `2n` and `2n+1`). -/
structure MState where
  pos : Nat
  rest : Str
  caps : List Nat

/-- Greedy repetition of a character class: the longest run is tried first and
given back one character at a time while the rest of the pattern fails. -/
def starRun (p : Char → Bool) (k : MState → Option (List Nat)) :
    Nat → Str → List Nat → Option (List Nat)
  | pos, [], caps => k ⟨pos, [], caps⟩
  | pos, c :: cs, caps =>
    if p c then
      (starRun p k (pos + 1) cs caps).orElse (fun _ => k ⟨pos, c :: cs, caps⟩)
    else k ⟨pos, c :: cs, caps⟩

/-- Backtracking matcher with leftmost-first preference, the order in which
package `regexp` chooses among the matches at one starting offset.  `k` is the
rest of the pattern. -/
def Regex.run : Regex → MState → (MState → Option (List Nat)) → Option (List Nat)
  | .bol, st, k => if st.pos = 0 then k st else none
  | .lit c, st, k =>
    match st.rest with
    | [] => none
    | d :: ds => if d = c then k ⟨st.pos + 1, ds, st.caps⟩ else none
  | .cls p, st, k =>
    match st.rest with
    | [] => none
    | d :: ds => if p d then k ⟨st.pos + 1, ds, st.caps⟩ else none
  | .seq a b, st, k => a.run st (fun st1 => b.run st1 k)
  | .alt a b, st, k => (a.run st k).orElse (fun _ => b.run st k)
  | .star p, st, k => starRun p k st.pos st.rest st.caps
  | .group n r, st, k =>
    r.run ⟨st.pos, st.rest, st.caps.set (2 * n) st.pos⟩
      (fun st1 => k ⟨st1.pos, st1.rest, st1.caps.set (2 * n + 1) st1.pos⟩)

/-- The search of `FindStringSubmatchIndex` from offset `pos` on: the first
starting offset at which the pattern matches wins. -/
def findFrom (re : Regex) (ngroups : Nat) : Nat → Str → Option (List Nat)
  | pos, [] => (Regex.group 0 re).run ⟨pos, [], List.replicate (2 * ngroups) 0⟩
      (fun st => some st.caps)
  | pos, c :: cs =>
    ((Regex.group 0 re).run ⟨pos, c :: cs, List.replicate (2 * ngroups) 0⟩
      (fun st => some st.caps)).orElse
      (fun _ => findFrom re ngroups (pos + 1) cs)

/-- `(*Regexp).FindStringSubmatchIndex`: the offsets of the leftmost match and
of its groups, the empty slice when there is no match. -/
def FindStringSubmatchIndex (re : Regex) (ngroups : Nat) (s : Str) : List Nat :=
  (findFrom re ngroups 0 s).getD []

/-- `r{n}`. -/
def Regex.rep (r : Regex) : Nat → Regex → Regex
  | 0, tl => tl
  | n + 1, tl => .seq r (Regex.rep r n tl)

/-- `[...]+` for a character class. -/
def Regex.plus (p : Char → Bool) : Regex := .seq (.cls p) (.star p)

/-- `\d`. -/
def isDigit (c : Char) : Bool := '0' ≤ c ∧ c ≤ '9'

/-- `\w`. -/
def isWord (c : Char) : Bool :=
  isDigit c || ('a' ≤ c ∧ c ≤ 'z') || ('A' ≤ c ∧ c ≤ 'Z') || c = '_'

/-- `[\d:\.]`. -/
def isClock (c : Char) : Bool := isDigit c || c = ':' || c = '.'

/-- `[-+\dZ]`. -/
def isZone (c : Char) : Bool := c = '-' || c = '+' || isDigit c || c = 'Z'

/-- `[\w.]`. -/
def isFileChar (c : Char) : Bool := isWord c || c = '.'

/-- `.`: any character but a newline. -/
def isAny (c : Char) : Bool := c ≠ '\n'

/-! ## readers.go -/

/-- The pattern
`^(I|D|E)(\d{4} [\d:\.]{12}[-+\dZ]+) ([\w.]+):(\d+) \((.*)\): `. -/
def entryStartRegexp : Regex :=
  .seq .bol <|
  .seq (.group 1 (.alt (.lit 'I') (.alt (.lit 'D') (.lit 'E')))) <|
  .seq (.group 2 (Regex.rep (.cls isDigit) 4 <| .seq (.lit ' ') <|
      Regex.rep (.cls isClock) 12 <| Regex.plus isZone)) <|
  .seq (.lit ' ') <|
  .seq (.group 3 (Regex.plus isFileChar)) <|
  .seq (.lit ':') <|
  .seq (.group 4 (Regex.plus isDigit)) <|
  .seq (.lit ' ') <|
  .seq (.lit '(') <|
  .seq (.group 5 (.star isAny)) <|
  .seq (.lit ')') <|
  .seq (.lit ':') (.lit ' ')

/-- `type logEntry struct`. -/
structure logEntry where
  full : Str := []
  header : Str := []
  typ : Char := Char.ofNat 0
  ts : Str := []
  file : Str := []
  line : Str := []
  context : Str := []
  msg : Str := []
deriving DecidableEq, Repr

/-- The constants `unknown`, `entryStart`, `entryCont`. -/
inductive LineType where
  | unknown
  | entryStart
  | entryCont
deriving DecidableEq, Repr

/-- The slice `s[i:j]`. -/
def slice (s : Str) (i j : Nat) : Str := (s.drop i).take (j - i)

/-- `determineLineType`. -/
def determineLineType (line : Str) : LineType × logEntry :=
  if line.length < continuation.length then (.unknown, {})
  else if line.take continuation.length = continuation then
    (.entryCont, { full := line, header := continuation, msg := line.drop continuation.length })
  else
    let headerPos := FindStringSubmatchIndex entryStartRegexp 6 line
    if headerPos.length = 0 then (.unknown, {})
    else
      let part := fun (n : Nat) => slice line (headerPos.getD (n * 2) 0) (headerPos.getD (n * 2 + 1) 0)
      (.entryStart,
        { full := line
          header := part 0
          typ := (part 1).headD (Char.ofNat 0)
          ts := part 2
          file := part 3
          line := part 4
          context := part 5
          msg := line.drop (headerPos.getD 1 0) })

/-- The errors `Next` returns: `io.EOF`, and the two `fmt.Errorf` values, each
carrying the line it quotes with `%q`. -/
inductive Error where
  | EOF
  | malformatted (line : Str)
  | middle (line : Str)
deriving DecidableEq, Repr

/-- `(*bufio.Reader).ReadString('\n')` on the unread part of the stream: the
bytes up to and including the first newline and the stream after them; without
a newline, all that is left, with `io.EOF` (the flag). -/
def ReadString : Str → Str × Str × Bool
  | [] => ([], [], true)
  | c :: cs =>
    if c = '\n' then ([c], cs, false)
    else
      let r := ReadString cs
      (c :: r.1, r.2.1, r.2.2)

/-- `strings.TrimRight(s, "\r\n")`. -/
def trimRight (s : Str) : Str := s.rdropWhile (fun c => c = '\r' || c = '\n')

/-- What a call of `Next` leaves behind: the returned entry and error, and the
part of the stream not yet read. -/
structure NextResult where
  entry : logEntry
  err : Option Error
  reader : Str
deriving DecidableEq, Repr

/-- The loop of `(*LogReader).Next`, one iteration per unit of fuel; `none`
when the fuel is used up. -/
def nextLoop : Nat → logEntry → Str → Option NextResult
  | 0, _, _ => none
  | fuel + 1, entry, reader =>
    let r := ReadString reader
    let line := r.1
    -- `len(line) > 0 && err == io.EOF` clears the error; any other error breaks
    if line.length = 0 then
      some ⟨{ entry with msg := trimRight entry.msg }, some .EOF, r.2.1⟩
    else
      let d := determineLineType line
      if d.1 = .unknown then some ⟨entry, some (.malformatted line), r.2.1⟩
      else if d.1 = .entryCont ∧ d.2.header.length = 0 then
        some ⟨entry, some (.middle line), r.2.1⟩
      else
        let entry1 := if d.1 = .entryStart then d.2 else { entry with msg := entry.msg ++ d.2.msg }
        -- `next, _ := r.reader.Peek(1)`
        match r.2.1 with
        | ' ' :: _ => nextLoop fuel entry1 r.2.1
        | _ => some ⟨{ entry1 with msg := trimRight entry1.msg }, none, r.2.1⟩

/-- `(*LogReader).Next` on a reader whose unread stream is `reader`.  Every
iteration of the loop reads at least one byte, so the length of the stream
bounds the number of iterations. -/
def Next (reader : Str) : Option NextResult :=
  nextLoop (reader.length + 1) {} reader

/-! ## Notions the statements are written in -/

/-- The lines of a text, each with the newline that ends it (the last line may
lack one). -/
def splitLines : Str → List Str
  | [] => []
  | c :: cs =>
    if c = '\n' then [c] :: splitLines cs
    else
      match splitLines cs with
      | [] => [[c]]
      | l :: ls => (c :: l) :: ls

/-- The wire form of a text as the specification words it: the first line as
it is, every line after the first behind the continuation marker. -/
def continuationForm (text : Str) : Str :=
  match splitLines text with
  | [] => []
  | l :: ls => l ++ (ls.map (fun x => continuation ++ x)).flatten

/-- The characters of a timestamp outside the digits. -/
def isStampChar (c : Char) : Bool :=
  isDigit c || c = ' ' || c = ':' || c = '.' || c = 'Z' || c = '+' || c = '-'

/-- The message text of an entry as the specification describes it: the
operands joined by single spaces when there is no format, the format applied to
the operands otherwise. -/
def Entry.message [FmtPrinter] (e : Entry) : Str :=
  if e.Fmt = kNO_FORMAT then [' '].intercalate (e.Args.map Arg.render)
  else Sprintf e.Fmt e.Args

/-- The one-line encoding of an entry: level, timestamp, origin, context in
parentheses, message, newline. -/
def Entry.oneLine [FmtPrinter] (e : Entry) : Str :=
  Level.render e.Level ++ fmtTimestamp e.Time ++ [' '] ++ fmtOrigin e.File e.Line ++
    " (".toList ++ e.Context ++ "): ".toList ++ e.message ++ ['\n']

/-- The printer under which the examples are evaluated.  Their formats lie in
the fragment of `simpleSprintf`, on which `Sprintf` does not consult the printer
(`Sprintf_simple`): what is evaluated is the text `fmt` prints. -/
instance examplePrinter : FmtPrinter := ⟨fun _ _ => []⟩

/-- The time of the tests of `TextWriter`: 23 May, 21:21:18.901 UTC. -/
def testTime : Time := ⟨5, 23, 21, 21, 18, 901000000, 0⟩

/-- The first entry of `TestTextWriter`. -/
def entryHiThere : Entry :=
  ⟨InfoLevel, testTime, "/path/to/file.js".toList, 12, "ctx".toList, kNO_FORMAT,
    [.str "Hi".toList, .str "there".toList]⟩

/-- The second entry of `TestTextWriter`. -/
def entryFormat : Entry :=
  ⟨InfoLevel, testTime, "/path/to/file.js".toList, 12, "ctx".toList, "(%s %d %s)".toList,
    [.str "Hi".toList, .int 4, .str "there".toList]⟩

/-- An entry with one more operand than its format has verbs. -/
def entrySurplus : Entry :=
  ⟨InfoLevel, testTime, "/path/to/file.js".toList, 12, "ctx".toList, "Hi".toList,
    [.str "there".toList]⟩

/-- An entry whose file name contains a newline. -/
def entryFileNewline : Entry :=
  ⟨InfoLevel, testTime, "/path/to/fi\nle.js".toList, 12, "ctx".toList, kNO_FORMAT,
    [.str "Hi".toList, .str "there".toList]⟩

/-- The end of an iteration of the loop of `Next`: the peek at the next byte of
the stream, which either keeps the loop going or ends the call. -/
def peekStep (fuel : Nat) (entry : logEntry) (reader : Str) : Option NextResult :=
  match reader with
  | ' ' :: _ => nextLoop fuel entry reader
  | _ => some ⟨{ entry with msg := trimRight entry.msg }, none, reader⟩

/-- Continuation lines as they stand in a stream: marker, text, newline. -/
def contLines (cs : List Str) : Str :=
  (cs.map (fun c => continuation ++ c ++ ['\n'])).flatten

/-- The text the continuation lines add to a message: each line without its marker. -/
def contText (cs : List Str) : Str :=
  (cs.map (fun c => c ++ ['\n'])).flatten

/-- The outcomes of `n` successive calls of `Next` on a reader, each with the
entry and the error it returned. -/
def readN : Nat → Str → List (logEntry × Option Error)
  | 0, _ => []
  | n + 1, reader =>
    match Next reader with
    | none => []
    | some res => (res.entry, res.err) :: readN n res.reader

/-- A stream of logical entries, each given by the text of its first line and
the texts of its continuation lines: every line ends in a newline and every
continuation line starts with the marker. -/
def entryStream (es : List (Str × List Str)) : Str :=
  (es.map (fun e => e.1 ++ ['\n'] ++ contLines e.2)).flatten

/-- The entry a logical entry decodes to: the fields `determineLineType` takes
from the first line, with the message made of the remainder of that line and
the continuation texts, trailing CR and LF trimmed. -/
def decoded (e : Str × List Str) : logEntry :=
  { (determineLineType (e.1 ++ ['\n'])).2 with
    msg := trimRight ((determineLineType (e.1 ++ ['\n'])).2.msg ++ contText e.2) }

/-- A line written for a Trace entry. -/
def traceLine : Str := "T0101 00:00:00.000Z a.go:1 (c): m\n".toList

/-- The first line of the log of `TestLogReader`, without its newline. -/
def sampleHeader : Str :=
  "I0101 00:00:00.000Z std_logger_test.go:00 (Flow=f1): Creating 20 blocks".toList

/-- The last line of the log of `TestLogReader`, without its newline. -/
def sampleHeader2 : Str :=
  "I0101 00:00:00.000Z std_logger_test.go:00 (Block=addFoo): Computing 5 things".toList

/-- An entry logged at Trace level. -/
def entryTrace : Entry :=
  ⟨TraceLevel, testTime, "/path/to/file.js".toList, 12, "ctx".toList, kNO_FORMAT,
    [.str "Hi".toList]⟩

/-- An entry whose origin is unknown: no file, line -1. -/
def entryNoOrigin : Entry :=
  ⟨InfoLevel, testTime, [], -1, "ctx".toList, kNO_FORMAT, [.str "Hi".toList]⟩

/-- An entry logged from a file with a hyphen in its name. -/
def entryHyphen : Entry :=
  ⟨InfoLevel, testTime, "/path/to/my-file.go".toList, 12, "ctx".toList, kNO_FORMAT,
    [.str "Hi".toList]⟩

/-- An entry whose message contains `): `. -/
def entryClose : Entry :=
  ⟨InfoLevel, testTime, "/path/to/file.js".toList, 12, "ctx".toList, kNO_FORMAT,
    [.str "f(x): y".toList]⟩

/-- An entry whose message ends in a carriage return. -/
def entryCR : Entry :=
  ⟨InfoLevel, testTime, "/path/to/file.js".toList, 12, "ctx".toList, kNO_FORMAT,
    [.str "Hi\r".toList]⟩

/-- The three-line message of `TestTextWriter`, logged at Info level. -/
def entryABC : Entry :=
  ⟨InfoLevel, testTime, "/path/to/file.js".toList, 12, "ctx".toList, "a\nb\nc".toList, []⟩

/-- The three-line message logged at Trace level. -/
def entryABCTrace : Entry :=
  ⟨TraceLevel, testTime, "/path/to/file.js".toList, 12, "ctx".toList, "a\nb\nc".toList, []⟩

/-- A two-line message whose first line contains `): `. -/
def entryCloseLines : Entry :=
  ⟨InfoLevel, testTime, "/path/to/file.js".toList, 12, "ctx".toList, "f(x): y\nb".toList, []⟩

/-- A two-line message that ends in a carriage return. -/
def entryCRLines : Entry :=
  ⟨InfoLevel, testTime, "/path/to/file.js".toList, 12, "ctx".toList, "a\nb\r".toList, []⟩

/-! ## More of package fmt and strings -/

/-- `fmt.Sprint`: the operands in their `%v` form; a space is added between two
operands when neither is a string. -/
def Sprint : List Arg → Str
  | [] => []
  | [a] => a.render
  | a :: b :: rest =>
    match a, b with
    | .int _, .int _ => a.render ++ ' ' :: Sprint (b :: rest)
    | _, _ => a.render ++ Sprint (b :: rest)

/-- `unicode.ToLower` on the runes whose lower case is an ASCII letter: the
ASCII capitals, U+0130 (capital I with dot above, lower case `i`) and U+212A
(the Kelvin sign, lower case `k`). The lower case of every other rune lies
outside ASCII, and the rune itself stands for it here. -/
def unicodeToLower (c : Char) : Char :=
  if c = Char.ofNat 0x130 then 'i'
  else if c = Char.ofNat 0x212A then 'k'
  else c.toLower

/-- `strings.ToLower`: the string with `unicode.ToLower` applied to each rune. -/
def stringsToLower (s : Str) : Str := s.map unicodeToLower

/-! ## logger.go: parsing levels, and the interface `Logger` -/

/-- The error of `ParseLevel`, `fmt.Errorf("Unknown level: %q", levelstr)`. -/
inductive LevelError where
  | unknownLevel (levelstr : Str)
deriving DecidableEq, Repr

/-- `ParseLevel`: the level and the error (`none` for nil). -/
def ParseLevel (levelstr : Str) : Level × Option LevelError :=
  let s := stringsToLower levelstr
  if s = "t".toList ∨ s = "trace".toList then (TraceLevel, none)
  else if s = "d".toList ∨ s = "debug".toList then (DebugLevel, none)
  else if s = "i".toList ∨ s = "info".toList then (InfoLevel, none)
  else if s = "e".toList ∨ s = "error".toList then (ErrorLevel, none)
  else (ErrorLevel, some (.unknownLevel levelstr))

/-- `ParseLevelOrDie`: the level, or the value it panics with. -/
def ParseLevelOrDie (levelstr : Str) : Except LevelError Level :=
  match ParseLevel levelstr with
  | (lvl, none) => .ok lvl
  | (_, some err) => .error err

/-- The interface `Logger`.  An implementation acts on the state `W` of the
program that its calls can reach. -/
structure Logger (W : Type) where
  Trace : List Arg → W → W
  Tracef : Str → List Arg → W → W
  Debug : List Arg → W → W
  Debugf : Str → List Arg → W → W
  Info : List Arg → W → W
  Infof : Str → List Arg → W → W
  Error : List Arg → W → W
  Errorf : Str → List Arg → W → W
  LogLevel : W → Level
  SetLogLevel : Level → W → W

/-! ## std_logger.go -/

/-- What a log call takes from its surroundings: the time `time.Now()` returns
and the file and line `Pos` finds for the caller. -/
structure CallSite where
  now : Time
  file : Str
  line : Int
deriving DecidableEq, Repr

/-- The interface `Writer`: an object with its state and its method `Write`,
which returns the new state and the error (`none` for nil). -/
structure Writer (σ : Type) where
  state : σ
  write : Entry → σ → σ × Option Str

/-- A call of `Write` on a writer. -/
def Writer.Write {σ : Type} (w : Writer σ) (e : Entry) : Writer σ × Option Str :=
  ({ w with state := (w.write e w.state).1 }, (w.write e w.state).2)

/-- `type StdLogger struct`. -/
structure StdLogger (σ : Type) where
  Context : Str
  Writer : Writer σ
  MinLevel : Level

/-- What `stdlogf` prints on `os.Stderr` when the writer fails: the error and
the entry. -/
structure WriteFailure where
  err : Str
  entry : Entry
deriving DecidableEq, Repr

/-- `(*StdLogger).LogLevel`. -/
def StdLogger.LogLevel {σ : Type} (l : StdLogger σ) : Level := l.MinLevel

/-- `(*StdLogger).SetLogLevel`. -/
def StdLogger.SetLogLevel {σ : Type} (l : StdLogger σ) (newLevel : Level) : StdLogger σ :=
  { l with MinLevel := newLevel }

/-- `(*StdLogger).stdlogf`: the logger after the call and what the call printed
on `os.Stderr`. -/
def StdLogger.stdlogf {σ : Type} (s : StdLogger σ) (site : CallSite) (level : Level)
    (fmtstr : Str) (vals : List Arg) : StdLogger σ × Option WriteFailure :=
  if level < s.LogLevel then (s, none)
  else
    let entry : Entry :=
      { Level := level, Time := site.now, File := site.file, Line := site.line,
        Context := s.Context, Fmt := fmtstr, Args := vals }
    let r := s.Writer.Write entry
    ({ s with Writer := r.1 }, r.2.map (fun err => ⟨err, entry⟩))

def StdLogger.Trace {σ : Type} (l : StdLogger σ) (site : CallSite) (vals : List Arg) :=
  l.stdlogf site TraceLevel kNO_FORMAT vals
def StdLogger.Debug {σ : Type} (l : StdLogger σ) (site : CallSite) (vals : List Arg) :=
  l.stdlogf site DebugLevel kNO_FORMAT vals
def StdLogger.Info {σ : Type} (l : StdLogger σ) (site : CallSite) (vals : List Arg) :=
  l.stdlogf site InfoLevel kNO_FORMAT vals
def StdLogger.Error {σ : Type} (l : StdLogger σ) (site : CallSite) (vals : List Arg) :=
  l.stdlogf site ErrorLevel kNO_FORMAT vals
def StdLogger.Tracef {σ : Type} (l : StdLogger σ) (site : CallSite) (fmt : Str)
    (params : List Arg) := l.stdlogf site TraceLevel fmt params
def StdLogger.Debugf {σ : Type} (l : StdLogger σ) (site : CallSite) (fmt : Str)
    (params : List Arg) := l.stdlogf site DebugLevel fmt params
def StdLogger.Infof {σ : Type} (l : StdLogger σ) (site : CallSite) (fmt : Str)
    (params : List Arg) := l.stdlogf site InfoLevel fmt params
def StdLogger.Errorf {σ : Type} (l : StdLogger σ) (site : CallSite) (fmt : Str)
    (params : List Arg) := l.stdlogf site ErrorLevel fmt params

/-! ## mem_logger.go -/

/-- `const MemLoggerMaxMsgs = 128`. -/
def MemLoggerMaxMsgs : Nat := 128

/-- `type LogMessage struct`. -/
structure LogMessage where
  Loglevel : Level
  Msg : Str
deriving DecidableEq, Repr

/-- `type MemLogger struct`. -/
structure MemLogger where
  msgs : List LogMessage
deriving DecidableEq, Repr

/-- `NewMemLogger`. -/
def NewMemLogger : MemLogger := ⟨[]⟩

/-- `(*MemLogger).appendToLogIfRoom`. -/
def MemLogger.appendToLogIfRoom (l : MemLogger) (msg : LogMessage) : MemLogger :=
  if l.msgs.length < MemLoggerMaxMsgs then ⟨l.msgs ++ [msg]⟩ else l

def MemLogger.Trace (l : MemLogger) (vals : List Arg) : MemLogger :=
  l.appendToLogIfRoom ⟨TraceLevel, Sprint vals⟩
def MemLogger.Debug (l : MemLogger) (vals : List Arg) : MemLogger :=
  l.appendToLogIfRoom ⟨DebugLevel, Sprint vals⟩
def MemLogger.Info (l : MemLogger) (vals : List Arg) : MemLogger :=
  l.appendToLogIfRoom ⟨InfoLevel, Sprint vals⟩
def MemLogger.Error (l : MemLogger) (vals : List Arg) : MemLogger :=
  l.appendToLogIfRoom ⟨ErrorLevel, Sprint vals⟩
def MemLogger.Tracef [FmtPrinter] (l : MemLogger) (format : Str) (params : List Arg) : MemLogger :=
  l.appendToLogIfRoom ⟨TraceLevel, Sprintf format params⟩
def MemLogger.Debugf [FmtPrinter] (l : MemLogger) (format : Str) (params : List Arg) : MemLogger :=
  l.appendToLogIfRoom ⟨DebugLevel, Sprintf format params⟩
def MemLogger.Infof [FmtPrinter] (l : MemLogger) (format : Str) (params : List Arg) : MemLogger :=
  l.appendToLogIfRoom ⟨InfoLevel, Sprintf format params⟩
def MemLogger.Errorf [FmtPrinter] (l : MemLogger) (format : Str) (params : List Arg) : MemLogger :=
  l.appendToLogIfRoom ⟨ErrorLevel, Sprintf format params⟩

/-- `(*MemLogger).SetLogLevel`: "Store them all." -/
def MemLogger.SetLogLevel (l : MemLogger) (_newLevel : Level) : MemLogger := l

/-- `(*MemLogger).LogLevel`. -/
def MemLogger.LogLevel (_l : MemLogger) : Level := TraceLevel

/-- `(*MemLogger).ExtractMsgs`: the returned slice and the logger left behind. -/
def MemLogger.ExtractMsgs (l : MemLogger) : List LogMessage × MemLogger :=
  (l.msgs, ⟨[]⟩)

/-! ## tee_logger.go -/

/-- `type TeeLogger struct`: the embedded `Logger`, which `NewTeeLogger` leaves
nil (`none`), and the delegates. -/
structure TeeLogger (W : Type) where
  Logger : Option (Logging.Logger W)
  loggers : List (Logging.Logger W)

/-- `NewTeeLogger`. -/
def NewTeeLogger {W : Type} (loggers : List (Logger W)) : TeeLogger W :=
  { Logger := none, loggers := loggers }

def TeeLogger.Trace {W : Type} (l : TeeLogger W) (vals : List Arg) (w : W) : W :=
  l.loggers.foldl (fun w logger => logger.Trace vals w) w
def TeeLogger.Debug {W : Type} (l : TeeLogger W) (vals : List Arg) (w : W) : W :=
  l.loggers.foldl (fun w logger => logger.Debug vals w) w
def TeeLogger.Info {W : Type} (l : TeeLogger W) (vals : List Arg) (w : W) : W :=
  l.loggers.foldl (fun w logger => logger.Info vals w) w
def TeeLogger.Error {W : Type} (l : TeeLogger W) (vals : List Arg) (w : W) : W :=
  l.loggers.foldl (fun w logger => logger.Error vals w) w
def TeeLogger.Tracef {W : Type} (l : TeeLogger W) (fmt : Str) (params : List Arg) (w : W) : W :=
  l.loggers.foldl (fun w logger => logger.Tracef fmt params w) w
def TeeLogger.Debugf {W : Type} (l : TeeLogger W) (fmt : Str) (params : List Arg) (w : W) : W :=
  l.loggers.foldl (fun w logger => logger.Debugf fmt params w) w
def TeeLogger.Infof {W : Type} (l : TeeLogger W) (fmt : Str) (params : List Arg) (w : W) : W :=
  l.loggers.foldl (fun w logger => logger.Infof fmt params w) w
def TeeLogger.Errorf {W : Type} (l : TeeLogger W) (fmt : Str) (params : List Arg) (w : W) : W :=
  l.loggers.foldl (fun w logger => logger.Errorf fmt params w) w

/-- `(*TeeLogger).SetLogLevel`. -/
def TeeLogger.SetLogLevel {W : Type} (l : TeeLogger W) (newLevel : Level) (w : W) : W :=
  l.loggers.foldl (fun w logger => logger.SetLogLevel newLevel w) w

/-! ## cancellable_logger.go -/

/-- `type DiscardLogger struct{}` as a `Logger`: every method returns at once,
`LogLevel` returns `ErrorLevel`. -/
def DiscardLogger (W : Type) : Logger W :=
  { Trace := fun _ w => w
    Tracef := fun _ _ w => w
    Debug := fun _ w => w
    Debugf := fun _ _ w => w
    Info := fun _ w => w
    Infof := fun _ _ w => w
    Error := fun _ w => w
    Errorf := fun _ _ w => w
    LogLevel := fun _ => ErrorLevel
    SetLogLevel := fun _ w => w }

/-- `type CancellableLogger struct`: the embedded `Logger`.  The mutex orders
concurrent calls and has no part in a sequence of calls made one at a time. -/
structure CancellableLogger (W : Type) where
  Logger : Logger W

def CancellableLogger.Trace {W : Type} (c : CancellableLogger W) (v : List Arg) (w : W) : W :=
  c.Logger.Trace v w
def CancellableLogger.Tracef {W : Type} (c : CancellableLogger W) (f : Str) (a : List Arg)
    (w : W) : W := c.Logger.Tracef f a w
def CancellableLogger.Debug {W : Type} (c : CancellableLogger W) (v : List Arg) (w : W) : W :=
  c.Logger.Debug v w
def CancellableLogger.Debugf {W : Type} (c : CancellableLogger W) (f : Str) (a : List Arg)
    (w : W) : W := c.Logger.Debugf f a w
def CancellableLogger.Info {W : Type} (c : CancellableLogger W) (v : List Arg) (w : W) : W :=
  c.Logger.Info v w
def CancellableLogger.Infof {W : Type} (c : CancellableLogger W) (f : Str) (a : List Arg)
    (w : W) : W := c.Logger.Infof f a w
def CancellableLogger.Error {W : Type} (c : CancellableLogger W) (v : List Arg) (w : W) : W :=
  c.Logger.Error v w
def CancellableLogger.Errorf {W : Type} (c : CancellableLogger W) (f : Str) (a : List Arg)
    (w : W) : W := c.Logger.Errorf f a w

/-- `(*CancellableLogger).LogLevel`. -/
def CancellableLogger.LogLevel {W : Type} (c : CancellableLogger W) (w : W) : Level :=
  c.Logger.LogLevel w

/-- `(*CancellableLogger).SetLogLevel`. -/
def CancellableLogger.SetLogLevel {W : Type} (c : CancellableLogger W) (newLev : Level)
    (w : W) : W := c.Logger.SetLogLevel newLev w

/-- `(*CancellableLogger).Cancel`. -/
def CancellableLogger.Cancel {W : Type} (_c : CancellableLogger W) : CancellableLogger W :=
  { Logger := DiscardLogger W }

/-! ## Notions the statements about the loggers are written in -/

/-- A call of one of the eight log methods of a `Logger`, or of `SetLogLevel`,
with its arguments. -/
inductive Call where
  | Trace (vals : List Arg)
  | Tracef (fmt : Str) (args : List Arg)
  | Debug (vals : List Arg)
  | Debugf (fmt : Str) (args : List Arg)
  | Info (vals : List Arg)
  | Infof (fmt : Str) (args : List Arg)
  | Error (vals : List Arg)
  | Errorf (fmt : Str) (args : List Arg)
  | SetLogLevel (newLevel : Level)
deriving DecidableEq, Repr

/-- The level of the log method called; `none` for `SetLogLevel`. -/
def Call.level : Call → Option Level
  | .Trace _ | .Tracef _ _ => some TraceLevel
  | .Debug _ | .Debugf _ _ => some DebugLevel
  | .Info _ | .Infof _ _ => some InfoLevel
  | .Error _ | .Errorf _ _ => some ErrorLevel
  | .SetLogLevel _ => none

/-- The format string given to the call, the empty string for the unformatted
methods. -/
def Call.fmt : Call → Str
  | .Tracef f _ | .Debugf f _ | .Infof f _ | .Errorf f _ => f
  | _ => []

/-- The operands given to the call, in the order given. -/
def Call.args : Call → List Arg
  | .Trace v | .Debug v | .Info v | .Error v => v
  | .Tracef _ a | .Debugf _ a | .Infof _ a | .Errorf _ a => a
  | .SetLogLevel _ => []

/-- The rendered message text of a log call: `Sprint` of the operands for the
unformatted methods, `Sprintf` otherwise. -/
def Call.text [FmtPrinter] : Call → Str
  | .Trace v | .Debug v | .Info v | .Error v => Sprint v
  | .Tracef f a | .Debugf f a | .Infof f a | .Errorf f a => Sprintf f a
  | .SetLogLevel _ => []

/-- The record a log call stands for: the level of the method and the rendered
message text. -/
def Call.record [FmtPrinter] (c : Call) : Option LogMessage :=
  c.level.map (fun l => ⟨l, c.text⟩)

/-- A call made on a `Logger`. -/
def Logger.perform {W : Type} (l : Logger W) : Call → W → W
  | .Trace v => l.Trace v
  | .Tracef f a => l.Tracef f a
  | .Debug v => l.Debug v
  | .Debugf f a => l.Debugf f a
  | .Info v => l.Info v
  | .Infof f a => l.Infof f a
  | .Error v => l.Error v
  | .Errorf f a => l.Errorf f a
  | .SetLogLevel n => l.SetLogLevel n

/-- A call made on a `StdLogger`. -/
def StdLogger.perform {σ : Type} (l : StdLogger σ) (site : CallSite) :
    Call → StdLogger σ × Option WriteFailure
  | .Trace v => l.Trace site v
  | .Tracef f a => l.Tracef site f a
  | .Debug v => l.Debug site v
  | .Debugf f a => l.Debugf site f a
  | .Info v => l.Info site v
  | .Infof f a => l.Infof site f a
  | .Error v => l.Error site v
  | .Errorf f a => l.Errorf site f a
  | .SetLogLevel n => (l.SetLogLevel n, none)

/-- A call made on a `MemLogger`. -/
def MemLogger.perform [FmtPrinter] (l : MemLogger) : Call → MemLogger
  | .Trace v => l.Trace v
  | .Tracef f a => l.Tracef f a
  | .Debug v => l.Debug v
  | .Debugf f a => l.Debugf f a
  | .Info v => l.Info v
  | .Infof f a => l.Infof f a
  | .Error v => l.Error v
  | .Errorf f a => l.Errorf f a
  | .SetLogLevel n => l.SetLogLevel n

/-- A call made on a `TeeLogger`. -/
def TeeLogger.perform {W : Type} (l : TeeLogger W) : Call → W → W
  | .Trace v => l.Trace v
  | .Tracef f a => l.Tracef f a
  | .Debug v => l.Debug v
  | .Debugf f a => l.Debugf f a
  | .Info v => l.Info v
  | .Infof f a => l.Infof f a
  | .Error v => l.Error v
  | .Errorf f a => l.Errorf f a
  | .SetLogLevel n => l.SetLogLevel n

/-- A call made on a `CancellableLogger`. -/
def CancellableLogger.perform {W : Type} (c : CancellableLogger W) : Call → W → W
  | .Trace v => c.Trace v
  | .Tracef f a => c.Tracef f a
  | .Debug v => c.Debug v
  | .Debugf f a => c.Debugf f a
  | .Info v => c.Info v
  | .Infof f a => c.Infof f a
  | .Error v => c.Error v
  | .Errorf f a => c.Errorf f a
  | .SetLogLevel n => c.SetLogLevel n

/-- The four defined levels, in their order. -/
def allLevels : List Level := [TraceLevel, DebugLevel, InfoLevel, ErrorLevel]

/-- The names `ParseLevel` knows, each with the level it denotes. -/
def levelNames : List (Str × Level) :=
  [("t".toList, TraceLevel), ("trace".toList, TraceLevel),
   ("d".toList, DebugLevel), ("debug".toList, DebugLevel),
   ("i".toList, InfoLevel), ("info".toList, InfoLevel),
   ("e".toList, ErrorLevel), ("error".toList, ErrorLevel)]

/-- Two strings are equal when the case of their ASCII letters is ignored:
same length, and the letters agree position by position up to case. -/
def equalFold : Str → Str → Bool
  | [], [] => true
  | a :: as, b :: bs => a.toLower = b.toLower && equalFold as bs
  | _, _ => false

/-- A writer that keeps every entry handed to it, oldest first, and never fails. -/
def recordWriter (es : List Entry) : Writer (List Entry) :=
  { state := es, write := fun e s => (s ++ [e], none) }

/-- The entry of a log call on a `StdLogger` as the specification describes it:
level of the method, time and position of the call, context of the logger,
format and operands as given. -/
def Call.entry (c : Call) (level : Level) (context : Str) (site : CallSite) : Entry :=
  { Level := level, Time := site.now, File := site.file, Line := site.line,
    Context := context, Fmt := c.fmt, Args := c.args }

/-- A logger that keeps every call made on it, in the order of the calls; its
level is `TraceLevel`. -/
def recorder : Logger (List Call) :=
  { Trace := fun v w => w ++ [.Trace v]
    Tracef := fun f a w => w ++ [.Tracef f a]
    Debug := fun v w => w ++ [.Debug v]
    Debugf := fun f a w => w ++ [.Debugf f a]
    Info := fun v w => w ++ [.Info v]
    Infof := fun f a w => w ++ [.Infof f a]
    Error := fun v w => w ++ [.Error v]
    Errorf := fun f a w => w ++ [.Errorf f a]
    LogLevel := fun _ => TraceLevel
    SetLogLevel := fun n w => w ++ [.SetLogLevel n] }

/-- A delegate that notes each call made on it together with its own name `i`
in a log shared by all delegates. -/
def namedRecorder (i : Nat) : Logger (List (Nat × Call)) :=
  { Trace := fun v w => w ++ [(i, .Trace v)]
    Tracef := fun f a w => w ++ [(i, .Tracef f a)]
    Debug := fun v w => w ++ [(i, .Debug v)]
    Debugf := fun f a w => w ++ [(i, .Debugf f a)]
    Info := fun v w => w ++ [(i, .Info v)]
    Infof := fun f a w => w ++ [(i, .Infof f a)]
    Error := fun v w => w ++ [(i, .Error v)]
    Errorf := fun f a w => w ++ [(i, .Errorf f a)]
    LogLevel := fun _ => TraceLevel
    SetLogLevel := fun n w => w ++ [(i, .SetLogLevel n)] }

/-- A `StdLogger` as a `Logger`, for a program state `W` in which it is found
by `get` and replaced by `set`; every call is made from `site`. -/
def StdLogger.toLogger {σ W : Type} (site : CallSite) (get : W → StdLogger σ)
    (set : StdLogger σ → W → W) : Logger W :=
  { Trace := fun v w => set ((get w).Trace site v).1 w
    Tracef := fun f a w => set ((get w).Tracef site f a).1 w
    Debug := fun v w => set ((get w).Debug site v).1 w
    Debugf := fun f a w => set ((get w).Debugf site f a).1 w
    Info := fun v w => set ((get w).Info site v).1 w
    Infof := fun f a w => set ((get w).Infof site f a).1 w
    Error := fun v w => set ((get w).Error site v).1 w
    Errorf := fun f a w => set ((get w).Errorf site f a).1 w
    LogLevel := fun w => (get w).LogLevel
    SetLogLevel := fun n w => set ((get w).SetLogLevel n) w }

/-- An operation on a `CancellableLogger`: a call of the interface, or `Cancel`. -/
inductive WrapperOp where
  | call (c : Call)
  | Cancel
deriving DecidableEq, Repr

/-- One operation on a `CancellableLogger` and the state its delegate acts on. -/
def CancellableLogger.step {W : Type} (s : CancellableLogger W × W) :
    WrapperOp → CancellableLogger W × W
  | .call c => (s.1, s.1.perform c s.2)
  | .Cancel => (s.1.Cancel, s.2)

/-- The calls of a sequence of operations that come before its first `Cancel`. -/
def callsBeforeCancel : List WrapperOp → List Call
  | [] => []
  | .call c :: ops => c :: callsBeforeCancel ops
  | .Cancel :: _ => []

/-- The entry after `Next` has consumed a line that is not malformed: the entry
of the line when it starts one, the open entry with the text of the line added
to its message otherwise. -/
def consume (entry : logEntry) (line : Str) : logEntry :=
  if (determineLineType line).1 = .entryStart then (determineLineType line).2
  else { entry with msg := entry.msg ++ (determineLineType line).2.msg }


/-! ## text_writer.go: the sink -/

/-- An `io.Writer`: its state and its method `Write`, which returns the state
after the call, the count `n` and the error (`none` for nil). -/
structure Sink (σ : Type) where
  state : σ
  write : Str → σ → σ × Int × Option Str

/-- `io.ErrShortWrite`. -/
def ErrShortWrite : Str := "short write".toList

/-- The outcome of `(*bytes.Buffer).WriteTo`: it panics when the sink reports a
count above the number of bytes it was given, and returns an error otherwise. -/
inductive WriteToResult (σ : Type) where
  | invalidWriteCount
  | returned (w : Sink σ) (err : Option Str)

/-- `(*bytes.Buffer).WriteTo` on a buffer that holds `buf`: one call of the
sink's `Write` with the whole content when there is any; the sink's error is
returned, and `io.ErrShortWrite` when the sink took fewer bytes without one. -/
def BufferWriteTo {σ : Type} (buf : Str) (w : Sink σ) : WriteToResult σ :=
  if 0 < buf.length then
    let r := w.write buf w.state
    if (buf.length : Int) < r.2.1 then .invalidWriteCount
    else
      match r.2.2 with
      | some e => .returned { w with state := r.1 } (some e)
      | none =>
        if r.2.1 ≠ (buf.length : Int) then .returned { w with state := r.1 } (some ErrShortWrite)
        else .returned { w with state := r.1 } none
  else .returned w none

/-- `(*TextWriter).Write` with its sink `t.Writer`: the rendered entry is handed
to the sink by `buf.WriteTo(t.Writer)`, whose error is the error of `Write`. -/
def TextWriter.WriteSink [FmtPrinter] {σ : Type} (Writer : Sink σ) (e : Entry) : WriteToResult σ :=
  BufferWriteTo (TextWriter.Write e) Writer

/-! ## tee_logger.go: the method promoted from the embedded `Logger` -/

/-- The run-time panic of a method call on a nil interface value. -/
def nilDereference : Str := "runtime error: invalid memory address or nil pointer dereference".toList

/-- `TeeLogger` declares no `LogLevel`; the call goes to the embedded `Logger`,
and panics when that is nil. -/
def TeeLogger.LogLevel {W : Type} (l : TeeLogger W) (w : W) : Except Str Level :=
  match l.Logger with
  | none => .error nilDereference
  | some d => .ok (d.LogLevel w)

/-! ## Notions the statements about the sink are written in -/

/-- A sink that keeps the block of every `Write` call and accepts all of it,
as a `bytes.Buffer` does. -/
def blockSink (blocks : List Str) : Sink (List Str) :=
  { state := blocks, write := fun p s => (s ++ [p], (p.length : Int), none) }

/-- A sink whose every `Write` fails with `err` after taking `n` bytes. -/
def failingSink (n : Int) (err : Str) : Sink Unit :=
  { state := (), write := fun _ s => (s, n, some err) }

/-- A sink whose `Write` reports one byte more than it was given, with the
error `err`. -/
def overshootSink (err : Option Str) : Sink Unit :=
  { state := (), write := fun p s => (s, (p.length : Int) + 1, err) }

/-- A writer of entries whose every `Write` fails with `err`. -/
def failingWriter (err : Str) : Writer Unit :=
  { state := (), write := fun _ s => (s, some err) }

/-- The call `Debugf("asdf", 1, 2, "x")` of `TestStdLogger` as an entry. -/
def entryAsdf : Entry :=
  ⟨DebugLevel, testTime, "/path/to/file.js".toList, 12, "test".toList, "asdf".toList,
    [.int 1, .int 2, .str "x".toList]⟩

/-- An entry whose format ends in a percent sign. -/
def entryPercent : Entry :=
  ⟨InfoLevel, testTime, "/path/to/file.js".toList, 12, "ctx".toList, "100%".toList, []⟩

/-- The time of the tests in the zone one hour east of UTC. -/
def testTimeEast : Time := { testTime with offset := 3600 }

/-- What the caller of `WriteTo` sees: `none` for the panic, otherwise the error
returned. -/
def WriteToResult.outcome {σ : Type} : WriteToResult σ → Option (Option Str)
  | .invalidWriteCount => none
  | .returned _ err => some err

/-- The state of the sink after `WriteTo` has returned. -/
def WriteToResult.sink {σ : Type} : WriteToResult σ → Option σ
  | .invalidWriteCount => none
  | .returned w _ => some w.state

/-! ## text_writer.go: goroutines that call `Write` on one `TextWriter` -/

/-- Where a goroutine in `(*TextWriter).Write` stands: before the buffer is
filled; with the buffer filled, before `t.mutex.Lock()`; inside `buf.WriteTo`
with the bytes the sink has not taken yet; before `t.mutex.Unlock()`; returned. -/
inductive WritePc where
  | start
  | filled (buf : Str)
  | locked (buf : Str)
  | written
  | done
deriving DecidableEq, Repr

/-- The state the goroutines share, the bytes the sink has received and the
mutex, and the place of each goroutine. -/
structure WriteState where
  sink : Str
  mutex : Bool
  pc : Nat → WritePc

/-- Before any goroutine has moved. -/
def WriteState.init : WriteState := ⟨[], false, fun _ => .start⟩

/-- One step of goroutine `i`, which writes the entry `es[i]`.  A goroutine that
waits for the mutex, or has returned, stays where it is.  The sink takes the
bytes of the block one at a time, so that nothing but the mutex keeps the
blocks of two goroutines apart. -/
def TextWriter.step [FmtPrinter] (es : List Entry) (s : WriteState) (i : Nat) : WriteState :=
  match es[i]? with
  | none => s
  | some e =>
    match s.pc i with
    | .start => { s with pc := Function.update s.pc i (.filled (TextWriter.Write e)) }
    | .filled buf =>
      if s.mutex then s
      else { s with mutex := true, pc := Function.update s.pc i (.locked buf) }
    | .locked [] => { s with pc := Function.update s.pc i .written }
    | .locked (c :: cs) =>
      { s with sink := s.sink ++ [c], pc := Function.update s.pc i (.locked cs) }
    | .written => { s with mutex := false, pc := Function.update s.pc i .done }
    | .done => s

/-- The state after the goroutines have moved in the order of the schedule. -/
def TextWriter.run [FmtPrinter] (es : List Entry) (schedule : List Nat) : WriteState :=
  schedule.foldl (TextWriter.step es) WriteState.init

/-- The goroutine holds the mutex. -/
def WritePc.inCS : WritePc → Bool
  | .locked _ => true
  | .written => true
  | _ => false

/-- The goroutine has taken the mutex at some time. -/
def WritePc.acquired : WritePc → Bool
  | .locked _ => true
  | .written => true
  | .done => true
  | _ => false

/-- The bytes of its block the goroutine has still to hand to the sink. -/
def WritePc.pending : WritePc → Str
  | .locked b => b
  | _ => []

/-- The block of goroutine `i`. -/
def renderAt [FmtPrinter] (es : List Entry) (i : Nat) : Str :=
  match es[i]? with
  | some e => TextWriter.Write e
  | none => []

/-- The bytes the goroutine that took the mutex last has still to write. -/
def lastPending (s : WriteState) (order : List Nat) : Str :=
  match order.getLast? with
  | some h => (s.pc h).pending
  | none => []

/-- What holds in every state the goroutines can reach, `order` being the order
in which they took the mutex: the sink holds the blocks of these goroutines in
that order, whole but for the bytes the last of them has still to write. -/
def WriteInv [FmtPrinter] (es : List Entry) (s : WriteState) (order : List Nat) : Prop :=
  order.Nodup ∧
  (∀ i, i ∈ order ↔ i < es.length ∧ (s.pc i).acquired = true) ∧
  (∀ i b, s.pc i = .filled b → b = renderAt es i) ∧
  (∀ i, (s.pc i).inCS = true → s.mutex = true ∧ order.getLast? = some i) ∧
  (s.mutex = true → ∃ h, (s.pc h).inCS = true) ∧
  s.sink ++ lastPending s order = (order.map (renderAt es)).flatten

/-- Two goroutines that write the first two entries of `TestTextWriter`. -/
def twoWriters : List Entry := [entryHiThere, entryFormat]

/-- A schedule of the two goroutines: both fill their buffers, the second takes
the mutex, the first finds it taken, the second writes its block and releases
the mutex, then the first writes its block. -/
def twoWritersSchedule : List Nat :=
  [0, 1, 1, 0, 0] ++ List.replicate ((TextWriter.Write entryFormat).length + 2) 1 ++
    List.replicate ((TextWriter.Write entryHiThere).length + 3) 0

/-! ## cancellable_logger.go: log calls that run beside `Cancel` -/

/-- The logger the field `c.Logger` refers to: the one the wrapper was made
with, or the `DiscardLogger{}` that `Cancel` puts in its place. -/
inductive Delegate where
  | original
  | discard
deriving DecidableEq, Repr

/-- Where a goroutine in a log call on the wrapper stands: before `c.m.RLock()`;
with the read lock, before it reads `c.Logger`; in the method of the logger it
has read; after that method, before the deferred `RUnlock`; returned. -/
inductive CallPc where
  | start
  | rlocked
  | calling (d : Delegate)
  | called
  | done
deriving DecidableEq, Repr

/-- Where the goroutine in `Cancel` stands: before `c.m.Lock()`; with the write
lock, before it assigns `c.Logger`; before `c.m.Unlock()`; returned. -/
inductive CancelPc where
  | start
  | locked
  | assigned
  | done
deriving DecidableEq, Repr

/-- The wrapper and its goroutines: the field `Logger`; the `sync.RWMutex`, as
the number of read locks held, the flag of the write lock and the flag of a
`Lock` call that waits for the read locks to be released; the calls the
original logger has handled, each named by its goroutine; the places of the
goroutines in log calls and of the one in `Cancel`. -/
structure CancelState where
  Logger : Delegate
  readers : Nat
  writer : Bool
  pending : Bool
  handled : List Nat
  pc : Nat → CallPc
  cancel : CancelPc

/-- A goroutine: one of the log calls, or the call of `Cancel`. -/
inductive Goroutine where
  | caller (i : Nat)
  | canceller
deriving DecidableEq, Repr

/-- A wrapper around the original logger, before any goroutine has moved. -/
def CancelState.init : CancelState := ⟨.original, 0, false, false, [], fun _ => .start, .start⟩

/-- One step of a goroutine, `n` being the number of log calls.  `Lock` waits
while a read lock is held, and `RLock` waits while the write lock is held or a
`Lock` call waits for it; a goroutine that waits, or has returned, stays where
it is.  The read of
`c.Logger`, the method of the logger read, and the assignment in `Cancel` are
steps of their own. -/
def CancelState.step (n : Nat) (s : CancelState) : Goroutine → CancelState
  | .caller i =>
    if i < n then
      match s.pc i with
      | .start =>
        if s.writer = true ∨ s.pending = true then s
        else { s with readers := s.readers + 1, pc := Function.update s.pc i .rlocked }
      | .rlocked => { s with pc := Function.update s.pc i (.calling s.Logger) }
      | .calling d =>
        { s with handled := if d = .original then s.handled ++ [i] else s.handled,
                 pc := Function.update s.pc i .called }
      | .called => { s with readers := s.readers - 1, pc := Function.update s.pc i .done }
      | .done => s
    else s
  | .canceller =>
    match s.cancel with
    | .start =>
      if s.writer = false ∧ s.readers = 0 then
        { s with writer := true, pending := false, cancel := .locked }
      else { s with pending := true }
    | .locked => { s with Logger := .discard, cancel := .assigned }
    | .assigned => { s with writer := false, cancel := .done }
    | .done => s

/-- The state after the goroutines have moved in the order of the schedule. -/
def CancelState.run (n : Nat) (schedule : List Goroutine) : CancelState :=
  schedule.foldl (CancelState.step n) CancelState.init

/-- The goroutine holds a read lock. -/
def CallPc.reading : CallPc → Bool
  | .rlocked => true
  | .calling _ => true
  | .called => true
  | _ => false

/-- What holds in every state the goroutines can reach: a `Lock` call waits
only before `Cancel` holds the lock, the mutex counts the log calls that hold a
read lock, the write lock is held exactly while `Cancel`
is between `Lock` and `Unlock` and then no read lock is, `c.Logger` is the
discard logger exactly from the assignment on, a call runs in the logger
`c.Logger` refers to, and the original logger has handled no call twice. -/
def CancelInv (n : Nat) (s : CancelState) : Prop :=
  (s.pending = true → s.cancel = .start) ∧
  (∀ i, n ≤ i → s.pc i = .start) ∧
  s.readers = ∑ j in Finset.range n, (if (s.pc j).reading = true then 1 else 0) ∧
  (s.writer = true ↔ s.cancel = .locked ∨ s.cancel = .assigned) ∧
  (s.writer = true → s.readers = 0) ∧
  (s.Logger = .discard ↔ s.cancel = .assigned ∨ s.cancel = .done) ∧
  (∀ i d, s.pc i = .calling d → d = s.Logger) ∧
  s.handled.Nodup ∧
  (∀ i ∈ s.handled, s.pc i = .called ∨ s.pc i = .done)

/-- Three log calls and a `Cancel`: the first call reads the logger and runs,
the second takes its read lock, `Cancel` finds the lock taken and waits, the
two calls return, `Cancel` replaces the logger, and the third call starts
after it. -/
def raceSchedule : List Goroutine :=
  [.caller 0, .caller 0, .caller 1, .canceller, .caller 0, .caller 1, .caller 1, .caller 0,
    .caller 1, .canceller, .canceller, .caller 2, .canceller, .caller 2, .caller 2, .caller 2,
    .caller 2]


/-! ## Decimal digits -/

theorem digitChar_isDigit (n : Nat) (h : n < 10) : isDigit (Nat.digitChar n) = true := by
  interval_cases n <;> decide

theorem toDigitsCore_isDigit (fuel : Nat) : ∀ (n : Nat) (ds : Str),
    (∀ c ∈ ds, isDigit c = true) → ∀ c ∈ Nat.toDigitsCore 10 fuel n ds, isDigit c = true := by
  induction fuel with
  | zero => intro n ds h; simpa [Nat.toDigitsCore] using h
  | succ f ih =>
    intro n ds h
    have hd : isDigit (Nat.digitChar (n % 10)) = true :=
      digitChar_isDigit _ (Nat.mod_lt _ (by decide))
    have hds : ∀ c ∈ Nat.digitChar (n % 10) :: ds, isDigit c = true := by
      intro c hc
      rcases List.mem_cons.1 hc with rfl | hc
      · exact hd
      · exact h c hc
    simp only [Nat.toDigitsCore]
    split
    · exact hds
    · exact ih _ _ hds

theorem toDigitsCore_ne_nil (fuel : Nat) : ∀ (n : Nat) (ds : Str),
    (fuel ≠ 0 ∨ ds ≠ []) → Nat.toDigitsCore 10 fuel n ds ≠ [] := by
  induction fuel with
  | zero => intro n ds h; simpa [Nat.toDigitsCore] using h
  | succ f ih =>
    intro n ds _
    simp only [Nat.toDigitsCore]
    split
    · simp
    · exact ih _ _ (Or.inr (by simp))

theorem natDec_isDigit (n : Nat) : ∀ c ∈ natDec n, isDigit c = true :=
  toDigitsCore_isDigit _ _ _ (by simp)

theorem natDec_ne_nil (n : Nat) : natDec n ≠ [] :=
  toDigitsCore_ne_nil _ _ _ (Or.inl (by simp))

theorem natDec_length_le (n e : Nat) (he : 0 < e) (h : n < 10 ^ e) : (natDec n).length ≤ e :=
  Nat.toDigitsCore_length 10 (by decide) _ _ _ h he

theorem isDigit_ne_newline (c : Char) (h : isDigit c = true) : c ≠ '\n' := by
  rintro rfl; exact absurd h (by decide)

theorem appendInt_isDigit (x w : Nat) : ∀ c ∈ appendInt x w, isDigit c = true := by
  intro c hc
  rcases List.mem_append.1 hc with h | h
  · rw [List.eq_of_mem_replicate h]; decide
  · exact natDec_isDigit _ _ h

theorem appendInt_length (x w e : Nat) (he : 0 < e) (h : x < 10 ^ e) (hw : e ≤ w) :
    (appendInt x w).length = w := by
  have := natDec_length_le x e he h
  simp only [appendInt, List.length_append, List.length_replicate]
  omega

/-! ## Package fmt -/

/-- On a format of the fragment `Sprintf` does not depend on the printer. -/
theorem Sprintf_simple [FmtPrinter] (format : Str) (a : List Arg) (out : Str)
    (h : simpleSprintf format a = some out) : Sprintf format a = out := by
  simp [Sprintf, h]

/-- The formats of the examples, with and without the newline that `Write`
appends, lie in the fragment. -/
theorem examples_simple :
    ∀ e ∈ [entryHiThere, entryFormat, entrySurplus, entryFileNewline, entryTrace, entryNoOrigin,
        entryHyphen, entryClose, entryCR, entryABC, entryABCTrace, entryCloseLines, entryCRLines,
        entryAsdf, entryPercent],
      (simpleSprintf e.Fmt e.Args).isSome = true ∧
        (simpleSprintf (e.Fmt ++ ['\n']) e.Args).isSome = true := by
  decide

/-! ## The continuation writer -/

theorem PrefixWriter_append (marker : Str) : ∀ (a b : Str) (mid : Bool),
    PrefixWriter.Write marker mid (a ++ b) =
      ((PrefixWriter.Write marker mid a).1 ++
          (PrefixWriter.Write marker (PrefixWriter.Write marker mid a).2 b).1,
        (PrefixWriter.Write marker (PrefixWriter.Write marker mid a).2 b).2) := by
  intro a
  induction a with
  | nil => intro b mid; simp [PrefixWriter.Write]
  | cons c cs ih => intro b mid; simp [PrefixWriter.Write, ih]

theorem PrefixWriter_lines (marker : Str) : ∀ (text : Str) (mid : Bool),
    (PrefixWriter.Write marker mid text).1 =
      match splitLines text with
      | [] => []
      | l :: ls => (if mid then [] else marker) ++ l ++ (ls.map (fun x => marker ++ x)).flatten := by
  intro text
  induction text with
  | nil => intro mid; simp [PrefixWriter.Write, splitLines]
  | cons c cs ih =>
    intro mid
    simp only [PrefixWriter.Write, splitLines]
    by_cases hc : c = '\n'
    · subst hc
      rw [ih]
      cases splitLines cs <;> simp
    · rw [ih]
      simp only [hc, if_false]
      cases splitLines cs <;> simp [hc]

theorem PrefixWriter_noNewline (marker : Str) : ∀ (text : Str), '\n' ∉ text →
    PrefixWriter.Write marker true text = (text, true) := by
  intro text
  induction text with
  | nil => intro _; simp [PrefixWriter.Write]
  | cons c cs ih =>
    intro h
    have hc : c ≠ '\n' := fun e => h (by simp [e])
    have hcs : '\n' ∉ cs := fun e => h (by simp [e])
    simp [PrefixWriter.Write, ih hcs, hc]

theorem Write_eq_single [FmtPrinter] (e : Entry) :
    TextWriter.Write e = (PrefixWriter.Write continuation true (e.header ++ e.content)).1 := by
  simp [TextWriter.Write, PrefixWriter_append]


theorem PrefixWriter_state (marker : Str) : ∀ (a : Str) (c : Char) (mid : Bool),
    (PrefixWriter.Write marker mid (a ++ [c])).2 = decide (c ≠ '\n') := by
  intro a
  induction a with
  | nil => intro c mid; simp [PrefixWriter.Write]
  | cons x xs ih => intro c mid; simp [PrefixWriter.Write, ih]

theorem Write_eq_continuationForm [FmtPrinter] (e : Entry) :
    TextWriter.Write e = continuationForm (e.header ++ e.content) := by
  rw [Write_eq_single, PrefixWriter_lines, continuationForm]
  cases splitLines (e.header ++ e.content) <;> simp

/-- A text without a newline, followed by one newline, passes the writer unchanged. -/
theorem PrefixWriter_single_line (marker text : Str) (h : '\n' ∉ text) :
    (PrefixWriter.Write marker true (text ++ ['\n'])).1 = text ++ ['\n'] := by
  rw [PrefixWriter_append, PrefixWriter_noNewline marker text h]
  simp [PrefixWriter.Write]

/-! ## The timestamp -/

theorem fmtZone_isZone (offset : Int) : ∀ c ∈ fmtZone offset, isZone c = true := by
  intro c hc
  unfold fmtZone at hc
  split at hc
  · rw [List.mem_singleton.1 hc]; decide
  · rcases List.mem_cons.1 hc with h | h
    · rw [h]; split <;> decide
    · have hd : isDigit c = true := by
        rcases List.mem_append.1 h with h | h <;> exact appendInt_isDigit _ _ _ h
      simp [isZone, hd]

theorem fmtZone_ne_nil (offset : Int) : fmtZone offset ≠ [] := by
  unfold fmtZone; split <;> simp

theorem isZone_isStampChar (c : Char) (h : isZone c = true) : isStampChar c = true := by
  simp only [isZone, Bool.or_eq_true, decide_eq_true_eq] at h
  simp only [isStampChar, Bool.or_eq_true, decide_eq_true_eq]
  tauto

theorem Format_isStampChar (t : Time) : ∀ c ∈ t.Format, isStampChar c = true := by
  intro c hc
  have hd : ∀ x w, c ∈ appendInt x w → isStampChar c = true := by
    intro x w h
    simp [isStampChar, appendInt_isDigit x w c h]
  simp only [Time.Format, List.mem_append, List.mem_singleton] at hc
  rcases hc with ((((((((((h | h) | h) | h) | h) | h) | h) | h) | h) | h) | h)
  any_goals exact hd _ _ h
  any_goals (subst h; decide)
  all_goals exact isZone_isStampChar _ (fmtZone_isZone _ _ h)

theorem fmtTimestamp_noNewline (t : Time) : '\n' ∉ fmtTimestamp t := by
  intro h
  exact absurd (Format_isStampChar t _ h) (by decide)

/-! ## The encoder -/

theorem PrefixWriter_after_space (marker X seg Y : Str) :
    (PrefixWriter.Write marker true (X ++ [' '] ++ (seg ++ Y))).1 =
      (PrefixWriter.Write marker true (X ++ [' '])).1 ++ (PrefixWriter.Write marker true seg).1 ++
        (PrefixWriter.Write marker (PrefixWriter.Write marker true seg).2 Y).1 := by
  rw [PrefixWriter_append marker (X ++ [' ']), PrefixWriter_state,
    PrefixWriter_append marker seg]
  simp

theorem Level_render_noNewline (l : Level) (c : Char) (h : Level.String l = some [c]) :
    Level.render l = [c] ∧ c ≠ '\n' := by
  unfold Level.String at h
  simp only [Level.render, Level.String]
  split_ifs at h ⊢ <;> simp_all <;> (subst h; decide)

theorem content_eq_message [FmtPrinter] (e : Entry)
    (hf : e.Fmt ≠ kNO_FORMAT → Sprintf (e.Fmt ++ ['\n']) e.Args = Sprintf e.Fmt e.Args ++ ['\n']) :
    e.content = e.message ++ ['\n'] := by
  unfold Entry.content Entry.message
  split
  · rfl
  · exact hf ‹_›

/-- C3 (amended): an entry of a defined level whose origin, context and message
have no newline, and whose format renders its final newline last, is written as
the single line `levelChar timestamp origin (context): message\n`. -/
theorem write_one_line [FmtPrinter] (e : Entry)
    (hl : e.Level = TraceLevel ∨ e.Level = DebugLevel ∨ e.Level = InfoLevel ∨ e.Level = ErrorLevel)
    (ho : '\n' ∉ fmtOrigin e.File e.Line) (hc : '\n' ∉ e.Context) (hm : '\n' ∉ e.message)
    (hf : e.Fmt ≠ kNO_FORMAT → Sprintf (e.Fmt ++ ['\n']) e.Args = Sprintf e.Fmt e.Args ++ ['\n']) :
    ∃ c : Char, Level.String e.Level = some [c] ∧
      TextWriter.Write e =
        c :: (fmtTimestamp e.Time ++ [' '] ++ fmtOrigin e.File e.Line ++ " (".toList ++
          e.Context ++ "): ".toList ++ e.message ++ ['\n']) := by
  obtain ⟨c, hc1⟩ : ∃ c : Char, Level.String e.Level = some [c] := by
    rcases hl with h | h | h | h <;> rw [h] <;> exact ⟨_, rfl⟩
  obtain ⟨hr, hcn⟩ := Level_render_noNewline _ _ hc1
  refine ⟨c, hc1, ?_⟩
  rw [Write_eq_single, content_eq_message e hf, Entry.header, hr]
  have key : '\n' ∉ [c] ++ fmtTimestamp e.Time ++ [' '] ++ fmtOrigin e.File e.Line ++ " (".toList ++
      e.Context ++ "): ".toList ++ e.message := by
    have := fmtTimestamp_noNewline e.Time
    simp only [List.mem_append, List.mem_singleton, not_or]
    refine ⟨⟨⟨⟨⟨⟨⟨fun h => hcn h.symm, this⟩, by decide⟩, ho⟩, by decide⟩, hc⟩, by decide⟩, hm⟩
  have := PrefixWriter_single_line continuation _ key
  simpa [List.append_assoc] using this

/-- C3 witness: the two entries of `TestTextWriter`, one without and one with a
format, are written as `I<timestamp> file.js:12 (ctx): Hi there\n` and
`I<timestamp> file.js:12 (ctx): (Hi 4 there)\n`. -/
theorem write_one_line_witness :
    ('\n' ∉ entryHiThere.Context ∧ '\n' ∉ entryHiThere.message ∧
      ∃ c : Char, Level.String entryHiThere.Level = some [c] ∧
        TextWriter.Write entryHiThere =
          c :: (fmtTimestamp entryHiThere.Time ++ [' '] ++
            fmtOrigin entryHiThere.File entryHiThere.Line ++ " (".toList ++
            entryHiThere.Context ++ "): ".toList ++ entryHiThere.message ++ ['\n'])) ∧
    ('\n' ∉ entryFormat.Context ∧ '\n' ∉ entryFormat.message ∧
      entryFormat.message = "(Hi 4 there)".toList ∧
      ∃ c : Char, Level.String entryFormat.Level = some [c] ∧
        TextWriter.Write entryFormat =
          c :: (fmtTimestamp entryFormat.Time ++ [' '] ++
            fmtOrigin entryFormat.File entryFormat.Line ++ " (".toList ++
            entryFormat.Context ++ "): ".toList ++ entryFormat.message ++ ['\n'])) :=
  ⟨⟨by decide, by decide,
      write_one_line entryHiThere (by decide) (by decide) (by decide) (by decide) (by decide)⟩,
    ⟨by decide, by decide, by decide,
      write_one_line entryFormat (by decide) (by decide) (by decide) (by decide) (by decide)⟩⟩

/-- C3 (as stated) fails: with a surplus operand the report of `fmt` follows the
newline and is written as a continuation line, and a newline in the file name
splits the header. -/
theorem write_one_line_counterexample :
    (entrySurplus.Level = InfoLevel ∧ '\n' ∉ entrySurplus.Context ∧ '\n' ∉ entrySurplus.message ∧
      entrySurplus.oneLine =
        "I0523 21:21:18.901Z file.js:12 (ctx): Hi%!(EXTRA string=there)\n".toList ∧
      TextWriter.Write entrySurplus =
        "I0523 21:21:18.901Z file.js:12 (ctx): Hi\n    %!(EXTRA string=there)".toList ∧
      TextWriter.Write entrySurplus ≠ entrySurplus.oneLine) ∧
    (entryFileNewline.Level = InfoLevel ∧ '\n' ∉ entryFileNewline.Context ∧
      '\n' ∉ entryFileNewline.message ∧
      entryFileNewline.oneLine =
        "I0523 21:21:18.901Z fi\nle.js:12 (ctx): Hi there\n".toList ∧
      TextWriter.Write entryFileNewline =
        "I0523 21:21:18.901Z fi\n    le.js:12 (ctx): Hi there\n".toList ∧
      TextWriter.Write entryFileNewline ≠ entryFileNewline.oneLine) := by
  decide

/-- C4: the text written for an entry is its unprefixed rendering with the
continuation marker in front of every line after the first; a context
`a\nb\nc` appears as `(a\n    b\n    c)` and a message `a\nb\nc` as
`a\n    b\n    c\n`. -/
theorem write_continuation_lines [FmtPrinter] :
    (∀ e : Entry, TextWriter.Write e = continuationForm (e.header ++ e.content)) ∧
    (∀ (l : Level) (t : Time) (f : Str) (n : Int) (fmt : Str) (args : List Arg),
      "(a\n    b\n    c)".toList <:+:
        TextWriter.Write ⟨l, t, f, n, "a\nb\nc".toList, fmt, args⟩) ∧
    (∀ (l : Level) (t : Time) (f : Str) (n : Int) (ctx : Str),
      "a\n    b\n    c\n".toList <:+
        TextWriter.Write ⟨l, t, f, n, ctx, "a\nb\nc".toList, []⟩) := by
  refine ⟨Write_eq_continuationForm, ?_, ?_⟩
  · intro l t f n fmt args
    rw [Write_eq_single]
    have e1 : Entry.header ⟨l, t, f, n, "a\nb\nc".toList, fmt, args⟩ ++
        Entry.content ⟨l, t, f, n, "a\nb\nc".toList, fmt, args⟩
        = (Level.render l ++ fmtTimestamp t ++ [' '] ++ fmtOrigin f n) ++ [' '] ++
          ("(a\nb\nc)".toList ++
            (": ".toList ++ Entry.content ⟨l, t, f, n, "a\nb\nc".toList, fmt, args⟩)) := by
      simp [Entry.header]
    have e2 : PrefixWriter.Write continuation true "(a\nb\nc)".toList
        = ("(a\n    b\n    c)".toList, true) := by decide
    rw [e1, PrefixWriter_after_space, e2]
    exact ⟨_, _, rfl⟩
  · intro l t f n ctx
    rw [Write_eq_single]
    have e1 : Entry.header ⟨l, t, f, n, ctx, "a\nb\nc".toList, []⟩ ++
        Entry.content ⟨l, t, f, n, ctx, "a\nb\nc".toList, []⟩ =
        (Level.render l ++ fmtTimestamp t ++ [' '] ++ fmtOrigin f n ++ " (".toList ++ ctx ++
          "):".toList) ++ [' '] ++ ("a\nb\nc\n".toList ++ []) := by
      have : Entry.content ⟨l, t, f, n, ctx, "a\nb\nc".toList, []⟩ = "a\nb\nc\n".toList := rfl
      rw [this]
      simp [Entry.header]
    have e3 : PrefixWriter.Write continuation true "a\nb\nc\n".toList
        = ("a\n    b\n    c\n".toList, false) := by decide
    rw [e1, PrefixWriter_after_space, e3]
    simp only [PrefixWriter.Write, List.append_nil]
    exact ⟨_, rfl⟩

/-- C5 (as stated) fails: the file part is `???` for the non-empty file `???`,
the value `StdLogger.Pos` returns for an unknown caller. -/
theorem fmtOrigin_counterexample :
    ¬ (fmtOrigin "???".toList (-1) = "???".toList ↔ "???".toList = ([] : Str)) ∧
      fmtOrigin "/tmp/???".toList 7 = "???:7".toList := by
  decide

/-- C5 (amended): the origin is the file part followed by `:` and the decimal
line; the file part is `???` for the empty file and the basename otherwise, and
the `:line` part is left out exactly when the line is -1. -/
theorem fmtOrigin_parts (file : Str) (line : Int) :
    fmtOrigin file line =
        (if file = [] then "???".toList else filepathBase file) ++
          (if line = -1 then [] else ':' :: fmtInt line) ∧
      (fmtOrigin file line = (if file = [] then "???".toList else filepathBase file) ↔
        line = -1) ∧
      fmtOrigin [] (-1) = "???".toList ∧
      fmtOrigin "/path/to/file.js".toList (-1) = "file.js".toList ∧
      fmtOrigin [] 0 = "???:0".toList := by
  refine ⟨?_, ?_, by decide, by decide, by decide⟩
  · by_cases hl : line = -1 <;> by_cases hf : file = [] <;> simp [fmtOrigin, hl, hf]
  · by_cases hl : line = -1 <;> by_cases hf : file = [] <;> simp [fmtOrigin, hl, hf]


/-! ## The decoder: classification of a line -/

theorem determineLineType_cont (x : Str) :
    determineLineType (continuation ++ x) =
      (.entryCont, { full := continuation ++ x, header := continuation, msg := x }) := by
  have h1 : ¬ (continuation ++ x).length < continuation.length := by simp
  have h2 : (continuation ++ x).take continuation.length = continuation := by simp
  have h3 : (continuation ++ x).drop continuation.length = x := by simp
  simp only [determineLineType, h1, h2, h3, if_true, if_false]

theorem determineLineType_short (line : Str) (h : line.length < 4) :
    determineLineType line = (.unknown, {}) := by
  have h1 : line.length < continuation.length := h
  simp only [determineLineType, h1, if_true]

theorem take_eq_continuation_iff (line : Str) :
    line.take continuation.length = continuation ↔ continuation <+: line := by
  constructor
  · intro h; rw [← h]; exact List.take_prefix _ _
  · rintro ⟨t, rfl⟩; simp

theorem determineLineType_unknown (line : Str) (h1 : ¬ continuation <+: line)
    (h2 : FindStringSubmatchIndex entryStartRegexp 6 line = []) :
    determineLineType line = (.unknown, {}) := by
  have h3 : ¬ line.take continuation.length = continuation :=
    fun h => h1 ((take_eq_continuation_iff line).1 h)
  unfold determineLineType
  split
  · rfl
  · simp only [h3, if_false, h2, List.length_nil, if_true]

/-- A line classified as a continuation carries the marker as its header. -/
theorem determineLineType_cont_header (line : Str)
    (h : (determineLineType line).1 = .entryCont) :
    (determineLineType line).2.header = continuation := by
  unfold determineLineType at h ⊢
  by_cases h1 : line.length < continuation.length
  · simp [h1] at h
  · by_cases h2 : line.take continuation.length = continuation
    · simp [h1, h2]
    · by_cases h3 : (FindStringSubmatchIndex entryStartRegexp 6 line).length = 0
      · simp [h1, h2, h3] at h
      · simp [h1, h2, h3] at h

theorem entryStart_run_succ (p : Nat) (s : Str) (caps : List Nat)
    (k : MState → Option (List Nat)) :
    (Regex.group 0 entryStartRegexp).run ⟨p + 1, s, caps⟩ k = none := by
  simp [Regex.run, entryStartRegexp]

theorem entryStart_findFrom_succ : ∀ (s : Str) (p : Nat),
    findFrom entryStartRegexp 6 (p + 1) s = none := by
  intro s
  induction s with
  | nil => intro p; simp [findFrom, entryStart_run_succ]
  | cons c cs ih => intro p; simp [findFrom, entryStart_run_succ, ih]

theorem entryStart_find_head (line : Str)
    (h : FindStringSubmatchIndex entryStartRegexp 6 line ≠ []) :
    ∃ c cs, line = c :: cs ∧ (c = 'I' ∨ c = 'D' ∨ c = 'E') := by
  cases line with
  | nil =>
    exfalso; apply h
    simp [FindStringSubmatchIndex, findFrom, Regex.run, entryStartRegexp]
  | cons c cs =>
    refine ⟨c, cs, rfl, ?_⟩
    by_contra hc
    simp only [not_or] at hc
    apply h
    have h1 : (Regex.group 0 entryStartRegexp).run ⟨0, c :: cs, List.replicate (2 * 6) 0⟩
        (fun st => some st.caps) = none := by
      simp [Regex.run, entryStartRegexp, hc]
    unfold FindStringSubmatchIndex
    rw [findFrom, h1, entryStart_findFrom_succ]
    rfl

/-- A line classified as the start of an entry begins with `I`, `D` or `E`. -/
theorem determineLineType_start_head (line : Str)
    (h : (determineLineType line).1 = .entryStart) :
    ∃ c cs, line = c :: cs ∧ (c = 'I' ∨ c = 'D' ∨ c = 'E') := by
  apply entryStart_find_head
  intro h0
  unfold determineLineType at h
  by_cases h1 : line.length < continuation.length
  · simp [h1] at h
  · by_cases h2 : line.take continuation.length = continuation
    · simp [h1, h2] at h
    · simp [h1, h2, h0] at h



/-! ## The decoder: reading lines -/

theorem ReadString_line : ∀ (b rest : Str), '\n' ∉ b →
    ReadString (b ++ '\n' :: rest) = (b ++ ['\n'], rest, false) := by
  intro b
  induction b with
  | nil => intro rest _; simp [ReadString]
  | cons c cs ih =>
    intro rest h
    have hc : c ≠ '\n' := fun e => h (by simp [e])
    have hcs : '\n' ∉ cs := fun e => h (by simp [e])
    simp [ReadString, hc, ih rest hcs]

theorem ReadString_last : ∀ (b : Str), '\n' ∉ b → ReadString b = (b, [], true) := by
  intro b
  induction b with
  | nil => intro _; simp [ReadString]
  | cons c cs ih =>
    intro h
    have hc : c ≠ '\n' := fun e => h (by simp [e])
    have hcs : '\n' ∉ cs := fun e => h (by simp [e])
    simp [ReadString, hc, ih hcs]

theorem ReadString_nil_iff (r : Str) : (ReadString r).1 = [] ↔ r = [] := by
  cases r with
  | nil => simp [ReadString]
  | cons c cs => by_cases hc : c = '\n' <;> simp [ReadString, hc]

theorem ReadString_length : ∀ (r : Str), r ≠ [] → (ReadString r).2.1.length < r.length := by
  intro r
  induction r with
  | nil => intro h; exact absurd rfl h
  | cons c cs ih =>
    intro _
    by_cases hc : c = '\n'
    · simp [ReadString, hc]
    · simp only [ReadString, hc, if_false, List.length_cons]
      cases cs with
      | nil => simp [ReadString]
      | cons d ds => have := ih (by simp); omega

theorem nextLoop_succ (fuel : Nat) (entry : logEntry) (reader : Str) :
    nextLoop (fuel + 1) entry reader =
      if (ReadString reader).1.length = 0 then
        some ⟨{ entry with msg := trimRight entry.msg }, some .EOF, (ReadString reader).2.1⟩
      else if (determineLineType (ReadString reader).1).1 = .unknown then
        some ⟨entry, some (.malformatted (ReadString reader).1), (ReadString reader).2.1⟩
      else if (determineLineType (ReadString reader).1).1 = .entryCont ∧
          (determineLineType (ReadString reader).1).2.header.length = 0 then
        some ⟨entry, some (.middle (ReadString reader).1), (ReadString reader).2.1⟩
      else
        peekStep fuel
          (if (determineLineType (ReadString reader).1).1 = .entryStart then
            (determineLineType (ReadString reader).1).2
          else { entry with msg := entry.msg ++ (determineLineType (ReadString reader).1).2.msg })
          (ReadString reader).2.1 := by
  simp only [nextLoop, peekStep]

/-- The loop never runs out of fuel when it starts with more fuel than the
stream has bytes, and then the amount of fuel does not matter. -/
theorem nextLoop_fuel : ∀ (f1 f2 : Nat) (reader : Str) (entry : logEntry),
    reader.length < f1 → reader.length < f2 →
    nextLoop f1 entry reader = nextLoop f2 entry reader ∧ (nextLoop f1 entry reader).isSome := by
  intro f1
  induction f1 with
  | zero => intro f2 reader entry h; omega
  | succ a ih =>
    intro f2 reader entry h1 h2
    obtain ⟨b, rfl⟩ : ∃ b, f2 = b + 1 := ⟨f2 - 1, by omega⟩
    rw [nextLoop_succ, nextLoop_succ]
    split_ifs with c1 c2 c3 c4
    · simp
    · simp
    · simp
    all_goals
      have hne : reader ≠ [] := by
        intro e; apply c1; simp [e, ReadString]
      have hlen := ReadString_length reader hne
      unfold peekStep
      split
      · exact ih b _ _ (by omega) (by omega)
      · simp

theorem Next_isSome (reader : Str) : (Next reader).isSome :=
  (nextLoop_fuel _ _ reader {} (Nat.lt_succ_self _) (Nat.lt_succ_self _)).2

theorem peekStep_fuel (f1 f2 : Nat) (reader : Str) (entry : logEntry)
    (h1 : reader.length < f1) (h2 : reader.length < f2) :
    peekStep f1 entry reader = peekStep f2 entry reader := by
  unfold peekStep
  split
  · exact (nextLoop_fuel f1 f2 _ entry h1 h2).1
  · rfl



theorem continuation_ne_nil (x : Str) : (continuation ++ x).length ≠ 0 := by
  simp [continuation]

/-- The iteration that reads a line starting an entry. -/
theorem nextLoop_start (fuel : Nat) (entry e0 : logEntry) (line rest : Str) (eof : Bool)
    (hr : ReadString (line ++ rest) = (line, rest, eof))
    (hd : determineLineType line = (.entryStart, e0)) :
    nextLoop (fuel + 1) entry (line ++ rest) = peekStep fuel e0 rest := by
  have hne : line.length ≠ 0 := by
    obtain ⟨c, cs, h, _⟩ := determineLineType_start_head line (by rw [hd])
    simp [h]
  rw [nextLoop_succ, hr]
  simp [hd, hne]

/-- The iteration that reads a line starting with the continuation marker. -/
theorem nextLoop_cont (fuel : Nat) (entry : logEntry) (x rest : Str) (eof : Bool)
    (hr : ReadString (continuation ++ x ++ rest) = (continuation ++ x, rest, eof)) :
    nextLoop (fuel + 1) entry (continuation ++ x ++ rest) =
      peekStep fuel { entry with msg := entry.msg ++ x } rest := by
  rw [nextLoop_succ, hr]
  simp only [determineLineType_cont]
  simp [continuation]

/-- The loop passes over a block of continuation lines, adding their texts to
the message. -/
theorem peekStep_contLines : ∀ (cs : List Str) (entry : logEntry) (fuel : Nat) (rest : Str),
    (∀ c ∈ cs, '\n' ∉ c) → (contLines cs ++ rest).length < fuel →
    peekStep fuel entry (contLines cs ++ rest) =
      peekStep fuel { entry with msg := entry.msg ++ contText cs } rest := by
  intro cs
  induction cs with
  | nil => intro entry fuel rest _ _; simp [contLines, contText]
  | cons c cs ih =>
    intro entry fuel rest hcs hlen
    have hc : '\n' ∉ c := hcs c (by simp)
    have hcs1 : ∀ d ∈ cs, '\n' ∉ d := fun d hd => hcs d (by simp [hd])
    have e1 : contLines (c :: cs) ++ rest =
        continuation ++ (c ++ ['\n']) ++ (contLines cs ++ rest) := by
      simp [contLines]
    have e2 : contText (c :: cs) = (c ++ ['\n']) ++ contText cs := by
      simp [contText]
    have hr : ReadString (continuation ++ (c ++ ['\n']) ++ (contLines cs ++ rest)) =
        (continuation ++ (c ++ ['\n']), contLines cs ++ rest, false) := by
      have hn : '\n' ∉ continuation ++ c := by
        simp only [List.mem_append, not_or]
        exact ⟨by decide, hc⟩
      have := ReadString_line (continuation ++ c) (contLines cs ++ rest) hn
      simpa using this
    have hlen1 : (contLines cs ++ rest).length + 5 ≤ (contLines (c :: cs) ++ rest).length := by
      rw [e1]; simp [continuation]
    obtain ⟨g, rfl⟩ : ∃ g, fuel = g + 1 := ⟨fuel - 1, by omega⟩
    have hstep : peekStep (g + 1) entry (contLines (c :: cs) ++ rest) =
        nextLoop (g + 1) entry (contLines (c :: cs) ++ rest) := by
      rw [e1]; simp [peekStep, continuation]
    rw [hstep, e1, nextLoop_cont _ _ _ _ _ hr,
      peekStep_fuel g (g + 1) _ _ (by omega) (by omega), ih _ _ _ hcs1 (by omega), e2]
    simp

/-- Reading one entry: a line that starts an entry, its continuation lines, and
a rest of the stream that does not begin with a space. -/
theorem Next_entry (hl : Str) (e0 : logEntry) (cs : List Str) (rest : Str)
    (hn : '\n' ∉ hl) (hd : determineLineType (hl ++ ['\n']) = (.entryStart, e0))
    (hcs : ∀ c ∈ cs, '\n' ∉ c) (hrest : rest.head? ≠ some ' ') :
    Next (hl ++ ['\n'] ++ contLines cs ++ rest) =
      some ⟨{ e0 with msg := trimRight (e0.msg ++ contText cs) }, none, rest⟩ := by
  have hr : ReadString ((hl ++ ['\n']) ++ (contLines cs ++ rest)) =
      (hl ++ ['\n'], contLines cs ++ rest, false) := by
    have := ReadString_line hl (contLines cs ++ rest) hn
    simpa using this
  unfold Next
  rw [List.append_assoc, nextLoop_start _ _ _ _ _ _ hr hd,
    peekStep_contLines cs _ _ _ hcs (by simp; omega)]
  unfold peekStep
  split
  · rename_i h; simp at hrest
  · rfl



/-! ## The decoder: the claims about `Next` -/

theorem nextLoop_eof_iff : ∀ (fuel : Nat) (entry : logEntry) (reader : Str) (res : NextResult),
    nextLoop fuel entry reader = some res → (res.err = some .EOF ↔ reader = []) := by
  intro fuel
  induction fuel with
  | zero => intro entry reader res h; simp [nextLoop] at h
  | succ f ih =>
    intro entry reader res h
    rw [nextLoop_succ] at h
    split_ifs at h with c1 c2 c3 c4
    · have hr : reader = [] := (ReadString_nil_iff reader).1 (List.length_eq_zero.1 c1)
      simp only [Option.some.injEq] at h
      subst h
      simp [hr]
    all_goals
      have hne : reader ≠ [] := by
        intro e; apply c1; simp [e, ReadString]
    · simp only [Option.some.injEq] at h
      subst h
      simp [hne]
    · simp only [Option.some.injEq] at h
      subst h
      simp [hne]
    all_goals
      unfold peekStep at h
      split at h
      · rename_i c rest heq
        have := ih _ _ _ h
        rw [heq] at this
        simp only [hne, iff_false]
        intro e
        exact absurd (this.1 e) (by simp)
      · simp only [Option.some.injEq] at h
        subst h
        simp [hne]

/-- The error `Starting in the middle of a log file` is never returned: a line
classified as a continuation always has the marker, four bytes long, as header. -/
theorem nextLoop_never_middle : ∀ (fuel : Nat) (entry : logEntry) (reader : Str)
    (res : NextResult) (line : Str),
    nextLoop fuel entry reader = some res → res.err ≠ some (.middle line) := by
  intro fuel
  induction fuel with
  | zero => intro entry reader res line h; simp [nextLoop] at h
  | succ f ih =>
    intro entry reader res line h
    rw [nextLoop_succ] at h
    split_ifs at h with c1 c2 c3 c4
    · simp only [Option.some.injEq] at h
      subst h; simp
    · simp only [Option.some.injEq] at h
      subst h; simp
    · exfalso
      have := determineLineType_cont_header _ c3.1
      rw [this] at c3
      exact absurd c3.2 (by decide)
    all_goals
      unfold peekStep at h
      split at h
      · exact ih _ _ _ _ h
      · simp only [Option.some.injEq] at h
        subst h; simp

/-- C7 (the code at the failing input): a stream that begins with a
continuation line is not rejected; `Next` returns an entry without header whose
message is the text after the marker, and a nil error. -/
theorem next_continuation_first :
    Next "    abc\n".toList = some ⟨{ msg := "abc".toList }, none, []⟩ ∧
      Next "    abc\n    def\nI0101".toList =
        some ⟨{ msg := "abc\ndef".toList }, none, "I0101".toList⟩ := by
  decide

/-- C8: the iteration of the loop of `Next` that reads a line which is shorter
than the marker, or neither begins with the marker nor matches the header
pattern, ends the call with the error that carries the line; so does the call
whose first line it is. -/
theorem next_malformatted (fuel : Nat) (entry : logEntry) (reader : Str) (hne : reader ≠ [])
    (h : (ReadString reader).1.length < 4 ∨
      (¬ continuation <+: (ReadString reader).1 ∧
        FindStringSubmatchIndex entryStartRegexp 6 (ReadString reader).1 = [])) :
    nextLoop (fuel + 1) entry reader =
        some ⟨entry, some (.malformatted (ReadString reader).1), (ReadString reader).2.1⟩ ∧
      Next reader =
        some ⟨{}, some (.malformatted (ReadString reader).1), (ReadString reader).2.1⟩ := by
  have hd : determineLineType (ReadString reader).1 = (.unknown, {}) := by
    rcases h with h | ⟨h1, h2⟩
    · exact determineLineType_short _ h
    · exact determineLineType_unknown _ h1 h2
  have hl : (ReadString reader).1.length ≠ 0 := by
    intro e
    exact hne ((ReadString_nil_iff reader).1 (List.length_eq_zero.1 e))
  have key : ∀ f e, nextLoop (f + 1) e reader =
      some ⟨e, some (.malformatted (ReadString reader).1), (ReadString reader).2.1⟩ := by
    intro f e
    rw [nextLoop_succ]
    simp [hd, hl]
  exact ⟨key _ _, key _ _⟩

set_option maxRecDepth 100000 in
/-- C8 witness: a line written for a Trace entry is such a line, the pattern
has no `T`. -/
theorem next_malformatted_witness :
    traceLine ≠ [] ∧ ¬ continuation <+: (ReadString traceLine).1 ∧
      FindStringSubmatchIndex entryStartRegexp 6 (ReadString traceLine).1 = [] ∧
      Next traceLine = some ⟨{}, some (.malformatted traceLine), []⟩ :=
  ⟨by decide, by decide, by decide,
    (next_malformatted 0 {} traceLine (by decide) (Or.inr ⟨by decide, by decide⟩)).2⟩



theorem Next_nil : Next [] = some ⟨{}, some .EOF, []⟩ := by decide

/-- Reading an entry whose last continuation line is not ended by a newline. -/
theorem Next_entry_unterminated (hl : Str) (e0 : logEntry) (cs : List Str) (c : Str)
    (hn : '\n' ∉ hl) (hd : determineLineType (hl ++ ['\n']) = (.entryStart, e0))
    (hcs : ∀ d ∈ cs, '\n' ∉ d) (hc : '\n' ∉ c) :
    Next (hl ++ ['\n'] ++ contLines cs ++ (continuation ++ c)) =
      some ⟨{ e0 with msg := trimRight (e0.msg ++ contText cs ++ c) }, none, []⟩ := by
  have hr : ReadString ((hl ++ ['\n']) ++ (contLines cs ++ (continuation ++ c))) =
      (hl ++ ['\n'], contLines cs ++ (continuation ++ c), false) := by
    have := ReadString_line hl (contLines cs ++ (continuation ++ c)) hn
    simpa using this
  have hr2 : ReadString (continuation ++ c ++ []) = (continuation ++ c, [], true) := by
    have hn2 : '\n' ∉ continuation ++ c := by
      simp only [List.mem_append, not_or]
      exact ⟨by decide, hc⟩
    simpa using ReadString_last _ hn2
  have hp : ∀ (f : Nat) (e : logEntry), peekStep (f + 1) e (continuation ++ c) =
      some ⟨{ e with msg := trimRight (e.msg ++ c) }, none, []⟩ := by
    intro f e
    have h1 : peekStep (f + 1) e (continuation ++ c) =
        nextLoop (f + 1) e (continuation ++ c ++ []) := by
      simp [peekStep, continuation]
    rw [h1, nextLoop_cont _ _ _ _ _ hr2]
    rfl
  unfold Next
  rw [List.append_assoc, nextLoop_start _ _ _ _ _ _ hr hd,
    peekStep_contLines cs _ _ _ hcs (by simp; omega)]
  obtain ⟨f, hf⟩ : ∃ f, (hl ++ ['\n'] ++ (contLines cs ++ (continuation ++ c))).length = f + 1 :=
    ⟨_, by simp; rfl⟩
  rw [hf, hp]

/-- C9: `Next` returns `io.EOF` exactly when the stream is exhausted at the
call; an entry whose last line lacks the newline is still returned, with a nil
error and nothing left to read, so that the following call returns `io.EOF`. -/
theorem next_eof :
    (∀ (reader : Str) (res : NextResult), Next reader = some res →
      (res.err = some .EOF ↔ reader = [])) ∧
    Next [] = some ⟨{}, some .EOF, []⟩ ∧
    (∀ (hl : Str) (e0 : logEntry), '\n' ∉ hl → determineLineType hl = (.entryStart, e0) →
      Next hl = some ⟨{ e0 with msg := trimRight e0.msg }, none, []⟩) ∧
    (∀ (hl : Str) (e0 : logEntry) (cs : List Str) (c : Str), '\n' ∉ hl →
      determineLineType (hl ++ ['\n']) = (.entryStart, e0) → (∀ d ∈ cs, '\n' ∉ d) → '\n' ∉ c →
      Next (hl ++ ['\n'] ++ contLines cs ++ (continuation ++ c)) =
        some ⟨{ e0 with msg := trimRight (e0.msg ++ contText cs ++ c) }, none, []⟩) := by
  refine ⟨fun reader res h => nextLoop_eof_iff _ _ _ _ h, Next_nil, ?_, Next_entry_unterminated⟩
  intro hl e0 hn hd
  have hr : ReadString (hl ++ []) = (hl, [], true) := by
    simpa using ReadString_last hl hn
  have := nextLoop_start hl.length {} e0 hl [] true hr hd
  rw [List.append_nil] at this
  rw [Next, this]
  rfl

set_option maxRecDepth 100000 in
/-- C9 witness: the first line of the test log without its newline, alone in
the stream and followed by an unterminated continuation line. -/
theorem next_eof_witness :
    Next sampleHeader =
        some ⟨{ (determineLineType sampleHeader).2 with msg := "Creating 20 blocks".toList },
          none, []⟩ ∧
      Next (sampleHeader ++ ['\n'] ++ contLines ["a".toList] ++ (continuation ++ "b".toList)) =
        some ⟨{ (determineLineType (sampleHeader ++ ['\n'])).2 with
            msg := "Creating 20 blocks\na\nb".toList }, none, []⟩ := by
  refine ⟨?_, ?_⟩
  · rw [next_eof.2.2.1 sampleHeader (determineLineType sampleHeader).2 (by decide) (by decide)]
    decide
  · rw [next_eof.2.2.2 sampleHeader (determineLineType (sampleHeader ++ ['\n'])).2
      ["a".toList] "b".toList (by decide) (by decide) (by decide) (by decide)]
    decide

theorem entryStream_head (es : List (Str × List Str))
    (h : ∀ e ∈ es, (determineLineType (e.1 ++ ['\n'])).1 = .entryStart) :
    (entryStream es).head? ≠ some ' ' := by
  cases es with
  | nil => simp [entryStream]
  | cons e es =>
    obtain ⟨c, cs, h1, h2⟩ := determineLineType_start_head _ (h e (by simp))
    have : entryStream (e :: es) = c :: (cs ++ contLines e.2 ++ entryStream es) := by
      simp only [entryStream, List.map_cons, List.flatten_cons, h1]
      simp
    rw [this]
    rcases h2 with rfl | rfl | rfl <;> simp

/-- C6: on a stream of `k` logical entries the first `k` calls of `Next` return
the entries in order, each without error, with the header fields of its first
line and the message assembled from that line and its continuation lines, and
call `k+1` returns `io.EOF`. -/
theorem read_all_entries (es : List (Str × List Str))
    (h : ∀ e ∈ es, '\n' ∉ e.1 ∧ (determineLineType (e.1 ++ ['\n'])).1 = .entryStart ∧
      ∀ c ∈ e.2, '\n' ∉ c) :
    readN (es.length + 1) (entryStream es) =
      es.map (fun e => (decoded e, none)) ++ [(({} : logEntry), some Error.EOF)] := by
  induction es with
  | nil => simp [readN, entryStream, Next_nil]
  | cons e es ih =>
    have he := h e (by simp)
    have hes : ∀ x ∈ es, '\n' ∉ x.1 ∧ (determineLineType (x.1 ++ ['\n'])).1 = .entryStart ∧
        ∀ c ∈ x.2, '\n' ∉ c := fun x hx => h x (by simp [hx])
    have hhead := entryStream_head es (fun x hx => (hes x hx).2.1)
    have hs : entryStream (e :: es) = e.1 ++ ['\n'] ++ contLines e.2 ++ entryStream es := by
      simp [entryStream]
    have hd : determineLineType (e.1 ++ ['\n']) =
        (.entryStart, (determineLineType (e.1 ++ ['\n'])).2) := by
      rw [← he.2.1]
    have hnext := Next_entry e.1 _ e.2 (entryStream es) he.1 hd he.2.2 hhead
    rw [List.length_cons, readN, hs, hnext]
    simp only [ih hes, List.map_cons, List.cons_append]
    rfl

set_option maxRecDepth 100000 in
/-- C6 witness: two entries of the test log, the first with two continuation
lines. -/
theorem read_all_entries_witness :
    readN 3 (entryStream [(sampleHeader, ["a".toList, "  b".toList]), (sampleHeader2, [])]) =
      [({ (determineLineType (sampleHeader ++ ['\n'])).2 with
            msg := "Creating 20 blocks\na\n  b".toList }, none),
        ({ (determineLineType (sampleHeader2 ++ ['\n'])).2 with
            msg := "Computing 5 things".toList }, none),
        (({} : logEntry), some Error.EOF)] :=
  (read_all_entries [(sampleHeader, ["a".toList, "  b".toList]), (sampleHeader2, [])]
    (by decide)).trans (by decide)

/-- C10: a line that begins with the marker and follows a line of a started
entry is read as a continuation of that entry whatever its text `x` is, a
well-formed header line included: the text is added to the message, the header
fields stay those of the first line, and the call goes on to the lines after it. -/
theorem continuation_after_start (hl : Str) (e0 : logEntry) (cs : List Str) (x : Str)
    (ds : List Str) (rest : Str)
    (hn : '\n' ∉ hl) (hd : determineLineType (hl ++ ['\n']) = (.entryStart, e0))
    (hcs : ∀ c ∈ cs, '\n' ∉ c) (hx : '\n' ∉ x) (hds : ∀ c ∈ ds, '\n' ∉ c)
    (hrest : rest.head? ≠ some ' ') :
    Next (hl ++ ['\n'] ++ contLines cs ++ (continuation ++ x ++ ['\n']) ++ contLines ds ++ rest) =
      some ⟨{ e0 with msg := trimRight (e0.msg ++ contText cs ++ (x ++ ['\n']) ++ contText ds) },
        none, rest⟩ := by
  have h1 : hl ++ ['\n'] ++ contLines cs ++ (continuation ++ x ++ ['\n']) ++ contLines ds ++ rest =
      hl ++ ['\n'] ++ contLines (cs ++ x :: ds) ++ rest := by
    simp [contLines]
  have h2 : e0.msg ++ contText cs ++ (x ++ ['\n']) ++ contText ds =
      e0.msg ++ contText (cs ++ x :: ds) := by
    simp [contText]
  have hall : ∀ c ∈ cs ++ x :: ds, '\n' ∉ c := by
    intro c hc
    rcases List.mem_append.1 hc with h | h
    · exact hcs c h
    · rcases List.mem_cons.1 h with rfl | h
      · exact hx
      · exact hds c h
  rw [h1, h2]
  exact Next_entry hl e0 _ rest hn hd hall hrest

set_option maxRecDepth 100000 in
/-- C10 witness: the last line of the test log behind the marker, after the
first line, gives one entry with the header of the first line. -/
theorem continuation_after_start_witness :
    Next (sampleHeader ++ ['\n'] ++ contLines [] ++ (continuation ++ sampleHeader2 ++ ['\n']) ++
        contLines [] ++ []) =
      some ⟨{ (determineLineType (sampleHeader ++ ['\n'])).2 with
          msg := trimRight ((determineLineType (sampleHeader ++ ['\n'])).2.msg ++ contText [] ++
            (sampleHeader2 ++ ['\n']) ++ contText []) }, none, []⟩ ∧
      (determineLineType (sampleHeader2 ++ ['\n'])).1 = .entryStart ∧
      (determineLineType (sampleHeader ++ ['\n'])).2.header =
        "I0101 00:00:00.000Z std_logger_test.go:00 (Flow=f1): ".toList :=
  ⟨continuation_after_start sampleHeader _ [] sampleHeader2 [] [] (by decide) (by decide)
    (by decide) (by decide) (by decide) (by decide), by decide, by decide⟩



/-! ## Matching the header pattern -/

theorem run_seq (a b : Regex) (st : MState) (k : MState → Option (List Nat)) :
    (Regex.seq a b).run st k = a.run st (fun st1 => b.run st1 k) := rfl

theorem run_group (n : Nat) (r : Regex) (st : MState) (k : MState → Option (List Nat)) :
    (Regex.group n r).run st k =
      r.run ⟨st.pos, st.rest, st.caps.set (2 * n) st.pos⟩
        (fun st1 => k ⟨st1.pos, st1.rest, st1.caps.set (2 * n + 1) st1.pos⟩) := rfl

theorem run_bol (s : Str) (caps : List Nat) (k : MState → Option (List Nat)) :
    Regex.bol.run ⟨0, s, caps⟩ k = k ⟨0, s, caps⟩ := rfl

theorem run_lit (c : Char) (p : Nat) (s : Str) (caps : List Nat)
    (k : MState → Option (List Nat)) :
    (Regex.lit c).run ⟨p, c :: s, caps⟩ k = k ⟨p + 1, s, caps⟩ := by
  simp [Regex.run]

theorem run_cls (q : Char → Bool) (d : Char) (p : Nat) (s : Str) (caps : List Nat)
    (k : MState → Option (List Nat)) (h : q d = true) :
    (Regex.cls q).run ⟨p, d :: s, caps⟩ k = k ⟨p + 1, s, caps⟩ := by
  simp [Regex.run, h]

theorem run_typ (t : Char) (ht : t = 'I' ∨ t = 'D' ∨ t = 'E') (p : Nat) (s : Str)
    (caps : List Nat) (k : MState → Option (List Nat)) (v : List Nat)
    (h : k ⟨p + 1, s, caps⟩ = some v) :
    (Regex.alt (.lit 'I') (.alt (.lit 'D') (.lit 'E'))).run ⟨p, t :: s, caps⟩ k = some v := by
  rcases ht with rfl | rfl | rfl <;> simp [Regex.run, h]

theorem run_rep_cls (q : Char → Bool) (tl : Regex) : ∀ (n : Nat) (xs : Str) (p : Nat) (rest : Str)
    (caps : List Nat) (k : MState → Option (List Nat)),
    xs.length = n → (∀ x ∈ xs, q x = true) →
    (Regex.rep (.cls q) n tl).run ⟨p, xs ++ rest, caps⟩ k = tl.run ⟨p + n, rest, caps⟩ k := by
  intro n
  induction n with
  | zero =>
    intro xs p rest caps k hl _
    rw [List.length_eq_zero.1 hl]; rfl
  | succ n ih =>
    intro xs p rest caps k hl hq
    cases xs with
    | nil => simp at hl
    | cons x xs =>
      have hx : q x = true := hq x (by simp)
      simp only [Regex.rep, run_seq, List.cons_append, run_cls q x p _ caps _ hx]
      rw [ih xs (p + 1) rest caps k (by simpa using hl) (fun y hy => hq y (by simp [hy]))]
      congr 2
      omega

/-- A run of class characters that ends at a character outside the class (or
at the end of the text) is taken whole when the rest of the pattern then matches. -/
theorem starRun_stop (q : Char → Bool) (k : MState → Option (List Nat)) (v : List Nat) :
    ∀ (xs : Str) (p : Nat) (rest : Str) (caps : List Nat),
    (∀ x ∈ xs, q x = true) → (∀ d ∈ rest.head?, q d = false) →
    k ⟨p + xs.length, rest, caps⟩ = some v →
    starRun q k p (xs ++ rest) caps = some v := by
  intro xs
  induction xs with
  | nil =>
    intro p rest caps _ hrest hk
    cases rest with
    | nil => simpa [starRun] using hk
    | cons d t =>
      have hd : q d = false := hrest d (by simp)
      simpa [starRun, hd] using hk
  | cons x xs ih =>
    intro p rest caps hq hrest hk
    have hx : q x = true := hq x (by simp)
    have := ih (p + 1) rest caps (fun y hy => hq y (by simp [hy])) hrest
      (by rw [← hk]; congr 2; simp; omega)
    simp [starRun, hx, this]

theorem run_plus (q : Char → Bool) (k : MState → Option (List Nat)) (v : List Nat)
    (xs : Str) (p : Nat) (rest : Str) (caps : List Nat)
    (hne : xs ≠ []) (hq : ∀ x ∈ xs, q x = true) (hrest : ∀ d ∈ rest.head?, q d = false)
    (hk : k ⟨p + xs.length, rest, caps⟩ = some v) :
    (Regex.plus q).run ⟨p, xs ++ rest, caps⟩ k = some v := by
  cases xs with
  | nil => exact absurd rfl hne
  | cons x xs =>
    have hx : q x = true := hq x (by simp)
    simp only [Regex.plus, run_seq, List.cons_append, run_cls q x p _ caps _ hx]
    exact starRun_stop q k v xs (p + 1) rest caps (fun y hy => hq y (by simp [hy])) hrest
      (by rw [← hk]; congr 2; simp; omega)

/-- A greedy run gives back nothing when the rest of the pattern matches after
the whole run `xs` and fails after every longer run. -/
theorem starRun_fail (q : Char → Bool) (k : MState → Option (List Nat)) (caps : List Nat) :
    ∀ (rest : Str) (p : Nat),
    (∀ u w, u ≠ [] → rest = u ++ w → (∀ x ∈ u, q x = true) →
      k ⟨p + u.length, w, caps⟩ = none) →
    starRun q k p rest caps = k ⟨p, rest, caps⟩ := by
  intro rest
  induction rest with
  | nil => intro p _; simp [starRun]
  | cons c cs ih =>
    intro p h
    by_cases hc : q c = true
    · have h1 : starRun q k (p + 1) cs caps = k ⟨p + 1, cs, caps⟩ := by
        apply ih
        intro u w hu hcs hq
        have := h (c :: u) w (by simp) (by simp [hcs]) (by
          intro x hx
          rcases List.mem_cons.1 hx with rfl | hx
          · exact hc
          · exact hq x hx)
        rw [← this]; congr 2; simp; omega
      have h2 : k ⟨p + 1, cs, caps⟩ = none := by
        have := h [c] cs (by simp) (by simp) (by simpa using hc)
        simpa using this
      simp [starRun, hc, h1, h2]
    · simp [starRun, hc]

theorem starRun_last (q : Char → Bool) (k : MState → Option (List Nat)) (v : List Nat) :
    ∀ (xs : Str) (p : Nat) (rest : Str) (caps : List Nat),
    (∀ x ∈ xs, q x = true) →
    (∀ u w, u ≠ [] → rest = u ++ w → (∀ x ∈ u, q x = true) →
      k ⟨p + xs.length + u.length, w, caps⟩ = none) →
    k ⟨p + xs.length, rest, caps⟩ = some v →
    starRun q k p (xs ++ rest) caps = some v := by
  intro xs
  induction xs with
  | nil =>
    intro p rest caps _ hfail hk
    rw [List.nil_append, starRun_fail q k caps rest p (by simpa using hfail)]
    simpa using hk
  | cons x xs ih =>
    intro p rest caps hq hfail hk
    have hx : q x = true := hq x (by simp)
    have := ih (p + 1) rest caps (fun y hy => hq y (by simp [hy]))
      (by
        intro u w hu hr hqu
        rw [← hfail u w hu hr hqu]; congr 2; simp; omega)
      (by rw [← hk]; congr 2; simp; omega)
    simp [starRun, hx, this]




theorem run_star (q : Char → Bool) (st : MState) (k : MState → Option (List Nat)) :
    (Regex.star q).run st k = starRun q k st.pos st.rest st.caps := rfl

theorem run_lit3_none (a b c : Char) (p : Nat) (w : Str) (caps : List Nat)
    (k : MState → Option (List Nat)) (h : ¬ [a, b, c] <+: w) :
    (Regex.lit a).run ⟨p, w, caps⟩
      (fun s1 => (Regex.lit b).run s1 (fun s2 => (Regex.lit c).run s2 k)) = none := by
  rcases w with _ | ⟨x, _ | ⟨y, _ | ⟨z, w⟩⟩⟩
  · simp [Regex.run]
  · simp [Regex.run]
  · simp [Regex.run]
  · simp only [Regex.run]
    by_cases hx : x = a
    · by_cases hy : y = b
      · by_cases hz : z = c
        · exfalso; apply h; subst hx hy hz; exact ⟨w, rfl⟩
        · simp [hx, hy, hz]
      · simp [hx, hy]
    · simp [hx]

/-- After the context, no later `): ` closes the header when the text behind
the first one has none. -/
theorem close_unique (tail u w : Str)
    (htail : ∀ u w, tail = u ++ w → (∀ x ∈ u, isAny x = true) → ¬ "): ".toList <+: w)
    (hu : u ≠ []) (h : ')' :: ':' :: ' ' :: tail = u ++ w) (hq : ∀ x ∈ u, isAny x = true) :
    ¬ [')', ':', ' '] <+: w := by
  rcases u with _ | ⟨x, _ | ⟨y, _ | ⟨z, u⟩⟩⟩
  · exact absurd rfl hu
  · simp only [List.cons_append, List.nil_append, List.cons.injEq] at h
    rw [← h.2]
    rintro ⟨t, ht⟩
    simp at ht
  · simp only [List.cons_append, List.nil_append, List.cons.injEq] at h
    rw [← h.2.2]
    rintro ⟨t, ht⟩
    simp at ht
  · simp only [List.cons_append, List.cons.injEq] at h
    exact htail u w h.2.2.2 (fun a ha => hq a (by simp [ha]))

theorem entryStart_run (t : Char) (d4 clock zone file ln ctx tail : Str)
    (ht : t = 'I' ∨ t = 'D' ∨ t = 'E')
    (hd4 : d4.length = 4) (hd4q : ∀ x ∈ d4, isDigit x = true)
    (hclock : clock.length = 12) (hclockq : ∀ x ∈ clock, isClock x = true)
    (hzone : zone ≠ []) (hzoneq : ∀ x ∈ zone, isZone x = true)
    (hfile : file ≠ []) (hfileq : ∀ x ∈ file, isFileChar x = true)
    (hln : ln ≠ []) (hlnq : ∀ x ∈ ln, isDigit x = true)
    (hctx : ∀ x ∈ ctx, isAny x = true)
    (htail : ∀ u w, tail = u ++ w → (∀ x ∈ u, isAny x = true) → ¬ "): ".toList <+: w) :
    (Regex.group 0 entryStartRegexp).run
      ⟨0, t :: (d4 ++ ' ' :: (clock ++ (zone ++ ' ' :: (file ++ ':' :: (ln ++ ' ' :: '(' ::
        (ctx ++ ')' :: ':' :: ' ' :: tail)))))), List.replicate (2 * 6) 0⟩
      (fun st => some st.caps) =
    some [0, 25 + zone.length + file.length + ln.length + ctx.length, 0, 1, 1, 18 + zone.length,
      19 + zone.length, 19 + zone.length + file.length, 20 + zone.length + file.length,
      20 + zone.length + file.length + ln.length, 22 + zone.length + file.length + ln.length,
      22 + zone.length + file.length + ln.length + ctx.length] := by
  unfold entryStartRegexp
  simp only [run_seq, run_group, run_bol]
  apply run_typ t ht
  simp only [run_rep_cls isDigit _ 4 d4 _ _ _ _ hd4 hd4q, run_lit, run_seq,
    run_rep_cls isClock _ 12 clock _ _ _ _ hclock hclockq]
  apply run_plus isZone _ _ zone _ _ _ hzone hzoneq (by simp [isZone]; decide)
  simp only [run_lit]
  apply run_plus isFileChar _ _ file _ _ _ hfile hfileq (by simp; decide)
  simp only [run_lit]
  apply run_plus isDigit _ _ ln _ _ _ hln hlnq (by simp; decide)
  simp only [run_lit, run_star]
  apply starRun_last isAny _ _ ctx _ _ _ hctx
  · intro u w hu h hq
    exact run_lit3_none _ _ _ _ _ _ _ (close_unique tail u w htail hu h hq)
  · simp only [run_lit]
    simp
    omega

theorem slice_mid (pre mid post : Str) (i j : Nat) (hi : i = pre.length)
    (hj : j = pre.length + mid.length) : slice (pre ++ (mid ++ post)) i j = mid := by
  subst hi hj
  simp [slice]

/-- The fields `determineLineType` takes from a line of the wire form: level
character, four digits, clock, zone, file, line number, context, and a text
behind the first `): ` that has no further `): ` before its first newline. -/
theorem determineLineType_wire (t : Char) (d4 clock zone file ln ctx tail : Str)
    (ht : t = 'I' ∨ t = 'D' ∨ t = 'E')
    (hd4 : d4.length = 4) (hd4q : ∀ x ∈ d4, isDigit x = true)
    (hclock : clock.length = 12) (hclockq : ∀ x ∈ clock, isClock x = true)
    (hzone : zone ≠ []) (hzoneq : ∀ x ∈ zone, isZone x = true)
    (hfile : file ≠ []) (hfileq : ∀ x ∈ file, isFileChar x = true)
    (hln : ln ≠ []) (hlnq : ∀ x ∈ ln, isDigit x = true)
    (hctx : ∀ x ∈ ctx, isAny x = true)
    (htail : ∀ u w, tail = u ++ w → (∀ x ∈ u, isAny x = true) → ¬ "): ".toList <+: w) :
    determineLineType (t :: (d4 ++ ' ' :: (clock ++ (zone ++ ' ' :: (file ++ ':' :: (ln ++
        ' ' :: '(' :: (ctx ++ ')' :: ':' :: ' ' :: tail))))))) =
      (.entryStart,
        { full := t :: (d4 ++ ' ' :: (clock ++ (zone ++ ' ' :: (file ++ ':' :: (ln ++
            ' ' :: '(' :: (ctx ++ ')' :: ':' :: ' ' :: tail))))))
          header := t :: (d4 ++ ' ' :: (clock ++ (zone ++ ' ' :: (file ++ ':' :: (ln ++
            ' ' :: '(' :: (ctx ++ [')', ':', ' ']))))))
          typ := t
          ts := d4 ++ ' ' :: (clock ++ zone)
          file := file
          line := ln
          context := ctx
          msg := tail }) := by
  have hrun := entryStart_run t d4 clock zone file ln ctx tail ht hd4 hd4q hclock hclockq
    hzone hzoneq hfile hfileq hln hlnq hctx htail
  generalize hL : t :: (d4 ++ ' ' :: (clock ++ (zone ++ ' ' :: (file ++ ':' :: (ln ++
        ' ' :: '(' :: (ctx ++ ')' :: ':' :: ' ' :: tail)))))) = L at hrun ⊢
  have hfind : FindStringSubmatchIndex entryStartRegexp 6 L =
      [0, 25 + zone.length + file.length + ln.length + ctx.length, 0, 1, 1, 18 + zone.length,
        19 + zone.length, 19 + zone.length + file.length, 20 + zone.length + file.length,
        20 + zone.length + file.length + ln.length, 22 + zone.length + file.length + ln.length,
        22 + zone.length + file.length + ln.length + ctx.length] := by
    unfold FindStringSubmatchIndex
    rw [← hL, findFrom, hL, hrun]
    rfl
  have h1 : ¬ L.length < continuation.length := by
    simp [← hL, continuation]; omega
  have h2 : ¬ L.take continuation.length = continuation := by
    rw [← hL]
    rcases ht with rfl | rfl | rfl <;> simp [continuation]
  have p0 : slice L 0 (25 + zone.length + file.length + ln.length + ctx.length) =
      t :: (d4 ++ ' ' :: (clock ++ (zone ++ ' ' :: (file ++ ':' :: (ln ++
        ' ' :: '(' :: (ctx ++ [')', ':', ' '])))))) := by
    have : L = [] ++ ((t :: (d4 ++ ' ' :: (clock ++ (zone ++ ' ' :: (file ++ ':' :: (ln ++
        ' ' :: '(' :: (ctx ++ [')', ':', ' '])))))))  ++ tail) := by simp [← hL]
    rw [this]
    exact slice_mid _ _ _ _ _ rfl (by simp [hd4, hclock]; omega)
  have p1 : slice L 0 1 = [t] := by
    have : L = [] ++ ([t] ++ (d4 ++ ' ' :: (clock ++ (zone ++ ' ' :: (file ++ ':' :: (ln ++
        ' ' :: '(' :: (ctx ++ ')' :: ':' :: ' ' :: tail))))))) := by simp [← hL]
    rw [this]
    exact slice_mid _ _ _ _ _ rfl rfl
  have p2 : slice L 1 (18 + zone.length) = d4 ++ ' ' :: (clock ++ zone) := by
    have : L = [t] ++ ((d4 ++ ' ' :: (clock ++ zone)) ++ (' ' :: (file ++ ':' :: (ln ++
        ' ' :: '(' :: (ctx ++ ')' :: ':' :: ' ' :: tail))))) := by simp [← hL]
    rw [this]
    exact slice_mid _ _ _ _ _ rfl (by simp [hd4, hclock]; omega)
  have p3 : slice L (19 + zone.length) (19 + zone.length + file.length) = file := by
    have : L = (t :: (d4 ++ ' ' :: (clock ++ (zone ++ [' '])))) ++ (file ++ (':' :: (ln ++
        ' ' :: '(' :: (ctx ++ ')' :: ':' :: ' ' :: tail)))) := by simp [← hL]
    rw [this]
    exact slice_mid _ _ _ _ _ (by simp [hd4, hclock]; omega) (by simp [hd4, hclock]; omega)
  have p4 : slice L (20 + zone.length + file.length)
      (20 + zone.length + file.length + ln.length) = ln := by
    have : L = (t :: (d4 ++ ' ' :: (clock ++ (zone ++ ' ' :: (file ++ [':']))))) ++ (ln ++
        (' ' :: '(' :: (ctx ++ ')' :: ':' :: ' ' :: tail))) := by simp [← hL]
    rw [this]
    exact slice_mid _ _ _ _ _ (by simp [hd4, hclock]; omega) (by simp [hd4, hclock]; omega)
  have p5 : slice L (22 + zone.length + file.length + ln.length)
      (22 + zone.length + file.length + ln.length + ctx.length) = ctx := by
    have : L = (t :: (d4 ++ ' ' :: (clock ++ (zone ++ ' ' :: (file ++ ':' :: (ln ++
        [' ', '(']))))))  ++ (ctx ++ (')' :: ':' :: ' ' :: tail)) := by simp [← hL]
    rw [this]
    exact slice_mid _ _ _ _ _ (by simp [hd4, hclock]; omega) (by simp [hd4, hclock]; omega)
  have p6 : L.drop (25 + zone.length + file.length + ln.length + ctx.length) = tail := by
    have : L = (t :: (d4 ++ ' ' :: (clock ++ (zone ++ ' ' :: (file ++ ':' :: (ln ++
        ' ' :: '(' :: (ctx ++ [')', ':', ' ']))))))) ++ tail := by simp [← hL]
    rw [this]
    apply List.drop_left'
    simp [hd4, hclock]; omega
  unfold determineLineType
  simp only [h1, h2, if_false, hfind]
  simp [p0, p1, p2, p3, p4, p5, p6]



/-! ## Encoded entries read back -/

theorem isDigit_isClock (c : Char) (h : isDigit c = true) : isClock c = true := by
  simp [isClock, h]

/-- The timestamp of a time with fields in range: four digits, a space, twelve
clock characters, the zone. -/
theorem Format_shape (t : Time) (h : t.valid) :
    ∃ d4 clock : Str, t.Format = d4 ++ ' ' :: (clock ++ fmtZone t.offset) ∧
      d4.length = 4 ∧ (∀ x ∈ d4, isDigit x = true) ∧
      clock.length = 12 ∧ (∀ x ∈ clock, isClock x = true) := by
  obtain ⟨h1, h2, h3, h4, h5, h6⟩ := h
  have l2 : ∀ x, x < 100 → (appendInt x 2).length = 2 := fun x hx =>
    appendInt_length x 2 2 (by decide) (by simpa using hx) (le_refl _)
  have l3 : (appendInt (t.nanosecond / 1000000) 3).length = 3 :=
    appendInt_length _ 3 3 (by decide) (by norm_num; omega) (le_refl _)
  refine ⟨appendInt t.month 2 ++ appendInt t.day 2,
    appendInt t.hour 2 ++ ':' :: (appendInt t.minute 2 ++ ':' :: (appendInt t.second 2 ++
      '.' :: appendInt (t.nanosecond / 1000000) 3)), ?_, ?_, ?_, ?_, ?_⟩
  · simp [Time.Format]
  · simp [l2 _ h1, l2 _ h2]
  · intro x hx
    rcases List.mem_append.1 hx with hx | hx <;> exact appendInt_isDigit _ _ _ hx
  · simp [l2 _ h3, l2 _ h4, l2 _ h5, l3]
  · intro x hx
    have hd : ∀ y w, x ∈ appendInt y w → isClock x = true := fun y w hy =>
      isDigit_isClock _ (appendInt_isDigit _ _ _ hy)
    simp only [List.mem_append, List.mem_cons] at hx
    rcases hx with hx | hx | hx | hx | hx | hx | hx
    · exact hd _ _ hx
    · subst hx; decide
    · exact hd _ _ hx
    · subst hx; decide
    · exact hd _ _ hx
    · subst hx; decide
    · exact hd _ _ hx

theorem filepathBase_ne_nil (path : Str) : filepathBase path ≠ [] := by
  unfold filepathBase
  split
  · simp
  · simp only
    split
    · simp
    · rename_i h1 h2
      have hh := List.head_dropWhile_not (fun c => decide (c = '/')) path.reverse h2
      intro h
      rw [List.reverse_eq_nil_iff] at h
      cases hs : List.dropWhile (fun c => decide (c = '/')) path.reverse with
      | nil => exact h2 hs
      | cons x xs =>
        simp only [hs, List.head_cons, decide_eq_false_iff_not] at hh
        rw [hs] at h
        simp [hh] at h

theorem fmtOrigin_shape (file : Str) (line : Int) (hf : file ≠ []) (hl : 0 ≤ line) :
    fmtOrigin file line = filepathBase file ++ ':' :: natDec line.toNat := by
  have h1 : line ≠ -1 := by omega
  have h2 : ¬ line < 0 := by omega
  simp [fmtOrigin, fmtInt, hf, h1, h2]

theorem Level_render_shape (l : Level)
    (h : l = DebugLevel ∨ l = InfoLevel ∨ l = ErrorLevel) :
    ∃ t : Char, Level.String l = some [t] ∧ Level.render l = [t] ∧
      (t = 'I' ∨ t = 'D' ∨ t = 'E') := by
  rcases h with rfl | rfl | rfl
  · exact ⟨'D', rfl, rfl, by simp⟩
  · exact ⟨'I', rfl, rfl, by simp⟩
  · exact ⟨'E', rfl, rfl, by simp⟩

/-- A text without `): ` and without newline, followed by a newline and any
further text, has no `): ` before its first newline. -/
theorem tail_no_close (m rest u w : Str) (hm : '\n' ∉ m) (hc : ¬ "): ".toList <:+: m)
    (h : m ++ '\n' :: rest = u ++ w) (hu : ∀ x ∈ u, isAny x = true) :
    ¬ "): ".toList <+: w := by
  rintro ⟨w1, rfl⟩
  rcases List.append_eq_append_iff.1 h with ⟨a, ha, hb⟩ | ⟨c, ha, hb⟩
  · -- u = m ++ a, and a starts with the newline unless it is empty
    cases a with
    | nil =>
      simp at hb
    | cons x xs =>
      simp only [List.cons_append, List.cons.injEq] at hb
      have : isAny x = true := hu x (by simp [ha])
      rw [← hb.1] at this
      exact absurd this (by decide)
  · -- m = u ++ c, and c ++ newline :: rest = "): " ++ w1
    have hc3 : "): ".toList <+: c := by
      have hb2 : c ++ '\n' :: rest = "): ".toList ++ w1 := by simpa using hb.symm
      have hcn : '\n' ∉ c := fun hx => hm (by simp [ha, hx])
      rcases c with _ | ⟨c1, _ | ⟨c2, _ | ⟨c3, c⟩⟩⟩
      · simp at hb2
      · simp at hb2
      · simp at hb2
      · simp only [List.cons_append, String.toList, List.cons.injEq] at hb2
        obtain ⟨rfl, rfl, rfl, _⟩ := hb2
        exact ⟨c, rfl⟩
    apply hc
    obtain ⟨c4, rfl⟩ := hc3
    exact ⟨u, c4, by simp [ha]⟩



theorem PrefixWriter_line (marker c : Str) (hc : '\n' ∉ c) :
    PrefixWriter.Write marker false (c ++ ['\n']) = (marker ++ c ++ ['\n'], false) := by
  cases c with
  | nil => simp [PrefixWriter.Write]
  | cons x xs =>
    have hx : x ≠ '\n' := fun e => hc (by simp [e])
    have hxs : '\n' ∉ xs := fun e => hc (by simp [e])
    have h1 := PrefixWriter_single_line marker xs hxs
    have h2 := PrefixWriter_state marker xs '\n' true
    simp only [List.cons_append, PrefixWriter.Write, hx, ne_eq, not_false_eq_true, decide_True]
    rw [Prod.ext_iff]
    simp [h1, h2]

theorem PrefixWriter_contText (ls : List Str) (h : ∀ c ∈ ls, '\n' ∉ c) :
    PrefixWriter.Write continuation false (contText ls) = (contLines ls, false) := by
  induction ls with
  | nil => simp [contText, contLines, PrefixWriter.Write]
  | cons c cs ih =>
    have e1 : contText (c :: cs) = (c ++ ['\n']) ++ contText cs := by simp [contText]
    have e2 : contLines (c :: cs) = (continuation ++ c ++ ['\n']) ++ contLines cs := by
      simp [contLines]
    rw [e1, e2, PrefixWriter_append, PrefixWriter_line _ c (h c (by simp)),
      ih (fun d hd => h d (by simp [hd]))]

theorem isFileChar_ne_newline (c : Char) (h : isFileChar c = true) : c ≠ '\n' := by
  rintro rfl; exact absurd h (by decide)

/-- The text written for an entry whose header has no newline and whose content
is a first line followed by further lines. -/
theorem Write_lines [FmtPrinter] (e : Entry) (l0 : Str) (ls : List Str) (hh : '\n' ∉ e.header)
    (hcontent : e.content = l0 ++ '\n' :: contText ls)
    (hl0 : '\n' ∉ l0) (hls : ∀ c ∈ ls, '\n' ∉ c) :
    TextWriter.Write e = e.header ++ l0 ++ '\n' :: contLines ls := by
  have hx : '\n' ∉ e.header ++ l0 := by
    simp only [List.mem_append, not_or]; exact ⟨hh, hl0⟩
  have e1 : e.header ++ e.content = (e.header ++ l0 ++ ['\n']) ++ contText ls := by
    rw [hcontent]; simp
  rw [Write_eq_single, e1, PrefixWriter_append, PrefixWriter_state,
    PrefixWriter_single_line _ _ hx]
  have : decide ('\n' ≠ '\n') = false := by decide
  rw [this, PrefixWriter_contText ls hls]
  simp

theorem trimRight_line (m : Str) (h1 : m.getLast? ≠ some '\r') (h2 : m.getLast? ≠ some '\n') :
    trimRight (m ++ ['\n']) = m := by
  unfold trimRight
  rw [List.rdropWhile_concat_pos _ _ _ (by simp), List.rdropWhile_eq_self_iff]
  intro hne
  rw [List.getLast?_eq_getLast _ hne] at h1 h2
  simp only [ne_eq, Option.some.injEq] at h1 h2
  simp [h1, h2]

theorem intercalate_lines (l0 : Str) (ls : List Str) :
    ['\n'].intercalate (l0 :: ls) ++ ['\n'] = l0 ++ '\n' :: contText ls := by
  induction ls generalizing l0 with
  | nil => simp [contText, List.intercalate]
  | cons c cs ih =>
    have := ih c
    simp only [List.intercalate, List.intersperse, List.flatten_cons] at this ⊢
    simp only [List.append_assoc] at this ⊢
    rw [this]
    simp [contText]

/-- The header of an entry of level Debug, Info or Error, with a time in range,
a file whose basename is made of word characters and dots, a line number that is
not negative and a context without newline, followed by a message line without
`): `: it is written without a newline of its own and read back as the start of
an entry with the level character, the context and the message line. -/
theorem header_roundtrip (e : Entry) (l0 rest : Str)
    (hlevel : e.Level = DebugLevel ∨ e.Level = InfoLevel ∨ e.Level = ErrorLevel)
    (htime : e.Time.valid) (hfile : e.File ≠ [])
    (hbase : ∀ c ∈ filepathBase e.File, isFileChar c = true)
    (hline : 0 ≤ e.Line) (hctx : '\n' ∉ e.Context)
    (hl0 : '\n' ∉ l0) (hl0c : ¬ "): ".toList <:+: l0) :
    '\n' ∉ e.header ∧
    ∃ e0 : logEntry, determineLineType (e.header ++ l0 ++ '\n' :: rest) = (.entryStart, e0) ∧
      some [e0.typ] = Level.String e.Level ∧ e0.context = e.Context ∧
      e0.header = e.header ∧ e0.msg = l0 ++ '\n' :: rest := by
  obtain ⟨t, ht1, ht2, ht3⟩ := Level_render_shape e.Level hlevel
  obtain ⟨d4, clock, hts, hd4, hd4q, hclock, hclockq⟩ := Format_shape e.Time htime
  have horigin := fmtOrigin_shape e.File e.Line hfile hline
  have hhdr : e.header = t :: (d4 ++ ' ' :: (clock ++ (fmtZone e.Time.offset ++ ' ' ::
      (filepathBase e.File ++ ':' :: (natDec e.Line.toNat ++ ' ' :: '(' ::
        (e.Context ++ [')', ':', ' '])))))) := by
    simp [Entry.header, ht2, fmtTimestamp, hts, horigin]
  have hctxq : ∀ x ∈ e.Context, isAny x = true := by
    intro x hx
    simp only [isAny, ne_eq, decide_eq_true_eq]
    rintro rfl; exact hctx hx
  constructor
  · rw [hhdr]
    have hz := fmtZone_isZone e.Time.offset
    simp only [List.mem_cons, List.mem_append, not_or, List.mem_singleton, List.not_mem_nil,
      or_false]
    refine ⟨?_, fun h => absurd (hd4q _ h) (by decide), by decide,
      fun h => absurd (hclockq _ h) (by decide), fun h => absurd (hz _ h) (by decide), by decide,
      fun h => absurd (hbase _ h) (by decide), by decide,
      fun h => absurd (natDec_isDigit _ _ h) (by decide), by decide, by decide, hctx, by decide,
      by decide, by decide⟩
    rcases ht3 with rfl | rfl | rfl <;> decide
  · have hw := determineLineType_wire t d4 clock (fmtZone e.Time.offset) (filepathBase e.File)
      (natDec e.Line.toNat) e.Context (l0 ++ '\n' :: rest) ht3 hd4 hd4q hclock hclockq
      (fmtZone_ne_nil _) (fmtZone_isZone _) (filepathBase_ne_nil _) hbase (natDec_ne_nil _)
      (natDec_isDigit _) hctxq (fun u w h hu => tail_no_close l0 rest u w hl0 hl0c h hu)
    have hline2 : e.header ++ l0 ++ '\n' :: rest = t :: (d4 ++ ' ' :: (clock ++
        (fmtZone e.Time.offset ++ ' ' :: (filepathBase e.File ++ ':' :: (natDec e.Line.toNat ++
          ' ' :: '(' :: (e.Context ++ ')' :: ':' :: ' ' :: (l0 ++ '\n' :: rest))))))) := by
      rw [hhdr]; simp
    rw [hline2, hw]
    refine ⟨_, rfl, ?_, rfl, ?_, rfl⟩
    · simp [ht1]
    · simp [hhdr]



theorem intercalate_getLast (l0 : Str) (ls : List Str) (hne : ∀ c ∈ l0 :: ls, c ≠ [])
    (hn : ∀ c ∈ l0 :: ls, '\n' ∉ c) :
    ['\n'].intercalate (l0 :: ls) ≠ [] ∧
      (['\n'].intercalate (l0 :: ls)).getLast? ≠ some '\n' := by
  induction ls generalizing l0 with
  | nil =>
    have h0 : l0 ≠ [] := hne l0 (by simp)
    have : ['\n'].intercalate [l0] = l0 := by simp [List.intercalate]
    rw [this]
    refine ⟨h0, ?_⟩
    rw [List.getLast?_eq_getLast _ h0]
    intro h
    simp only [Option.some.injEq] at h
    exact hn l0 (by simp) (h ▸ List.getLast_mem h0)
  | cons c cs ih =>
    obtain ⟨h1, h2⟩ := ih c (fun d hd => hne d (by simp [hd])) (fun d hd => hn d (by simp [hd]))
    have e1 : ['\n'].intercalate (l0 :: c :: cs) = l0 ++ '\n' :: ['\n'].intercalate (c :: cs) := by
      simp [List.intercalate, List.intersperse]
    rw [e1]
    refine ⟨by simp, ?_⟩
    rw [List.getLast?_append_of_ne_nil _ (by simp)]
    cases hM : ['\n'].intercalate (c :: cs) with
    | nil => exact absurd hM h1
    | cons x xs =>
      rw [List.getLast?_cons_cons, ← hM]
      exact h2

/-- Writing an entry and reading the text back, for an entry that the header
pattern accepts and a message given by its lines. -/
theorem roundtrip_lines [FmtPrinter] (e : Entry) (l0 : Str) (ls : List Str)
    (hlevel : e.Level = DebugLevel ∨ e.Level = InfoLevel ∨ e.Level = ErrorLevel)
    (htime : e.Time.valid) (hfile : e.File ≠ [])
    (hbase : ∀ c ∈ filepathBase e.File, isFileChar c = true)
    (hline : 0 ≤ e.Line) (hctx : '\n' ∉ e.Context)
    (hcontent : e.content = ['\n'].intercalate (l0 :: ls) ++ ['\n'])
    (hl0 : '\n' ∉ l0) (hl0c : ¬ "): ".toList <:+: l0) (hls : ∀ c ∈ ls, '\n' ∉ c)
    (hcr : (['\n'].intercalate (l0 :: ls)).getLast? ≠ some '\r')
    (hnl : (['\n'].intercalate (l0 :: ls)).getLast? ≠ some '\n') :
    TextWriter.Write e = e.header ++ l0 ++ '\n' :: contLines ls ∧
    ∃ res : NextResult, Next (TextWriter.Write e) = some res ∧ res.err = none ∧
      some [res.entry.typ] = Level.String e.Level ∧ res.entry.context = e.Context ∧
      res.entry.header = e.header ∧
      res.entry.msg = ['\n'].intercalate (l0 :: ls) ∧ res.reader = [] := by
  obtain ⟨hh, e0, hd, htyp, hc, hhd, hmsg⟩ :=
    header_roundtrip e l0 [] hlevel htime hfile hbase hline hctx hl0 hl0c
  have hcontent2 : e.content = l0 ++ '\n' :: contText ls := by
    rw [hcontent, intercalate_lines]
  have hw := Write_lines e l0 ls hh hcontent2 hl0 hls
  refine ⟨hw, ?_⟩
  have hx : '\n' ∉ e.header ++ l0 := by
    simp only [List.mem_append, not_or]; exact ⟨hh, hl0⟩
  have hd2 : determineLineType ((e.header ++ l0) ++ ['\n']) = (.entryStart, e0) := by
    rw [← hd]
  have hnext := Next_entry (e.header ++ l0) e0 ls [] hx hd2 hls (by simp)
  have hstream : TextWriter.Write e = e.header ++ l0 ++ ['\n'] ++ contLines ls ++ [] := by
    rw [hw]; simp
  rw [hstream, hnext]
  refine ⟨_, rfl, rfl, htyp, hc, hhd, ?_, rfl⟩
  show trimRight (e0.msg ++ contText ls) = _
  rw [hmsg, List.append_assoc, List.singleton_append, ← intercalate_lines,
    trimRight_line _ hcr hnl]

/-- C1 (amended): an entry of level Debug, Info or Error with a time in range, a
file whose basename consists of word characters and dots, a non-negative line,
a context without newline and a rendered message `m` without newline, without
`): ` and not ending in a carriage return is read back from the text written
for it, without error, with its level character, context and message. -/
theorem write_next_roundtrip [FmtPrinter] (e : Entry) (m : Str)
    (hlevel : e.Level = DebugLevel ∨ e.Level = InfoLevel ∨ e.Level = ErrorLevel)
    (htime : e.Time.valid) (hfile : e.File ≠ [])
    (hbase : ∀ c ∈ filepathBase e.File, isFileChar c = true)
    (hline : 0 ≤ e.Line) (hctx : '\n' ∉ e.Context)
    (hcontent : e.content = m ++ ['\n'])
    (hm : '\n' ∉ m) (hmc : ¬ "): ".toList <:+: m) (hcr : m.getLast? ≠ some '\r') :
    ∃ res : NextResult, Next (TextWriter.Write e) = some res ∧ res.err = none ∧
      some [res.entry.typ] = Level.String e.Level ∧ res.entry.context = e.Context ∧
      res.entry.msg = m ∧ res.reader = [] := by
  have hi : ['\n'].intercalate [m] = m := by simp [List.intercalate]
  have hnl : m.getLast? ≠ some '\n' := by
    intro h
    exact hm (List.mem_of_getLast?_eq_some h)
  obtain ⟨_, res, h1, h2, h3, h4, _, h5, h6⟩ :=
    roundtrip_lines e m [] hlevel htime hfile hbase hline hctx (by rw [hi, hcontent]) hm hmc
      (by simp) (by rw [hi]; exact hcr) (by rw [hi]; exact hnl)
  exact ⟨res, h1, h2, h3, h4, by rw [h5, hi], h6⟩



set_option maxRecDepth 100000 in
/-- C1 witness: the first entry of `TestTextWriter` is read back with level `I`,
context `ctx` and message `Hi there`. -/
theorem write_next_roundtrip_witness :
    entryHiThere.content = "Hi there".toList ++ ['\n'] ∧
      ∃ res : NextResult, Next (TextWriter.Write entryHiThere) = some res ∧ res.err = none ∧
        some [res.entry.typ] = Level.String entryHiThere.Level ∧
        res.entry.context = entryHiThere.Context ∧
        res.entry.msg = "Hi there".toList ∧ res.reader = [] :=
  ⟨by decide,
    write_next_roundtrip entryHiThere "Hi there".toList (by decide) (by decide) (by decide)
      (by decide) (by decide) (by decide) (by decide) (by decide) (by decide) (by decide)⟩

set_option maxRecDepth 100000 in
/-- C1 (as stated) fails: entries without newline in context and message that
are not read back.  A Trace entry, an entry without origin and an entry from a
file with a hyphen in its name are rejected as malformatted; a message with
`): ` is split at its last `): `, and a final carriage return is trimmed. -/
theorem write_next_roundtrip_counterexample :
    ('\n' ∉ entryTrace.Context ∧ '\n' ∉ entryTrace.message ∧
      Next (TextWriter.Write entryTrace) =
        some ⟨{}, some (.malformatted "T0523 21:21:18.901Z file.js:12 (ctx): Hi\n".toList), []⟩) ∧
    ('\n' ∉ entryNoOrigin.Context ∧ '\n' ∉ entryNoOrigin.message ∧
      Next (TextWriter.Write entryNoOrigin) =
        some ⟨{}, some (.malformatted "I0523 21:21:18.901Z ??? (ctx): Hi\n".toList), []⟩) ∧
    ('\n' ∉ entryHyphen.Context ∧ '\n' ∉ entryHyphen.message ∧
      Next (TextWriter.Write entryHyphen) =
        some ⟨{}, some (.malformatted "I0523 21:21:18.901Z my-file.go:12 (ctx): Hi\n".toList),
          []⟩) ∧
    ('\n' ∉ entryClose.Context ∧ '\n' ∉ entryClose.message ∧
      entryClose.message = "f(x): y".toList ∧
      (Next (TextWriter.Write entryClose)).map (fun r => (r.err, r.entry.context, r.entry.msg)) =
        some (none, "ctx): f(x".toList, "y".toList)) ∧
    ('\n' ∉ entryCR.Context ∧ '\n' ∉ entryCR.message ∧
      entryCR.message = "Hi\r".toList ∧
      (Next (TextWriter.Write entryCR)).map (fun r => (r.err, r.entry.context, r.entry.msg)) =
        some (none, "ctx".toList, "Hi".toList)) := by
  decide

/-- C2 (amended): for an entry the header pattern accepts, whose message consists
of the non-empty lines `l0 :: ls`, has no `): ` in its first line and does not
end in a carriage return, `Write` emits the first line behind the header and
every further line behind the continuation marker, and `Next` reads the text
back as one entry whose message is the original message. -/
theorem multiline_roundtrip [FmtPrinter] (e : Entry) (l0 : Str) (ls : List Str)
    (hlevel : e.Level = DebugLevel ∨ e.Level = InfoLevel ∨ e.Level = ErrorLevel)
    (htime : e.Time.valid) (hfile : e.File ≠ [])
    (hbase : ∀ c ∈ filepathBase e.File, isFileChar c = true)
    (hline : 0 ≤ e.Line) (hctx : '\n' ∉ e.Context)
    (hcontent : e.content = ['\n'].intercalate (l0 :: ls) ++ ['\n'])
    (hlines : ∀ c ∈ l0 :: ls, c ≠ [] ∧ '\n' ∉ c)
    (hl0c : ¬ "): ".toList <:+: l0)
    (hcr : (['\n'].intercalate (l0 :: ls)).getLast? ≠ some '\r') :
    TextWriter.Write e = e.header ++ l0 ++ '\n' :: contLines ls ∧
    ∃ res : NextResult, Next (TextWriter.Write e) = some res ∧ res.err = none ∧
      res.entry.msg = ['\n'].intercalate (l0 :: ls) ∧ res.reader = [] := by
  have hnl := (intercalate_getLast l0 ls (fun c hc => (hlines c hc).1)
    (fun c hc => (hlines c hc).2)).2
  obtain ⟨hw, res, h1, h2, _, _, _, h5, h6⟩ :=
    roundtrip_lines e l0 ls hlevel htime hfile hbase hline hctx hcontent
      (hlines l0 (by simp)).2 hl0c (fun c hc => (hlines c (by simp [hc])).2) hcr hnl
  exact ⟨hw, res, h1, h2, h5, h6⟩

set_option maxRecDepth 100000 in
/-- C2 witness: the message `a\nb\nc` is written with two continuation lines and
read back byte for byte. -/
theorem multiline_roundtrip_witness :
    TextWriter.Write entryABC =
        "I0523 21:21:18.901Z file.js:12 (ctx): a\n    b\n    c\n".toList ∧
      ∃ res : NextResult, Next (TextWriter.Write entryABC) = some res ∧ res.err = none ∧
        res.entry.msg = "a\nb\nc".toList ∧ res.reader = [] := by
  have h := multiline_roundtrip entryABC "a".toList ["b".toList, "c".toList] (by decide)
    (by decide) (by decide) (by decide) (by decide) (by decide) (by decide) (by decide)
    (by decide) (by decide)
  exact ⟨by decide, h.2⟩

set_option maxRecDepth 100000 in
/-- C2 (as stated) fails: the three-line message of a Trace entry is written with
its two continuation lines but rejected by `Next`; a first line with `): ` loses
its part before it, and a final carriage return is trimmed. -/
theorem multiline_roundtrip_counterexample :
    (TextWriter.Write entryABCTrace =
        "T0523 21:21:18.901Z file.js:12 (ctx): a\n    b\n    c\n".toList ∧
      (Next (TextWriter.Write entryABCTrace)).map (fun r => (r.err, r.entry.msg)) =
        some (some (.malformatted "T0523 21:21:18.901Z file.js:12 (ctx): a\n".toList), [])) ∧
    (entryCloseLines.Fmt = "f(x): y\nb".toList ∧
      (Next (TextWriter.Write entryCloseLines)).map (fun r => (r.err, r.entry.msg)) =
        some (none, "y\nb".toList)) ∧
    (entryCRLines.Fmt = "a\nb\r".toList ∧
      (Next (TextWriter.Write entryCRLines)).map (fun r => (r.err, r.entry.msg)) =
        some (none, "a\nb".toList)) := by
  decide

/-! ## The decoder: the peek at the next line -/

theorem nextLoop_consumed (fuel : Nat) (entry : logEntry) (reader : Str) (hne : reader ≠ [])
    (hk : (determineLineType (ReadString reader).1).1 ≠ .unknown) :
    nextLoop (fuel + 1) entry reader =
      peekStep fuel (consume entry (ReadString reader).1) (ReadString reader).2.1 := by
  have hl : (ReadString reader).1.length ≠ 0 := by
    intro e
    exact hne ((ReadString_nil_iff reader).1 (List.length_eq_zero.1 e))
  have hm : ¬ ((determineLineType (ReadString reader).1).1 = .entryCont ∧
      (determineLineType (ReadString reader).1).2.header.length = 0) := by
    rintro ⟨h1, h2⟩
    rw [determineLineType_cont_header _ h1] at h2
    exact absurd h2 (by decide)
  rw [nextLoop_succ]
  simp only [hl, hk, hm, if_false]
  rfl

/-- A call that returns has read at least one byte, unless the stream was empty. -/
theorem nextLoop_reads : ∀ (fuel : Nat) (entry : logEntry) (reader : Str) (res : NextResult),
    nextLoop fuel entry reader = some res → reader ≠ [] → res.reader.length < reader.length := by
  intro fuel
  induction fuel with
  | zero => intro entry reader res h; simp [nextLoop] at h
  | succ f ih =>
    intro entry reader res h hne
    have hlen := ReadString_length reader hne
    rw [nextLoop_succ] at h
    split_ifs at h with c1 c2 c3 c4
    · exact absurd ((ReadString_nil_iff reader).1 (List.length_eq_zero.1 c1)) hne
    · simp only [Option.some.injEq] at h
      subst h; exact hlen
    · simp only [Option.some.injEq] at h
      subst h; exact hlen
    all_goals
      unfold peekStep at h
      split at h
      · rename_i c rest heq
        have := ih _ _ _ h (by rw [heq]; simp)
        omega
      · simp only [Option.some.injEq] at h
        subst h; exact hlen

theorem ReadString_head_space (t : Str) :
    ∃ l, (ReadString (' ' :: t)).1 = ' ' :: l := by
  refine ⟨(ReadString t).1, ?_⟩
  have : (' ' : Char) ≠ '\n' := by decide
  simp [ReadString, this]

/-- A line that begins with a space but not with the marker is malformed. -/
theorem determineLineType_space (l : Str) (h : ¬ continuation <+: (' ' :: l)) :
    determineLineType (' ' :: l) = (.unknown, {}) := by
  apply determineLineType_unknown _ h
  by_contra hne
  obtain ⟨c, cs, h1, h2⟩ := entryStart_find_head _ hne
  simp only [List.cons.injEq] at h1
  rcases h2 with rfl | rfl | rfl <;> exact absurd h1.1 (by decide)

/-- C11: after a line of an entry has been consumed, the call returns the entry
and leaves the rest of the stream unread exactly when that rest is empty or
does not begin with a space; when it begins with a space the call goes on to
read the next line, and when that line does not begin with the four-space
marker the call fails with the error for a malformed line. -/
theorem next_peek (fuel : Nat) (entry : logEntry) (reader : Str) (hfuel : reader.length ≤ fuel)
    (hne : reader ≠ [])
    (hk : (determineLineType (ReadString reader).1).1 ≠ .unknown) :
    (nextLoop (fuel + 1) entry reader =
        some ⟨{ consume entry (ReadString reader).1 with
            msg := trimRight (consume entry (ReadString reader).1).msg }, none,
          (ReadString reader).2.1⟩ ↔
      (ReadString reader).2.1.head? ≠ some ' ') ∧
    ((ReadString reader).2.1.head? = some ' ' →
      nextLoop (fuel + 1) entry reader =
          nextLoop fuel (consume entry (ReadString reader).1) (ReadString reader).2.1 ∧
        ∃ res : NextResult, nextLoop (fuel + 1) entry reader = some res ∧
          res.reader.length < (ReadString reader).2.1.length) ∧
    ((ReadString reader).2.1.head? = some ' ' →
      ¬ continuation <+: (ReadString (ReadString reader).2.1).1 →
      nextLoop (fuel + 1) entry reader =
        some ⟨consume entry (ReadString reader).1,
          some (.malformatted (ReadString (ReadString reader).2.1).1),
          (ReadString (ReadString reader).2.1).2.1⟩) := by
  have hstep := nextLoop_consumed fuel entry reader hne hk
  have hlen := ReadString_length reader hne
  have hcont : (ReadString reader).2.1.head? = some ' ' →
      nextLoop (fuel + 1) entry reader =
        nextLoop fuel (consume entry (ReadString reader).1) (ReadString reader).2.1 := by
    intro h
    rw [hstep]
    cases hr : (ReadString reader).2.1 with
    | nil => rw [hr] at h; simp at h
    | cons c t =>
      rw [hr] at h
      simp only [List.head?_cons, Option.some.injEq] at h
      subst h
      rfl
  have hsome : (ReadString reader).2.1.head? = some ' ' →
      ∃ res : NextResult, nextLoop (fuel + 1) entry reader = some res ∧
        res.reader.length < (ReadString reader).2.1.length := by
    intro h
    have hrne : (ReadString reader).2.1 ≠ [] := by
      intro e; rw [e] at h; simp at h
    have hs := (nextLoop_fuel fuel fuel (ReadString reader).2.1
      (consume entry (ReadString reader).1) (by omega) (by omega)).2
    obtain ⟨res, hres⟩ := Option.isSome_iff_exists.1 hs
    exact ⟨res, by rw [hcont h, hres], nextLoop_reads _ _ _ _ hres hrne⟩
  refine ⟨⟨?_, ?_⟩, fun h => ⟨hcont h, hsome h⟩, ?_⟩
  · intro h hsp
    obtain ⟨res, h1, h2⟩ := hsome hsp
    rw [h] at h1
    simp only [Option.some.injEq] at h1
    rw [← h1] at h2
    exact absurd h2 (lt_irrefl _)
  · intro h
    rw [hstep]
    unfold peekStep
    split
    · rename_i c t heq
      rw [heq] at h
      simp at h
    · rfl
  · intro h hnp
    rw [hcont h]
    obtain ⟨g, rfl⟩ : ∃ g, fuel = g + 1 := by
      have : 0 < reader.length := List.length_pos.2 hne
      exact ⟨fuel - 1, by omega⟩
    cases hr : (ReadString reader).2.1 with
    | nil => rw [hr] at h; simp at h
    | cons c t =>
      rw [hr] at h hnp
      simp only [List.head?_cons, Option.some.injEq] at h
      subst h
      obtain ⟨l, hl⟩ := ReadString_head_space t
      rw [hl] at hnp
      have hd := determineLineType_space l hnp
      rw [nextLoop_succ, hl]
      simp [hd]

set_option maxRecDepth 100000 in
/-- C11 witness: after the first line of the test log, a line of two spaces and
a letter makes the call fail, and the next entry ends it. -/
theorem next_peek_witness :
    Next (sampleHeader ++ "\n  x\n".toList) =
        some ⟨consume {} (sampleHeader ++ ['\n']), some (.malformatted "  x\n".toList), []⟩ ∧
      (Next (sampleHeader ++ ['\n'] ++ sampleHeader2) =
          some ⟨{ consume {} (sampleHeader ++ ['\n']) with
            msg := trimRight (consume {} (sampleHeader ++ ['\n'])).msg }, none, sampleHeader2⟩ ↔
        sampleHeader2.head? ≠ some ' ') := by
  have e1 : ReadString (sampleHeader ++ "\n  x\n".toList) =
      (sampleHeader ++ ['\n'], "  x\n".toList, false) := by decide
  have e2 : ReadString (sampleHeader ++ ['\n'] ++ sampleHeader2) =
      (sampleHeader ++ ['\n'], sampleHeader2, false) := by decide
  have h1 := (next_peek (sampleHeader ++ "\n  x\n".toList).length {}
    (sampleHeader ++ "\n  x\n".toList) (le_refl _) (by decide) (by rw [e1]; decide)).2.2
  have h2 := (next_peek (sampleHeader ++ ['\n'] ++ sampleHeader2).length {}
    (sampleHeader ++ ['\n'] ++ sampleHeader2) (le_refl _) (by decide) (by rw [e2]; decide)).1
  rw [e1] at h1
  rw [e2] at h2
  exact ⟨h1 (by decide) (by decide), h2⟩

/-! ## Levels and their names -/

/-- C14: the four levels are strictly ordered under numeric comparison, in the
order Trace, Debug, Info, Error; of two distinct levels exactly one is smaller,
the one listed first. -/
theorem level_order :
    TraceLevel < DebugLevel ∧ DebugLevel < InfoLevel ∧ InfoLevel < ErrorLevel ∧
      (∀ i j : Fin 4, i = j ∨
        (allLevels.get ⟨i, by simp [allLevels]⟩ < allLevels.get ⟨j, by simp [allLevels]⟩ ∧
          ¬ allLevels.get ⟨j, by simp [allLevels]⟩ < allLevels.get ⟨i, by simp [allLevels]⟩) ∨
        (allLevels.get ⟨j, by simp [allLevels]⟩ < allLevels.get ⟨i, by simp [allLevels]⟩ ∧
          ¬ allLevels.get ⟨i, by simp [allLevels]⟩ < allLevels.get ⟨j, by simp [allLevels]⟩)) ∧
      (∀ i j : Fin 4,
        allLevels.get ⟨i, by simp [allLevels]⟩ < allLevels.get ⟨j, by simp [allLevels]⟩ ↔
          i < j) := by
  decide

theorem equalFold_iff : ∀ (a b : Str),
    equalFold a b = true ↔ a.map Char.toLower = b.map Char.toLower := by
  intro a
  induction a with
  | nil =>
    intro b
    cases b <;> simp [equalFold]
  | cons x xs ih =>
    intro b
    cases b with
    | nil => simp [equalFold]
    | cons y ys =>
      have := ih ys
      simp [equalFold, this]

theorem unicodeToLower_ascii (c : Char) (h : c.toNat < 128) : unicodeToLower c = c.toLower := by
  have h1 : c ≠ Char.ofNat 0x130 := by
    rintro rfl
    exact absurd h (by decide)
  have h2 : c ≠ Char.ofNat 0x212A := by
    rintro rfl
    exact absurd h (by decide)
  simp [unicodeToLower, h1, h2]

/-- On a string of ASCII characters `strings.ToLower` changes the capitals only. -/
theorem stringsToLower_ascii (s : Str) (h : ∀ c ∈ s, c.toNat < 128) :
    stringsToLower s = s.map Char.toLower := by
  unfold stringsToLower
  exact List.map_congr_left (fun c hc => unicodeToLower_ascii c (h c hc))

/-- `ParseLevel` looks at its argument through `strings.ToLower` only. -/
theorem ParseLevel_lower (a b : Str) (h : stringsToLower a = stringsToLower b) :
    (ParseLevel a).1 = (ParseLevel b).1 ∧ ((ParseLevel a).2 = none ↔ (ParseLevel b).2 = none) := by
  unfold ParseLevel
  simp only [h]
  split_ifs <;> simp

theorem levelNames_lower : ∀ m ∈ levelNames, stringsToLower m.1 = m.1 := by decide

theorem levelNames_ascii : ∀ m ∈ levelNames, m.1.map Char.toLower = m.1 := by decide

theorem ParseLevel_names_iff (s : Str) :
    (ParseLevel s).2 = none ↔ ∃ n ∈ levelNames, stringsToLower s = n.1 := by
  simp only [levelNames, List.mem_cons, List.mem_singleton, List.not_mem_nil, or_false,
    exists_eq_or_imp, exists_eq_left]
  unfold ParseLevel
  simp only []
  split_ifs with h1 h2 h3 h4
  · rcases h1 with h | h <;> simp [h]
  · rcases h2 with h | h <;> simp [h]
  · rcases h3 with h | h <;> simp [h]
  · rcases h4 with h | h <;> simp [h]
  · simp only [not_or] at h1 h2 h3 h4
    simp only [false_or, reduceCtorEq, false_iff, not_or]
    exact ⟨h1.1, h1.2, h2.1, h2.2, h3.1, h3.2, h4.1, h4.2⟩

theorem ParseLevel_of_lower (s : Str) (n : Str × Level) (hn : n ∈ levelNames)
    (h : stringsToLower s = n.1) : ParseLevel s = (n.2, none) := by
  have hl : stringsToLower s = stringsToLower n.1 := by rw [h, levelNames_lower n hn]
  obtain ⟨h1, h2⟩ := ParseLevel_lower s n.1 hl
  have hn2 : ∀ m ∈ levelNames, ParseLevel m.1 = (m.2, none) := by decide
  have h3 := hn2 n hn
  rw [h3] at h1 h2
  have h4 : (ParseLevel s).2 = none := h2.2 rfl
  exact Prod.ext h1 h4

theorem ParseLevel_unknown (s : Str) (h : ∀ n ∈ levelNames, stringsToLower s ≠ n.1) :
    ParseLevel s = (ErrorLevel, some (.unknownLevel s)) := by
  simp only [levelNames, List.mem_cons, List.mem_singleton, List.not_mem_nil, or_false,
    forall_eq_or_imp, forall_eq] at h
  obtain ⟨h1, h2, h3, h4, h5, h6, h7, h8⟩ := h
  unfold ParseLevel
  simp only [h1, h2, h3, h4, h5, h6, h7, h8, or_self, if_false]

theorem equalFold_lower (s : Str) (hs : ∀ c ∈ s, c.toNat < 128) (n : Str × Level)
    (hn : n ∈ levelNames) : equalFold s n.1 = true ↔ stringsToLower s = n.1 := by
  rw [equalFold_iff, stringsToLower_ascii s hs, levelNames_ascii n hn]

/-- C15 (amended): `ParseLevel` succeeds exactly on the strings whose lower
case is one of `t`, `trace`, `d`, `debug`, `i`, `info`, `e`, `error`, and then
returns the level the name denotes, as does `ParseLevelOrDie`; on every other
string, the empty one included, `ParseLevel` returns an error and
`ParseLevelOrDie` panics. For a string of ASCII characters the lower case is
one of the names exactly when the string is, case ignored, that name. -/
theorem parseLevel_names (s : Str) :
    ((ParseLevel s).2 = none ↔ ∃ n ∈ levelNames, stringsToLower s = n.1) ∧
      (∀ n ∈ levelNames, stringsToLower s = n.1 →
        ParseLevel s = (n.2, none) ∧ ParseLevelOrDie s = .ok n.2) ∧
      ((∀ n ∈ levelNames, stringsToLower s ≠ n.1) →
        (ParseLevel s).2 = some (.unknownLevel s) ∧
          ParseLevelOrDie s = .error (.unknownLevel s)) ∧
      ((∀ c ∈ s, c.toNat < 128) →
        ((ParseLevel s).2 = none ↔ ∃ n ∈ levelNames, equalFold s n.1 = true) ∧
        (∀ n ∈ levelNames, equalFold s n.1 = true →
          ParseLevel s = (n.2, none) ∧ ParseLevelOrDie s = .ok n.2) ∧
        ((∀ n ∈ levelNames, equalFold s n.1 = false) →
          (ParseLevel s).2 = some (.unknownLevel s) ∧
            ParseLevelOrDie s = .error (.unknownLevel s))) ∧
      (ParseLevel []).2 = some (.unknownLevel []) ∧
      ParseLevelOrDie [] = .error (.unknownLevel []) := by
  have hok : ∀ n ∈ levelNames, stringsToLower s = n.1 →
      ParseLevel s = (n.2, none) ∧ ParseLevelOrDie s = .ok n.2 := by
    intro n hn h
    have := ParseLevel_of_lower s n hn h
    exact ⟨this, by simp [ParseLevelOrDie, this]⟩
  have hbad : (∀ n ∈ levelNames, stringsToLower s ≠ n.1) →
      (ParseLevel s).2 = some (.unknownLevel s) ∧
        ParseLevelOrDie s = .error (.unknownLevel s) := by
    intro h
    have := ParseLevel_unknown s h
    exact ⟨by rw [this], by simp [ParseLevelOrDie, this]⟩
  refine ⟨ParseLevel_names_iff s, hok, hbad, ?_, by decide,
    by simp [ParseLevelOrDie, ParseLevel_unknown [] (by decide)]⟩
  intro hs
  refine ⟨?_, ?_, ?_⟩
  · rw [ParseLevel_names_iff]
    constructor
    · rintro ⟨n, hn, h⟩
      exact ⟨n, hn, (equalFold_lower s hs n hn).2 h⟩
    · rintro ⟨n, hn, h⟩
      exact ⟨n, hn, (equalFold_lower s hs n hn).1 h⟩
  · intro n hn h
    exact hok n hn ((equalFold_lower s hs n hn).1 h)
  · intro h
    apply hbad
    intro n hn e
    have := (equalFold_lower s hs n hn).2 e
    rw [h n hn] at this
    exact Bool.false_ne_true this

/-- C15 witness: the strings of `TestLevel`. -/
theorem parseLevel_names_witness :
    ParseLevel "InFo".toList = (InfoLevel, none) ∧ ParseLevelOrDie "InFo".toList = .ok InfoLevel ∧
      ParseLevelOrDie "ERROR".toList = .ok ErrorLevel ∧
      ParseLevelOrDie "asdf".toList = .error (.unknownLevel "asdf".toList) :=
  ⟨(((parseLevel_names "InFo".toList).2.2.2.1 (by decide)).2.1
      ("info".toList, InfoLevel) (by decide) (by decide)).1,
    (((parseLevel_names "InFo".toList).2.2.2.1 (by decide)).2.1
      ("info".toList, InfoLevel) (by decide) (by decide)).2,
    (((parseLevel_names "ERROR".toList).2.2.2.1 (by decide)).2.1
      ("error".toList, ErrorLevel) (by decide) (by decide)).2,
    (((parseLevel_names "asdf".toList).2.2.2.1 (by decide)).2.2 (by decide)).2⟩

/-- C15 counterexample: the string made of the one letter U+0130, capital I
with dot above, and that letter followed by `nfo`, are not, case ignored, any of
the eight names, yet `ParseLevel` returns the level Info for them with a nil
error and `ParseLevelOrDie` does not panic. -/
theorem parseLevel_counterexample :
    (∀ n ∈ levelNames, equalFold [Char.ofNat 0x130] n.1 = false) ∧
      ParseLevel [Char.ofNat 0x130] = (InfoLevel, none) ∧
      (∀ n ∈ levelNames, equalFold (Char.ofNat 0x130 :: "nfo".toList) n.1 = false) ∧
      ParseLevel (Char.ofNat 0x130 :: "nfo".toList) = (InfoLevel, none) ∧
      (ParseLevelOrDie [Char.ofNat 0x130]).toOption = some InfoLevel := by
  decide

/-- C16: for each of the four levels, `String` gives one of the characters `T`,
`D`, `I`, `E`, and `ParseLevel` of that string gives the level back with a nil
error. -/
theorem level_name_roundtrip :
    allLevels = [TraceLevel, DebugLevel, InfoLevel, ErrorLevel] ∧
      allLevels.map Level.String = [some ['T'], some ['D'], some ['I'], some ['E']] ∧
      ParseLevel ['T'] = (TraceLevel, none) ∧ ParseLevel ['D'] = (DebugLevel, none) ∧
      ParseLevel ['I'] = (InfoLevel, none) ∧ ParseLevel ['E'] = (ErrorLevel, none) := by
  decide

/-! ## StdLogger -/

theorem StdLogger_perform_level {σ : Type} (s : StdLogger σ) (site : CallSite) (c : Call)
    (L : Level) (hc : c.level = some L) :
    s.perform site c = s.stdlogf site L c.fmt c.args := by
  cases c <;> simp only [Call.level, Option.some.injEq, reduceCtorEq] at hc <;> subst hc <;> rfl

theorem StdLogger_stdlogf_pass {σ : Type} (s : StdLogger σ) (site : CallSite) (L : Level)
    (fmtstr : Str) (vals : List Arg) (h : s.MinLevel ≤ L) :
    s.stdlogf site L fmtstr vals =
      ({ s with Writer := (s.Writer.Write ⟨L, site.now, site.file, site.line, s.Context,
          fmtstr, vals⟩).1 },
        (s.Writer.Write ⟨L, site.now, site.file, site.line, s.Context, fmtstr, vals⟩).2.map
          (fun err => ⟨err, ⟨L, site.now, site.file, site.line, s.Context, fmtstr, vals⟩⟩)) := by
  have : ¬ L < s.LogLevel := by simp [StdLogger.LogLevel]; exact h
  simp [StdLogger.stdlogf, this]

theorem StdLogger_stdlogf_drop {σ : Type} (s : StdLogger σ) (site : CallSite) (L : Level)
    (fmtstr : Str) (vals : List Arg) (h : L < s.MinLevel) :
    s.stdlogf site L fmtstr vals = (s, none) := by
  have : L < s.LogLevel := h
  simp [StdLogger.stdlogf, this]

/-- C12: with threshold `T`, whether given at construction or set by
`SetLogLevel` (and returned by `LogLevel`), a log call of level `L` makes one
call of `Write` on the writer when `T ≤ L`, so that a writer that keeps its
entries holds exactly one more, and leaves the logger and its writer as they
were when `L < T`. -/
theorem stdlogger_filter {σ : Type} (s : StdLogger σ) (site : CallSite) (c : Call)
    (L T : Level) (hc : c.level = some L) :
    (s.SetLogLevel T).LogLevel = T ∧ (StdLogger.mk s.Context s.Writer T).LogLevel = T ∧
    (T ≤ L →
      ((s.SetLogLevel T).perform site c).1.Writer =
          (s.Writer.Write (c.entry L s.Context site)).1 ∧
        ∀ (ctx : Str) (es : List Entry),
          ((StdLogger.mk ctx (recordWriter es) T).perform site c).1.Writer.state =
            es ++ [c.entry L ctx site]) ∧
    (L < T →
      (s.SetLogLevel T).perform site c = (s.SetLogLevel T, none) ∧
        ∀ (ctx : Str) (es : List Entry),
          ((StdLogger.mk ctx (recordWriter es) T).perform site c).1.Writer.state = es) := by
  refine ⟨rfl, rfl, ?_, ?_⟩
  · intro h
    constructor
    · rw [StdLogger_perform_level _ site c L hc,
        StdLogger_stdlogf_pass _ site L _ _ (by simpa [StdLogger.SetLogLevel] using h)]
      rfl
    · intro ctx es
      rw [StdLogger_perform_level _ site c L hc, StdLogger_stdlogf_pass _ site L _ _ h]
      rfl
  · intro h
    constructor
    · rw [StdLogger_perform_level _ site c L hc,
        StdLogger_stdlogf_drop _ site L _ _ (by simpa [StdLogger.SetLogLevel] using h)]
    · intro ctx es
      rw [StdLogger_perform_level _ site c L hc, StdLogger_stdlogf_drop _ site L _ _ h]
      rfl

/-- C12 witness: with threshold Info, calls at Trace and Debug write nothing and
calls at Info and Error are written. -/
theorem stdlogger_filter_witness :
    ((StdLogger.mk "test".toList (recordWriter []) InfoLevel).perform ⟨testTime, [], 0⟩
        (.Tracef "b".toList [])).1.Writer.state = [] ∧
    ((StdLogger.mk "test".toList (recordWriter []) InfoLevel).perform ⟨testTime, [], 0⟩
        (.Debugf "c".toList [])).1.Writer.state = [] ∧
    ((StdLogger.mk "test".toList (recordWriter []) InfoLevel).perform ⟨testTime, [], 0⟩
        (.Infof "d".toList [])).1.Writer.state =
      [] ++ [Call.entry (.Infof "d".toList []) InfoLevel "test".toList ⟨testTime, [], 0⟩] ∧
    ((StdLogger.mk "test".toList (recordWriter []) InfoLevel).perform ⟨testTime, [], 0⟩
        (.Errorf "e".toList [])).1.Writer.state =
      [] ++ [Call.entry (.Errorf "e".toList []) ErrorLevel "test".toList ⟨testTime, [], 0⟩] :=
  ⟨((stdlogger_filter (StdLogger.mk "test".toList (recordWriter []) InfoLevel)
        ⟨testTime, [], 0⟩ (.Tracef "b".toList []) TraceLevel InfoLevel rfl).2.2.2
        (by decide)).2 _ _,
    ((stdlogger_filter (StdLogger.mk "test".toList (recordWriter []) InfoLevel)
        ⟨testTime, [], 0⟩ (.Debugf "c".toList []) DebugLevel InfoLevel rfl).2.2.2
        (by decide)).2 _ _,
    ((stdlogger_filter (StdLogger.mk "test".toList (recordWriter []) InfoLevel)
        ⟨testTime, [], 0⟩ (.Infof "d".toList []) InfoLevel InfoLevel rfl).2.2.1
        (by decide)).2 _ _,
    ((stdlogger_filter (StdLogger.mk "test".toList (recordWriter []) InfoLevel)
        ⟨testTime, [], 0⟩ (.Errorf "e".toList []) ErrorLevel InfoLevel rfl).2.2.1
        (by decide)).2 _ _⟩

/-- C13: a log call that passes the filter hands the writer one entry, whose
level is the level of the method called, whose context is the context of the
logger, whose format is the format given (empty for the unformatted methods) and
whose operands are the operands given, in their order. -/
theorem stdlogger_entry {σ : Type} (s : StdLogger σ) (site : CallSite) (c : Call) (L : Level)
    (hc : c.level = some L) (hpass : s.LogLevel ≤ L) :
    ∃ e : Entry, (s.perform site c).1.Writer = (s.Writer.Write e).1 ∧
      (∀ (es : List Entry) (T : Level), T ≤ L →
        ((StdLogger.mk s.Context (recordWriter es) T).perform site c).1.Writer.state =
          es ++ [e]) ∧
      e.Level = L ∧ e.Context = s.Context ∧ e.Fmt = c.fmt ∧ e.Args = c.args ∧
      e.Time = site.now ∧ e.File = site.file ∧ e.Line = site.line := by
  refine ⟨⟨L, site.now, site.file, site.line, s.Context, c.fmt, c.args⟩, ?_, ?_, rfl, rfl, rfl,
    rfl, rfl, rfl, rfl⟩
  · rw [StdLogger_perform_level _ site c L hc, StdLogger_stdlogf_pass _ site L _ _ hpass]
  · intro es T hT
    rw [StdLogger_perform_level _ site c L hc, StdLogger_stdlogf_pass _ site L _ _ hT]
    rfl

/-- C13 witness: the call `Debugf("asdf", 1, 2, "x")` of `TestStdLogger`. -/
theorem stdlogger_entry_witness :
    ∃ e : Entry,
      ((StdLogger.mk "test".toList (recordWriter []) TraceLevel).perform ⟨testTime, [], 0⟩
        (.Debugf "asdf".toList [.int 1, .int 2, .str "x".toList])).1.Writer.state = [] ++ [e] ∧
      e.Level = DebugLevel ∧ e.Context = "test".toList ∧ e.Fmt = "asdf".toList ∧
      e.Args = [.int 1, .int 2, .str "x".toList] := by
  obtain ⟨e, _, h2, h3, h4, h5, h6, _⟩ :=
    stdlogger_entry (StdLogger.mk "test".toList (recordWriter []) TraceLevel) ⟨testTime, [], 0⟩
      (.Debugf "asdf".toList [.int 1, .int 2, .str "x".toList]) DebugLevel rfl (by decide)
  exact ⟨e, h2 [] TraceLevel (by decide), h3, h4, h5, h6⟩

/-! ## MemLogger -/

theorem MemLogger_perform [FmtPrinter] (l : MemLogger) (c : Call) :
    (l.perform c).msgs =
      match c.record with
      | none => l.msgs
      | some r => if l.msgs.length < MemLoggerMaxMsgs then l.msgs ++ [r] else l.msgs := by
  cases c <;> simp [MemLogger.perform, Call.record, Call.level, Call.text, MemLogger.Trace,
    MemLogger.Tracef, MemLogger.Debug, MemLogger.Debugf, MemLogger.Info, MemLogger.Infof,
    MemLogger.Error, MemLogger.Errorf, MemLogger.SetLogLevel, MemLogger.appendToLogIfRoom] <;>
    split <;> rfl

theorem MemLogger_run [FmtPrinter] : ∀ (calls : List Call) (l : MemLogger),
    l.msgs.length ≤ MemLoggerMaxMsgs →
    (calls.foldl MemLogger.perform l).msgs =
      (l.msgs ++ calls.filterMap Call.record).take MemLoggerMaxMsgs := by
  intro calls
  induction calls with
  | nil =>
    intro l h
    simp [List.take_of_length_le h]
  | cons c cs ih =>
    intro l h
    have hp := MemLogger_perform l c
    rw [List.foldl_cons]
    cases hr : c.record with
    | none =>
      rw [hr] at hp
      have hl : (l.perform c).msgs.length ≤ MemLoggerMaxMsgs := by rw [hp]; exact h
      rw [ih _ hl, hp]
      simp [List.filterMap_cons, hr]
    | some r =>
      rw [hr] at hp
      simp only at hp
      by_cases hlt : l.msgs.length < MemLoggerMaxMsgs
      · rw [if_pos hlt] at hp
        have hl : (l.perform c).msgs.length ≤ MemLoggerMaxMsgs := by
          rw [hp]; simp; omega
        rw [ih _ hl, hp]
        simp [List.filterMap_cons, hr]
      · rw [if_neg hlt] at hp
        have hl : (l.perform c).msgs.length ≤ MemLoggerMaxMsgs := by rw [hp]; exact h
        have heq : l.msgs.length = MemLoggerMaxMsgs := by omega
        rw [ih _ hl, hp, List.take_append_of_le_length (by omega),
          List.take_append_of_le_length (by omega)]

/-- C17: after any sequence of calls on a fresh `MemLogger`, `ExtractMsgs`
returns the records of the first 128 log calls (all of them when there are
fewer) in call order, each with the level of the method called and the rendered
message text; `SetLogLevel` calls change nothing, and a log call on a logger
that holds 128 records leaves it as it is. -/
theorem memlogger_extract [FmtPrinter] (calls : List Call) :
    ((calls.foldl MemLogger.perform NewMemLogger).ExtractMsgs).1 =
        (calls.filterMap Call.record).take 128 ∧
      ((calls.foldl MemLogger.perform NewMemLogger).ExtractMsgs).1.length =
        min (calls.filterMap Call.record).length 128 ∧
      (∀ (l : MemLogger) (n : Level), l.SetLogLevel n = l ∧ l.LogLevel = TraceLevel) ∧
      (∀ (l : MemLogger) (c : Call), l.msgs.length = 128 → l.perform c = l) := by
  have h := MemLogger_run calls NewMemLogger (by simp [NewMemLogger])
  have h1 : ((calls.foldl MemLogger.perform NewMemLogger).ExtractMsgs).1 =
      (calls.filterMap Call.record).take 128 := by
    simpa [MemLogger.ExtractMsgs, NewMemLogger, MemLoggerMaxMsgs] using h
  refine ⟨h1, ?_, fun l n => ⟨rfl, rfl⟩, ?_⟩
  · rw [h1, List.length_take, Nat.min_comm]
  · intro l c hl
    have hp := MemLogger_perform l c
    have hnot : ¬ l.msgs.length < MemLoggerMaxMsgs := by simp [MemLoggerMaxMsgs, hl]
    cases hr : c.record with
    | none =>
      rw [hr] at hp
      cases l; cases hq : (MemLogger.perform _ c); simp_all
    | some r =>
      rw [hr] at hp
      simp only [hnot, if_false] at hp
      cases l; cases hq : (MemLogger.perform _ c); simp_all

/-- C17 witness: of 130 calls of `Info` the first 128 are kept. -/
theorem memlogger_extract_witness :
    (((List.replicate 130 (Call.Info [.str "x".toList])).foldl MemLogger.perform
        NewMemLogger).ExtractMsgs).1 = List.replicate 128 ⟨InfoLevel, "x".toList⟩ :=
  (memlogger_extract (List.replicate 130 (Call.Info [.str "x".toList]))).1.trans (by decide)

/-- C18: `ExtractMsgs` leaves the logger empty: a second `ExtractMsgs` returns
nothing, and after any further calls the next `ExtractMsgs` returns the records
of the first 128 of those calls and none of the records drained before. -/
theorem memlogger_extract_empties [FmtPrinter] (l : MemLogger) (calls : List Call) :
    (l.ExtractMsgs.2.ExtractMsgs).1 = [] ∧
      ((calls.foldl MemLogger.perform l.ExtractMsgs.2).ExtractMsgs).1 =
        (calls.filterMap Call.record).take 128 := by
  have h := MemLogger_run calls l.ExtractMsgs.2 (by simp [MemLogger.ExtractMsgs])
  refine ⟨rfl, ?_⟩
  simpa [MemLogger.ExtractMsgs, MemLoggerMaxMsgs] using h

/-! ## TeeLogger -/

theorem namedRecorder_perform (i : Nat) (c : Call) (log : List (Nat × Call)) :
    (namedRecorder i).perform c log = log ++ [(i, c)] := by
  cases c <;> rfl

theorem foldl_namedRecorder (c : Call) : ∀ (ids : List Nat) (log : List (Nat × Call)),
    (ids.map namedRecorder).foldl (fun w d => d.perform c w) log =
      log ++ ids.map (fun i => (i, c)) := by
  intro ids
  induction ids with
  | nil => intro log; simp
  | cons i is ih =>
    intro log
    simp only [List.map_cons, List.foldl_cons, namedRecorder_perform, ih]
    simp

/-- C19: a log call or a `SetLogLevel` call on a `TeeLogger` makes that call,
with the same arguments, on every delegate in list order: the state after it is
the state after the delegates' calls one after the other; delegates that note
their calls in a shared log note the call once each, in list order; and two
`StdLogger` delegates each handle the call as if called alone, each with its own
threshold. -/
theorem tee_forwards {W : Type} (ds : List (Logger W)) (c : Call) (w : W) :
    (NewTeeLogger ds).perform c w = ds.foldl (fun w d => d.perform c w) w ∧
    (∀ (ids : List Nat) (log : List (Nat × Call)),
      (NewTeeLogger (ids.map namedRecorder)).perform c log =
        log ++ ids.map (fun i => (i, c))) ∧
    (∀ (σ τ : Type) (site : CallSite) (s1 : StdLogger σ) (s2 : StdLogger τ),
      (NewTeeLogger
          [StdLogger.toLogger site (fun p : StdLogger σ × StdLogger τ => p.1)
              (fun s p => (s, p.2)),
            StdLogger.toLogger site (fun p : StdLogger σ × StdLogger τ => p.2)
              (fun s p => (p.1, s))]).perform c (s1, s2) =
        ((s1.perform site c).1, (s2.perform site c).1)) := by
  have key : ∀ (V : Type) (es : List (Logger V)) (v : V),
      (NewTeeLogger es).perform c v = es.foldl (fun w d => d.perform c w) v := by
    intro V es v
    cases c <;> rfl
  refine ⟨key W ds w, ?_, ?_⟩
  · intro ids log
    rw [key, foldl_namedRecorder]
  · intro σ τ site s1 s2
    rw [key]
    cases c <;> rfl

/-- C19 witness: a call of `Debugf` on a tee of two recording loggers, the first
with threshold Trace and the second with threshold Info, is kept by the first
only; a call of `Errorf` is kept by both, with the same format and operands. -/
theorem tee_forwards_witness :
    (((NewTeeLogger
          [StdLogger.toLogger ⟨testTime, [], 0⟩
              (fun p : StdLogger (List Entry) × StdLogger (List Entry) => p.1)
              (fun s p => (s, p.2)),
            StdLogger.toLogger ⟨testTime, [], 0⟩
              (fun p : StdLogger (List Entry) × StdLogger (List Entry) => p.2)
              (fun s p => (p.1, s))]).perform (.Debugf "x %d".toList [.int 1])
          (⟨"one".toList, recordWriter [], TraceLevel⟩,
            ⟨"two".toList, recordWriter [], InfoLevel⟩)).1.Writer.state.map
        (fun e => (e.Fmt, e.Args)) = [("x %d".toList, [.int 1])]) ∧
    (((NewTeeLogger
          [StdLogger.toLogger ⟨testTime, [], 0⟩
              (fun p : StdLogger (List Entry) × StdLogger (List Entry) => p.1)
              (fun s p => (s, p.2)),
            StdLogger.toLogger ⟨testTime, [], 0⟩
              (fun p : StdLogger (List Entry) × StdLogger (List Entry) => p.2)
              (fun s p => (p.1, s))]).perform (.Debugf "x %d".toList [.int 1])
          (⟨"one".toList, recordWriter [], TraceLevel⟩,
            ⟨"two".toList, recordWriter [], InfoLevel⟩)).2.Writer.state = []) ∧
    ((NewTeeLogger [namedRecorder 7, namedRecorder 9]).perform (.Errorf "e".toList []) [] =
      [(7, .Errorf "e".toList []), (9, .Errorf "e".toList [])]) := by
  refine ⟨?_, ?_, ?_⟩
  · rw [(tee_forwards [] (.Debugf "x %d".toList [.int 1]) ()).2.2]
    decide
  · rw [(tee_forwards [] (.Debugf "x %d".toList [.int 1]) ()).2.2]
    decide
  · exact (tee_forwards [] (.Errorf "e".toList []) ()).2.1 [7, 9] []

/-! ## CancellableLogger -/

theorem Cancellable_perform {W : Type} (l : Logger W) (c : Call) (w : W) :
    (CancellableLogger.mk l).perform c w = l.perform c w := by
  cases c <;> rfl

theorem Discard_perform {W : Type} (c : Call) (w : W) : (DiscardLogger W).perform c w = w := by
  cases c <;> rfl

theorem recorder_perform (c : Call) (w : List Call) : recorder.perform c w = w ++ [c] := by
  cases c <;> rfl

theorem Cancellable_cancelled {W : Type} : ∀ (ops : List WrapperOp) (w : W),
    ops.foldl CancellableLogger.step (⟨DiscardLogger W⟩, w) = (⟨DiscardLogger W⟩, w) := by
  intro ops
  induction ops with
  | nil => intro w; rfl
  | cons op ops ih =>
    intro w
    cases op with
    | call c =>
      simp only [List.foldl_cons, CancellableLogger.step, Cancellable_perform, Discard_perform, ih]
    | Cancel =>
      simp only [List.foldl_cons, CancellableLogger.step, CancellableLogger.Cancel, ih]

theorem Cancellable_run {W : Type} (orig : Logger W) : ∀ (ops : List WrapperOp) (w : W),
    (ops.foldl CancellableLogger.step (⟨orig⟩, w)).2 =
        (callsBeforeCancel ops).foldl (fun w c => orig.perform c w) w ∧
      (WrapperOp.Cancel ∈ ops →
        (ops.foldl CancellableLogger.step (⟨orig⟩, w)).1 = ⟨DiscardLogger W⟩) ∧
      (WrapperOp.Cancel ∉ ops → (ops.foldl CancellableLogger.step (⟨orig⟩, w)).1 = ⟨orig⟩) := by
  intro ops
  induction ops with
  | nil => intro w; simp [callsBeforeCancel]
  | cons op ops ih =>
    intro w
    cases op with
    | call c =>
      obtain ⟨h1, h2, h3⟩ := ih (orig.perform c w)
      simp only [List.foldl_cons, CancellableLogger.step, Cancellable_perform, callsBeforeCancel,
        List.mem_cons, reduceCtorEq, false_or]
      exact ⟨h1, h2, h3⟩
    | Cancel =>
      simp [CancellableLogger.step, CancellableLogger.Cancel, Cancellable_cancelled,
        callsBeforeCancel]

/-- C20: in a sequence of operations on a `CancellableLogger`, made one at a
time, the calls before the first `Cancel` are made on the original delegate as
they are and no later call reaches it: the delegate's state at the end is its
state after those calls, a delegate that notes its calls has noted exactly
those, and after a `Cancel` the wrapper's `LogLevel` is `ErrorLevel` and its
calls change nothing; without a `Cancel` the wrapper's `LogLevel` is the
delegate's. -/
theorem cancellable_forwarding {W : Type} (orig : Logger W) (ops : List WrapperOp) (w : W) :
    (ops.foldl CancellableLogger.step (⟨orig⟩, w)).2 =
        (callsBeforeCancel ops).foldl (fun w c => orig.perform c w) w ∧
      (ops.foldl CancellableLogger.step (⟨recorder⟩, [])).2 = callsBeforeCancel ops ∧
      (WrapperOp.Cancel ∈ ops →
        (∀ w1 : W, (ops.foldl CancellableLogger.step (⟨orig⟩, w)).1.LogLevel w1 = ErrorLevel) ∧
          ∀ (c : Call) (w1 : W),
            (ops.foldl CancellableLogger.step (⟨orig⟩, w)).1.perform c w1 = w1) ∧
      (WrapperOp.Cancel ∉ ops →
        (∀ w1 : W, (ops.foldl CancellableLogger.step (⟨orig⟩, w)).1.LogLevel w1 =
            orig.LogLevel w1) ∧
          ∀ (c : Call) (w1 : W),
            (ops.foldl CancellableLogger.step (⟨orig⟩, w)).1.perform c w1 =
              orig.perform c w1) := by
  obtain ⟨h1, h2, h3⟩ := Cancellable_run orig ops w
  refine ⟨h1, ?_, ?_, ?_⟩
  · rw [(Cancellable_run recorder ops []).1]
    have : ∀ (cs : List Call) (w0 : List Call),
        cs.foldl (fun w c => recorder.perform c w) w0 = w0 ++ cs := by
      intro cs
      induction cs with
      | nil => intro w0; simp
      | cons c cs ih => intro w0; rw [List.foldl_cons, ih, recorder_perform]; simp
    simpa using this (callsBeforeCancel ops) []
  · intro hc
    rw [h2 hc]
    exact ⟨fun _ => rfl, fun c w1 => by rw [Cancellable_perform, Discard_perform]⟩
  · intro hc
    rw [h3 hc]
    exact ⟨fun _ => rfl, fun c w1 => Cancellable_perform _ _ _⟩

/-- C20 witness: two calls, `Cancel`, and two more calls on a wrapper around a
delegate that notes its calls. -/
theorem cancellable_forwarding_witness :
    ([WrapperOp.call (.Info [.str "a".toList]), .call (.SetLogLevel InfoLevel), .Cancel,
        .call (.Error [.str "b".toList]), .call (.SetLogLevel TraceLevel)].foldl
          CancellableLogger.step (⟨recorder⟩, [])).2 =
        [.Info [.str "a".toList], .SetLogLevel InfoLevel] ∧
      ([WrapperOp.call (.Info [.str "a".toList]), .call (.SetLogLevel InfoLevel), .Cancel,
        .call (.Error [.str "b".toList]), .call (.SetLogLevel TraceLevel)].foldl
          CancellableLogger.step (⟨recorder⟩, [])).1.LogLevel [] = ErrorLevel :=
  ⟨(cancellable_forwarding recorder [WrapperOp.call (.Info [.str "a".toList]),
      .call (.SetLogLevel InfoLevel), .Cancel, .call (.Error [.str "b".toList]),
      .call (.SetLogLevel TraceLevel)] []).2.1,
    ((cancellable_forwarding recorder [WrapperOp.call (.Info [.str "a".toList]),
      .call (.SetLogLevel InfoLevel), .Cancel, .call (.Error [.str "b".toList]),
      .call (.SetLogLevel TraceLevel)] []).2.2.1 (by decide)).1 []⟩


/-! ## CancellableLogger: cancellation is final -/

/-- C21: a second `Cancel` leaves a cancelled wrapper as it is, and after a
`Cancel` every sequence of operations (log calls, `SetLogLevel`, `Cancel`)
leaves the wrapper with the discard logger as its delegate and changes nothing;
`LogLevel` only reads, and returns `ErrorLevel`. -/
theorem cancel_idempotent {W : Type} (c : CancellableLogger W) (ops : List WrapperOp) (w : W) :
    c.Cancel.Cancel = c.Cancel ∧ c.Cancel.Logger = DiscardLogger W ∧
      ops.foldl CancellableLogger.step (c.Cancel, w) = (c.Cancel, w) ∧
      (ops.foldl CancellableLogger.step (c.Cancel, w)).1.Logger = DiscardLogger W ∧
      (ops.foldl CancellableLogger.step (c.Cancel, w)).1.LogLevel w = ErrorLevel := by
  have h := Cancellable_cancelled ops w
  have hc : c.Cancel = ⟨DiscardLogger W⟩ := rfl
  rw [hc, h]
  exact ⟨rfl, rfl, rfl, rfl, rfl⟩

/-- C22: on the discard logger each of the eight log methods and `SetLogLevel`
leaves everything as it was, for all operands; `LogLevel` returns `ErrorLevel`
before and after any `SetLogLevel`, and none of the four levels lies above
`ErrorLevel`. -/
theorem discard_noop {W : Type} (c : Call) (w : W) (newLevel : Level) :
    (DiscardLogger W).perform c w = w ∧
      (DiscardLogger W).LogLevel w = ErrorLevel ∧
      (DiscardLogger W).LogLevel ((DiscardLogger W).SetLogLevel newLevel w) = ErrorLevel ∧
      (DiscardLogger W).LogLevel ((DiscardLogger W).perform c w) = ErrorLevel ∧
      allLevels.all (fun l => decide (l ≤ ErrorLevel)) = true := by
  refine ⟨Discard_perform c w, rfl, rfl, rfl, by decide⟩

/-! ## TeeLogger: `LogLevel` -/

/-- C28: `LogLevel` on a `TeeLogger` built by `NewTeeLogger` panics with the
nil dereference whatever the delegates and their state are; a `TeeLogger` whose
embedded `Logger` is set answers with the level of that logger, not of a
delegate. -/
theorem tee_loglevel_panics {W : Type} (loggers : List (Logger W)) (w : W) (d : Logger W) :
    (NewTeeLogger loggers).LogLevel w = .error nilDereference ∧
      (TeeLogger.mk (some d) loggers).LogLevel w = .ok (d.LogLevel w) := by
  exact ⟨rfl, rfl⟩

/-! ## The encoder: widths of the fixed fields -/

theorem fmtZone_length (offset : Int) (h : offset.natAbs < 360000) :
    (fmtZone offset).length = if offset = 0 then 1 else 5 := by
  unfold fmtZone
  split
  · rfl
  · have hz : (Int.tdiv offset 60).natAbs = offset.natAbs / 60 := by
      rw [Int.natAbs_tdiv]
      rfl
    simp only [List.length_cons, List.length_append]
    generalize (Int.tdiv offset 60).natAbs = z at hz ⊢
    have l1 : (appendInt (z / 60) 2).length = 2 :=
      appendInt_length _ 2 2 (by decide) (by norm_num; omega) (le_refl _)
    have l2 : (appendInt (z % 60) 2).length = 2 :=
      appendInt_length _ 2 2 (by decide) (by norm_num; omega) (le_refl _)
    rw [l1, l2]

theorem fmtTimestamp_length (t : Time) (h : t.valid) (ho : t.offset.natAbs < 360000) :
    (fmtTimestamp t).length = if t.offset = 0 then 18 else 22 := by
  obtain ⟨d4, clock, hf, h4, _, h12, _⟩ := Format_shape t h
  rw [fmtTimestamp, hf]
  simp only [List.length_append, List.length_cons, h4, h12, fmtZone_length _ ho]
  split <;> rfl

set_option maxRecDepth 100000 in
/-- C24: the timestamp is not a field of one width.  The time of the tests is
rendered with 18 characters in UTC and with 22 in the zone one hour east of it;
in general, for a time with fields in range and a zone less than a hundred
hours from UTC, the timestamp has 18 characters when the zone offset is zero
and 22 otherwise.  Each of the four levels is rendered as one character. -/
theorem timestamp_width :
    testTime.valid ∧ testTimeEast.valid ∧
      fmtTimestamp testTime = "0523 21:21:18.901Z".toList ∧
      fmtTimestamp testTimeEast = "0523 21:21:18.901+0100".toList ∧
      (fmtTimestamp testTime).length = 18 ∧ (fmtTimestamp testTimeEast).length = 22 ∧
      (∀ t : Time, t.valid → t.offset.natAbs < 360000 →
        (fmtTimestamp t).length = if t.offset = 0 then 18 else 22) ∧
      allLevels.map (fun l => (Level.render l).length) = [1, 1, 1, 1] ∧
      (Level.render InfoLevel ++ fmtTimestamp testTime ++ [' ']).length = 20 ∧
      (Level.render InfoLevel ++ fmtTimestamp testTimeEast ++ [' ']).length = 24 := by
  refine ⟨by decide, by decide, by decide, by decide, by decide, by decide, ?_, by decide,
    by decide, by decide⟩
  intro t ht ho
  exact fmtTimestamp_length t ht ho

/-! ## The encoder: the block handed to the sink -/

theorem PrefixWriter_getLast (marker : Str) (text : Str) (mid : Bool) :
    (PrefixWriter.Write marker mid text).1.getLast? = text.getLast? := by
  rcases List.eq_nil_or_concat text with rfl | ⟨init, c, rfl⟩
  · simp [PrefixWriter.Write]
  · rw [List.concat_eq_append, PrefixWriter_append, List.getLast?_concat]
    by_cases h : (PrefixWriter.Write marker mid init).2 = true <;>
      simp [PrefixWriter.Write, h, List.getLast?_concat, ← List.append_assoc]

theorem Write_getLast [FmtPrinter] (e : Entry) :
    (TextWriter.Write e).getLast? = (e.header ++ e.content).getLast? := by
  rw [Write_eq_single, PrefixWriter_getLast]

theorem header_getLast (e : Entry) : e.header.getLast? = some ' ' := by
  have : e.header = (Level.render e.Level ++ fmtTimestamp e.Time ++ [' '] ++
      fmtOrigin e.File e.Line ++ " (".toList ++ e.Context ++ [')', ':']) ++ [' '] := by
    simp [Entry.header]
  rw [this, List.getLast?_concat]

theorem Write_ne_nil [FmtPrinter] (e : Entry) : TextWriter.Write e ≠ [] := by
  intro h
  have h1 := Write_getLast e
  rw [h] at h1
  have h2 : e.header ++ e.content = [] := List.getLast?_eq_none_iff.1 h1.symm
  have h3 : e.header = [] := (List.append_eq_nil.1 h2).1
  have h4 := header_getLast e
  rw [h3] at h4
  simp at h4

theorem Write_newline_iff [FmtPrinter] (e : Entry) :
    (TextWriter.Write e).getLast? = some '\n' ↔ e.content.getLast? = some '\n' := by
  rw [Write_getLast]
  rcases List.eq_nil_or_concat e.content with h | ⟨init, c, h⟩
  · rw [h, List.append_nil, header_getLast]
    simp
  · rw [h, List.concat_eq_append, ← List.append_assoc, List.getLast?_concat,
      List.getLast?_concat]

theorem BufferWriteTo_blockSink (buf : Str) (hne : buf ≠ []) (blocks : List Str) :
    BufferWriteTo buf (blockSink blocks) = .returned (blockSink (blocks ++ [buf])) none := by
  have h : 0 < buf.length := List.length_pos.2 hne
  simp [BufferWriteTo, blockSink, h]

set_option maxRecDepth 100000 in
/-- C23: the block written for `Debugf("asdf", 1, 2, "x")` does not end in a
newline: the report of `fmt` on the surplus operands follows the newline that
`Write` appends to the format, and the block ends in `)`.  For every entry
`Write` hands the sink one block, never empty, in one call of the sink's
`Write`, and the block ends in a newline exactly when the rendered content
does, as it does for every entry without a format. -/
theorem write_one_block :
    TextWriter.Write entryAsdf =
        "D0523 21:21:18.901Z file.js:12 (test): asdf\n    %!(EXTRA int=1, int=2, string=x)".toList ∧
      (TextWriter.Write entryAsdf).getLast? = some ')' ∧
      (TextWriter.Write entryAsdf).getLast? ≠ some '\n' ∧
      (∀ [FmtPrinter] (e : Entry) (blocks : List Str),
        (TextWriter.WriteSink (blockSink blocks) e).sink =
            some (blocks ++ [TextWriter.Write e]) ∧
          (TextWriter.WriteSink (blockSink blocks) e).outcome = some none ∧
          TextWriter.Write e ≠ []) ∧
      (∀ [FmtPrinter] (e : Entry),
        (TextWriter.Write e).getLast? = some '\n' ↔ e.content.getLast? = some '\n') ∧
      (∀ [FmtPrinter] (e : Entry), e.Fmt = kNO_FORMAT →
        (TextWriter.Write e).getLast? = some '\n') := by
  refine ⟨by decide, by decide, by decide, ?_, ?_, ?_⟩
  · intro _ e blocks
    rw [TextWriter.WriteSink, BufferWriteTo_blockSink _ (Write_ne_nil e)]
    exact ⟨rfl, rfl, Write_ne_nil e⟩
  · intro _ e
    exact Write_newline_iff e
  · intro _ e h
    rw [Write_newline_iff]
    simp [Entry.content, h, Sprintln]

/-! ## The encoder and `StdLogger`: a failing sink -/

/-- C25 (amended): `Write` returns nil when the sink takes the whole block without an
error; for a sink that keeps to the contract of `io.Writer` on its count
(`n ≤ len(p)`) it returns an error exactly when the sink's write failed, with
an error or short, and the sink's error is the one returned.  A log call on a
`StdLogger` whose writer returns an error returns normally, with the failure and
the entry handed to the diagnostic channel, and without one when the writer
returns nil. -/
theorem write_sink_error [FmtPrinter] {σ τ : Type} (w : Sink σ) (e : Entry) (s : StdLogger τ)
    (site : CallSite) (c : Call) (L : Level) :
    ((w.write (TextWriter.Write e) w.state).2.1 = ((TextWriter.Write e).length : Int) →
      (w.write (TextWriter.Write e) w.state).2.2 = none →
      (TextWriter.WriteSink w e).outcome = some none) ∧
    ((w.write (TextWriter.Write e) w.state).2.1 ≤ ((TextWriter.Write e).length : Int) →
      ((∃ err, (TextWriter.WriteSink w e).outcome = some (some err)) ↔
        ((w.write (TextWriter.Write e) w.state).2.2 ≠ none ∨
          (w.write (TextWriter.Write e) w.state).2.1 ≠ ((TextWriter.Write e).length : Int))) ∧
      (∀ err, (w.write (TextWriter.Write e) w.state).2.2 = some err →
        (TextWriter.WriteSink w e).outcome = some (some err)) ∧
      (TextWriter.WriteSink w e).sink = some (w.write (TextWriter.Write e) w.state).1) ∧
    (c.level = some L → s.LogLevel ≤ L →
      (∀ err, (s.Writer.Write (c.entry L s.Context site)).2 = some err →
        s.perform site c =
          ({ s with Writer := (s.Writer.Write (c.entry L s.Context site)).1 },
            some ⟨err, c.entry L s.Context site⟩)) ∧
      ((s.Writer.Write (c.entry L s.Context site)).2 = none →
        s.perform site c =
          ({ s with Writer := (s.Writer.Write (c.entry L s.Context site)).1 }, none))) := by
  have hlen : 0 < (TextWriter.Write e).length := List.length_pos.2 (Write_ne_nil e)
  refine ⟨?_, ?_, ?_⟩
  · intro hn herr
    simp [TextWriter.WriteSink, BufferWriteTo, hlen, hn, herr, WriteToResult.outcome]
  · intro hle
    have hnot : ¬ ((TextWriter.Write e).length : Int) <
        (w.write (TextWriter.Write e) w.state).2.1 := not_lt.2 hle
    refine ⟨?_, ?_, ?_⟩
    · cases herr : (w.write (TextWriter.Write e) w.state).2.2 with
      | some err =>
        simp [TextWriter.WriteSink, BufferWriteTo, hlen, hnot, herr, WriteToResult.outcome]
      | none =>
        by_cases hn : (w.write (TextWriter.Write e) w.state).2.1 =
            ((TextWriter.Write e).length : Int)
        · simp [TextWriter.WriteSink, BufferWriteTo, hlen, hn, herr, WriteToResult.outcome]
        · simp [TextWriter.WriteSink, BufferWriteTo, hlen, hnot, hn, herr,
            WriteToResult.outcome]
    · intro err herr
      simp [TextWriter.WriteSink, BufferWriteTo, hlen, hnot, herr, WriteToResult.outcome]
    · cases herr : (w.write (TextWriter.Write e) w.state).2.2 with
      | some err =>
        simp [TextWriter.WriteSink, BufferWriteTo, hlen, hnot, herr, WriteToResult.sink]
      | none =>
        by_cases hn : (w.write (TextWriter.Write e) w.state).2.1 =
            ((TextWriter.Write e).length : Int)
        · simp [TextWriter.WriteSink, BufferWriteTo, hlen, hn, herr, WriteToResult.sink]
        · simp [TextWriter.WriteSink, BufferWriteTo, hlen, hnot, hn, herr, WriteToResult.sink]
  · intro hc hpass
    have hp := StdLogger_perform_level s site c L hc
    have hs := StdLogger_stdlogf_pass s site L c.fmt c.args hpass
    rw [hp, hs]
    constructor
    · intro err herr
      have : (s.Writer.Write ⟨L, site.now, site.file, site.line, s.Context, c.fmt, c.args⟩).2 =
          some err := herr
      rw [this]
      rfl
    · intro herr
      have : (s.Writer.Write ⟨L, site.now, site.file, site.line, s.Context, c.fmt, c.args⟩).2 =
          none := herr
      rw [this]
      rfl

/-- C25 witness: a sink that fails with `disk full` after taking no byte makes
`Write` return that error, and a log call through a writer that fails with it
returns with the failure as its diagnostic. -/
theorem write_sink_error_witness :
    (TextWriter.WriteSink (failingSink 0 "disk full".toList) entryHiThere).outcome =
        some (some "disk full".toList) ∧
      ((StdLogger.mk "test".toList (failingWriter "disk full".toList) TraceLevel).perform
          ⟨testTime, [], 0⟩ (.Info [.str "Hi".toList])).2 =
        some ⟨"disk full".toList,
          Call.entry (.Info [.str "Hi".toList]) InfoLevel "test".toList ⟨testTime, [], 0⟩⟩ :=
  ⟨((write_sink_error (failingSink 0 "disk full".toList) entryHiThere
        (StdLogger.mk "test".toList (failingWriter "disk full".toList) TraceLevel)
        ⟨testTime, [], 0⟩ (.Info [.str "Hi".toList]) InfoLevel).2.1 (by decide)).2.1
      "disk full".toList rfl,
    congrArg Prod.snd
      (((write_sink_error (failingSink 0 "disk full".toList) entryHiThere
        (StdLogger.mk "test".toList (failingWriter "disk full".toList) TraceLevel)
        ⟨testTime, [], 0⟩ (.Info [.str "Hi".toList]) InfoLevel).2.2 rfl (by decide)).1
        "disk full".toList rfl)⟩

/-- C25 (as stated) fails: a sink whose `Write` fails with `disk full` and
reports one byte more than it was given makes `Write` panic in `WriteTo`
instead of returning the error, although the sink's write has failed; so does
a sink that reports one byte too many without an error. -/
theorem write_sink_error_counterexample :
    ((overshootSink (some "disk full".toList)).write (TextWriter.Write entryHiThere) ()).2.2 =
        some "disk full".toList ∧
      (TextWriter.WriteSink (overshootSink (some "disk full".toList)) entryHiThere).outcome =
        none ∧
      (TextWriter.WriteSink (overshootSink none) entryHiThere).outcome = none := by
  decide

/-! ## The header pattern: what a match says about the line -/

theorem run_lit_inv (c : Char) (p : Nat) (s : Str) (caps : List Nat)
    (k : MState → Option (List Nat)) (v : List Nat)
    (h : (Regex.lit c).run ⟨p, s, caps⟩ k = some v) :
    ∃ ds, s = c :: ds ∧ k ⟨p + 1, ds, caps⟩ = some v := by
  cases s with
  | nil => simp [Regex.run] at h
  | cons d ds =>
    by_cases hd : d = c
    · subst hd
      exact ⟨ds, rfl, by simpa [Regex.run] using h⟩
    · simp [Regex.run, hd] at h

theorem run_cls_inv (q : Char → Bool) (p : Nat) (s : Str) (caps : List Nat)
    (k : MState → Option (List Nat)) (v : List Nat)
    (h : (Regex.cls q).run ⟨p, s, caps⟩ k = some v) :
    ∃ d ds, s = d :: ds ∧ q d = true ∧ k ⟨p + 1, ds, caps⟩ = some v := by
  cases s with
  | nil => simp [Regex.run] at h
  | cons d ds =>
    by_cases hd : q d = true
    · exact ⟨d, ds, rfl, hd, by simpa [Regex.run, hd] using h⟩
    · simp [Regex.run, hd] at h

theorem run_typ_inv (p : Nat) (s : Str) (caps : List Nat)
    (k : MState → Option (List Nat)) (v : List Nat)
    (h : (Regex.alt (.lit 'I') (.alt (.lit 'D') (.lit 'E'))).run ⟨p, s, caps⟩ k = some v) :
    ∃ t ds, s = t :: ds ∧ (t = 'I' ∨ t = 'D' ∨ t = 'E') ∧ k ⟨p + 1, ds, caps⟩ = some v := by
  cases s with
  | nil => simp [Regex.run] at h
  | cons d ds =>
    by_cases h1 : d = 'I'
    · subst h1
      exact ⟨_, ds, rfl, Or.inl rfl, by simpa [Regex.run] using h⟩
    · by_cases h2 : d = 'D'
      · subst h2
        exact ⟨_, ds, rfl, Or.inr (Or.inl rfl), by simpa [Regex.run] using h⟩
      · by_cases h3 : d = 'E'
        · subst h3
          exact ⟨_, ds, rfl, Or.inr (Or.inr rfl), by simpa [Regex.run] using h⟩
        · simp [Regex.run, h1, h2, h3] at h

theorem run_rep_cls_inv (q : Char → Bool) (tl : Regex) : ∀ (n p : Nat) (s : Str)
    (caps : List Nat) (k : MState → Option (List Nat)) (v : List Nat),
    (Regex.rep (.cls q) n tl).run ⟨p, s, caps⟩ k = some v →
    ∃ xs rest, s = xs ++ rest ∧ xs.length = n ∧ (∀ x ∈ xs, q x = true) ∧
      tl.run ⟨p + n, rest, caps⟩ k = some v := by
  intro n
  induction n with
  | zero =>
    intro p s caps k v h
    exact ⟨[], s, rfl, rfl, by simp, h⟩
  | succ n ih =>
    intro p s caps k v h
    simp only [Regex.rep, run_seq] at h
    obtain ⟨d, ds, rfl, hd, h⟩ := run_cls_inv _ _ _ _ _ _ h
    obtain ⟨xs, rest, rfl, hl, hq, h⟩ := ih _ _ _ _ _ h
    refine ⟨d :: xs, rest, rfl, by simp [hl], ?_, ?_⟩
    · intro x hx
      rcases List.mem_cons.1 hx with rfl | hx
      · exact hd
      · exact hq x hx
    · rw [← h]
      congr 2
      omega

/-- A greedy run that fails has failed after every prefix of class characters. -/
theorem starRun_none (q : Char → Bool) (k : MState → Option (List Nat)) (caps : List Nat) :
    ∀ (s : Str) (p : Nat), starRun q k p s caps = none →
    ∀ u w, s = u ++ w → (∀ x ∈ u, q x = true) → k ⟨p + u.length, w, caps⟩ = none := by
  intro s
  induction s with
  | nil =>
    intro p h u w hs _
    obtain ⟨rfl, rfl⟩ := List.append_eq_nil.1 hs.symm
    simpa [starRun] using h
  | cons c cs ih =>
    intro p h u w hs hq
    by_cases hc : q c = true
    · simp only [starRun, hc, if_true] at h
      cases hrun : starRun q k (p + 1) cs caps with
      | some v1 =>
        rw [hrun] at h
        simp [Option.orElse] at h
      | none =>
        rw [hrun] at h
        simp only [Option.orElse] at h
        cases u with
        | nil =>
          simp only [List.nil_append] at hs
          subst hs
          simpa using h
        | cons x u =>
          simp only [List.cons_append, List.cons.injEq] at hs
          have := ih (p + 1) hrun u w hs.2 (fun y hy => hq y (by simp [hy]))
          rw [← this]
          congr 2
          simp
          omega
    · simp only [starRun, hc] at h
      cases u with
      | nil =>
        simp only [List.nil_append] at hs
        subst hs
        simpa using h
      | cons x u =>
        simp only [List.cons_append, List.cons.injEq] at hs
        have := hq x (by simp)
        rw [← hs.1] at this
        exact absurd this hc

/-- A greedy run that succeeds has taken the longest prefix of class characters
after which the rest of the pattern matches. -/
theorem starRun_inv (q : Char → Bool) (k : MState → Option (List Nat)) (caps : List Nat)
    (v : List Nat) : ∀ (s : Str) (p : Nat), starRun q k p s caps = some v →
    ∃ u w, s = u ++ w ∧ (∀ x ∈ u, q x = true) ∧ k ⟨p + u.length, w, caps⟩ = some v ∧
      ∀ u1 w1, u1 ≠ [] → w = u1 ++ w1 → (∀ x ∈ u1, q x = true) →
        k ⟨p + u.length + u1.length, w1, caps⟩ = none := by
  intro s
  induction s with
  | nil =>
    intro p h
    refine ⟨[], [], rfl, by simp, by simpa [starRun] using h, ?_⟩
    intro u1 w1 hu hw _
    exact absurd (List.append_eq_nil.1 hw.symm).1 hu
  | cons c cs ih =>
    intro p h
    by_cases hc : q c = true
    · simp only [starRun, hc, if_true] at h
      cases hrun : starRun q k (p + 1) cs caps with
      | some v1 =>
        rw [hrun] at h
        simp only [Option.orElse, Option.some.injEq] at h
        subst h
        obtain ⟨u, w, rfl, hq, hk, hmax⟩ := ih (p + 1) hrun
        refine ⟨c :: u, w, rfl, ?_, ?_, ?_⟩
        · intro x hx
          rcases List.mem_cons.1 hx with rfl | hx
          · exact hc
          · exact hq x hx
        · rw [← hk]
          congr 2
          simp
          omega
        · intro u1 w1 hu hw hq1
          rw [← hmax u1 w1 hu hw hq1]
          congr 2
          simp
          omega
      | none =>
        rw [hrun] at h
        simp only [Option.orElse] at h
        refine ⟨[], c :: cs, rfl, by simp, by simpa using h, ?_⟩
        intro u1 w1 hu hw hq1
        cases u1 with
        | nil => exact absurd rfl hu
        | cons x u1 =>
          simp only [List.cons_append, List.cons.injEq] at hw
          have := starRun_none q k caps cs (p + 1) hrun u1 w1 hw.2
            (fun y hy => hq1 y (by simp [hy]))
          rw [← this]
          congr 2
          simp
          omega
    · simp only [starRun, hc] at h
      refine ⟨[], c :: cs, rfl, by simp, by simpa using h, ?_⟩
      intro u1 w1 hu hw hq1
      cases u1 with
      | nil => exact absurd rfl hu
      | cons x u1 =>
        simp only [List.cons_append, List.cons.injEq] at hw
        have := hq1 x (by simp)
        rw [← hw.1] at this
        exact absurd this hc

theorem run_plus_inv (q : Char → Bool) (p : Nat) (s : Str) (caps : List Nat)
    (k : MState → Option (List Nat)) (v : List Nat)
    (h : (Regex.plus q).run ⟨p, s, caps⟩ k = some v) :
    ∃ xs rest, xs ≠ [] ∧ s = xs ++ rest ∧ (∀ x ∈ xs, q x = true) ∧
      k ⟨p + xs.length, rest, caps⟩ = some v := by
  simp only [Regex.plus, run_seq] at h
  obtain ⟨d, ds, rfl, hd, h⟩ := run_cls_inv _ _ _ _ _ _ h
  rw [run_star] at h
  obtain ⟨u, w, rfl, hq, hk, _⟩ := starRun_inv q k caps v _ _ h
  refine ⟨d :: u, w, by simp, rfl, ?_, ?_⟩
  · intro x hx
    rcases List.mem_cons.1 hx with rfl | hx
    · exact hd
    · exact hq x hx
  · rw [← hk]
    congr 2
    simp
    omega

/-- A match of the header pattern at the start of a line splits the line into
the fields of a header and a text behind `): ` that has no further `): ` which
the context could reach. -/
theorem entryStart_run_inv (line : Str) (v : List Nat)
    (h : (Regex.group 0 entryStartRegexp).run ⟨0, line, List.replicate (2 * 6) 0⟩
      (fun st => some st.caps) = some v) :
    ∃ (t : Char) (d4 clock zone file ln ctx tail : Str),
      line = t :: (d4 ++ ' ' :: (clock ++ (zone ++ ' ' :: (file ++ ':' :: (ln ++ ' ' :: '(' ::
        (ctx ++ ')' :: ':' :: ' ' :: tail)))))) ∧
      (t = 'I' ∨ t = 'D' ∨ t = 'E') ∧
      d4.length = 4 ∧ (∀ x ∈ d4, isDigit x = true) ∧
      clock.length = 12 ∧ (∀ x ∈ clock, isClock x = true) ∧
      zone ≠ [] ∧ (∀ x ∈ zone, isZone x = true) ∧
      file ≠ [] ∧ (∀ x ∈ file, isFileChar x = true) ∧
      ln ≠ [] ∧ (∀ x ∈ ln, isDigit x = true) ∧
      (∀ x ∈ ctx, isAny x = true) ∧
      (∀ u w, tail = u ++ w → (∀ x ∈ u, isAny x = true) → ¬ "): ".toList <+: w) := by
  unfold entryStartRegexp at h
  simp only [run_seq, run_group, run_bol] at h
  obtain ⟨t, s1, rfl, ht, h⟩ := run_typ_inv _ _ _ _ _ h
  obtain ⟨d4, s2, rfl, hd4, hd4q, h⟩ := run_rep_cls_inv _ _ _ _ _ _ _ _ h
  rw [run_seq] at h
  obtain ⟨s3, rfl, h⟩ := run_lit_inv _ _ _ _ _ _ h
  obtain ⟨clock, s4, rfl, hclock, hclockq, h⟩ := run_rep_cls_inv _ _ _ _ _ _ _ _ h
  obtain ⟨zone, s5, hzone, rfl, hzoneq, h⟩ := run_plus_inv _ _ _ _ _ _ h
  obtain ⟨s6, rfl, h⟩ := run_lit_inv _ _ _ _ _ _ h
  obtain ⟨file, s7, hfile, rfl, hfileq, h⟩ := run_plus_inv _ _ _ _ _ _ h
  obtain ⟨s8, rfl, h⟩ := run_lit_inv _ _ _ _ _ _ h
  obtain ⟨ln, s9, hln, rfl, hlnq, h⟩ := run_plus_inv _ _ _ _ _ _ h
  obtain ⟨s10, rfl, h⟩ := run_lit_inv _ _ _ _ _ _ h
  obtain ⟨s11, rfl, h⟩ := run_lit_inv _ _ _ _ _ _ h
  rw [run_star] at h
  obtain ⟨ctx, s12, rfl, hctxq, h, hmax⟩ := starRun_inv _ _ _ _ _ _ h
  obtain ⟨s13, rfl, h⟩ := run_lit_inv _ _ _ _ _ _ h
  obtain ⟨s14, rfl, h⟩ := run_lit_inv _ _ _ _ _ _ h
  obtain ⟨tail, rfl, h⟩ := run_lit_inv _ _ _ _ _ _ h
  refine ⟨t, d4, clock, zone, file, ln, ctx, tail, rfl, ht, hd4, hd4q, hclock, hclockq, hzone,
    hzoneq, hfile, hfileq, hln, hlnq, hctxq, ?_⟩
  rintro u w rfl hu ⟨x, rfl⟩
  have := hmax (')' :: ':' :: ' ' :: u) ("): ".toList ++ x) (by simp) (by simp) (by
    intro y hy
    simp only [List.mem_cons] at hy
    rcases hy with rfl | rfl | rfl | hy
    · decide
    · decide
    · decide
    · exact hu y hy)
  simp [Regex.run] at this

theorem find_entryStart (line : Str)
    (h : FindStringSubmatchIndex entryStartRegexp 6 line ≠ []) :
    ∃ v, (Regex.group 0 entryStartRegexp).run ⟨0, line, List.replicate (2 * 6) 0⟩
      (fun st => some st.caps) = some v := by
  cases hrun : (Regex.group 0 entryStartRegexp).run ⟨0, line, List.replicate (2 * 6) 0⟩
      (fun st => some st.caps) with
  | some v => exact ⟨v, rfl⟩
  | none =>
    exfalso
    apply h
    unfold FindStringSubmatchIndex
    cases line with
    | nil => rw [findFrom, hrun]; rfl
    | cons c cs => rw [findFrom, hrun, entryStart_findFrom_succ]; rfl

theorem determineLineType_start_find (line : Str)
    (h : (determineLineType line).1 = .entryStart) :
    FindStringSubmatchIndex entryStartRegexp 6 line ≠ [] := by
  intro h0
  unfold determineLineType at h
  by_cases h1 : line.length < continuation.length
  · simp [h1] at h
  · by_cases h2 : line.take continuation.length = continuation
    · simp [h1, h2] at h
    · simp [h1, h2, h0] at h

/-- C29: for a line classified as the start of an entry, header and message
together are the line, the header ends with the context followed by `): `, and
the message has no `): ` before its first newline, so the `): ` that closes the
header is the last one of the line; a `): ` inside the text behind the context
is therefore taken into the context, as in `(c): f(x): y`, read with context
`c): f(x` and message `y`. -/
theorem entry_start_split (line : Str) (h : (determineLineType line).1 = .entryStart) :
    (determineLineType line).2.header ++ (determineLineType line).2.msg = line ∧
      (∃ pre, (determineLineType line).2.header =
        pre ++ " (".toList ++ (determineLineType line).2.context ++ "): ".toList) ∧
      (∀ u w, (determineLineType line).2.msg = u ++ "): ".toList ++ w → '\n' ∈ u) ∧
      ('\n' ∉ line.dropLast → ¬ "): ".toList <:+: (determineLineType line).2.msg) ∧
      (determineLineType "I0101 00:00:00.000Z a.go:1 (c): f(x): y\n".toList).2.context =
        "c): f(x".toList ∧
      (determineLineType "I0101 00:00:00.000Z a.go:1 (c): f(x): y\n".toList).2.msg =
        "y\n".toList := by
  obtain ⟨v, hv⟩ := find_entryStart line (determineLineType_start_find line h)
  obtain ⟨t, d4, clock, zone, file, ln, ctx, tail, hline, ht, hd4, hd4q, hclock, hclockq, hzone,
    hzoneq, hfile, hfileq, hln, hlnq, hctxq, htail⟩ := entryStart_run_inv line v hv
  have hw := determineLineType_wire t d4 clock zone file ln ctx tail ht hd4 hd4q hclock hclockq
    hzone hzoneq hfile hfileq hln hlnq hctxq htail
  rw [← hline] at hw
  have hmsg : (determineLineType line).2.msg = tail := by rw [hw]
  have hctx : (determineLineType line).2.context = ctx := by rw [hw]
  have hhdr : (determineLineType line).2.header =
      t :: (d4 ++ ' ' :: (clock ++ (zone ++ ' ' :: (file ++ ':' :: (ln ++
        ' ' :: '(' :: (ctx ++ [')', ':', ' '])))))) := by rw [hw]
  rw [hmsg, hctx, hhdr]
  have hocc : ∀ u w, tail = u ++ "): ".toList ++ w → '\n' ∈ u := by
    intro u w hu
    by_contra hn
    refine htail u ("): ".toList ++ w) (by rw [hu, List.append_assoc]) ?_ ⟨w, rfl⟩
    intro x hx
    have : x ≠ '\n' := fun e => hn (e ▸ hx)
    simp [isAny, this]
  refine ⟨by rw [hline]; simp, ⟨t :: (d4 ++ ' ' :: (clock ++ (zone ++ ' ' :: (file ++ ':' :: ln)))),
    by simp⟩, hocc, ?_, by decide, by decide⟩
  rintro hnl ⟨u, w, hu⟩
  have hin := hocc u w (by rw [← hu, List.append_assoc])
  apply hnl
  have hsplit : line = (t :: (d4 ++ ' ' :: (clock ++ (zone ++ ' ' :: (file ++ ':' :: (ln ++
      ' ' :: '(' :: (ctx ++ ')' :: ':' :: ' ' :: u))))))) ++ ("): ".toList ++ w) := by
    rw [hline, ← hu]
    simp
  rw [hsplit, List.dropLast_append_of_ne_nil _ (by simp)]
  simp [hin]

set_option maxRecDepth 100000 in
/-- C29 witness: the first line of the log of `TestLogReader`. -/
theorem entry_start_split_witness :
    (determineLineType (sampleHeader ++ ['\n'])).2.header ++
        (determineLineType (sampleHeader ++ ['\n'])).2.msg = sampleHeader ++ ['\n'] ∧
      (determineLineType (sampleHeader ++ ['\n'])).2.context = "Flow=f1".toList ∧
      ¬ "): ".toList <:+: (determineLineType (sampleHeader ++ ['\n'])).2.msg :=
  ⟨(entry_start_split (sampleHeader ++ ['\n']) (by decide)).1, by decide,
    (entry_start_split (sampleHeader ++ ['\n']) (by decide)).2.2.2.1 (by decide)⟩
/-! ## Goroutines that write through one `TextWriter` -/

theorem WritePc_pending_of_not_inCS (p : WritePc) (h : p.inCS = false) : p.pending = [] := by
  cases p <;> simp_all [WritePc.inCS, WritePc.pending]

theorem lastPending_eq (s : WriteState) (order : List Nat) (h : Nat)
    (hlast : order.getLast? = some h) : lastPending s order = (s.pc h).pending := by
  simp only [lastPending, hlast]

theorem WriteInv_init [FmtPrinter] (es : List Entry) : WriteInv es WriteState.init [] := by
  refine ⟨List.nodup_nil, ?_, ?_, ?_, ?_, ?_⟩
  · intro i; simp [WriteState.init, WritePc.acquired]
  · intro i b h; simp [WriteState.init] at h
  · intro i h; simp [WriteState.init, WritePc.inCS] at h
  · intro h; simp [WriteState.init] at h
  · simp [WriteState.init, lastPending]

/-- A step of a goroutine that stays outside the mutex and changes nothing
shared. -/
theorem WriteInv_local [FmtPrinter] (es : List Entry) (s : WriteState) (order : List Nat)
    (h : WriteInv es s order) (i : Nat) (p : WritePc)
    (hold : (s.pc i).acquired = false) (hnew : p.acquired = false)
    (hcs : p.inCS = false) (hp : p.pending = [])
    (hf : ∀ b, p = .filled b → b = renderAt es i) :
    WriteInv es { s with pc := Function.update s.pc i p } order := by
  obtain ⟨h1, h2, h3, h4, h5, h6⟩ := h
  have holdcs : (s.pc i).inCS = false := by
    cases hpc : s.pc i <;> simp_all [WritePc.inCS, WritePc.acquired]
  refine ⟨h1, ?_, ?_, ?_, ?_, ?_⟩
  · intro j
    by_cases hj : j = i
    · subst hj
      simp only [Function.update_same, hnew]
      rw [h2, hold]
    · simp only [Function.update_noteq hj]
      exact h2 j
  · intro j b hb
    by_cases hj : j = i
    · subst hj
      simp only [Function.update_same] at hb
      exact hf b hb
    · simp only [Function.update_noteq hj] at hb
      exact h3 j b hb
  · intro j hjcs
    by_cases hj : j = i
    · subst hj
      simp only [Function.update_same] at hjcs
      rw [hcs] at hjcs
      exact absurd hjcs (by decide)
    · simp only [Function.update_noteq hj] at hjcs
      exact h4 j hjcs
  · intro hm
    obtain ⟨x, hx⟩ := h5 hm
    have hxi : x ≠ i := by
      rintro rfl
      rw [holdcs] at hx
      exact absurd hx (by decide)
    exact ⟨x, by simpa only [Function.update_noteq hxi] using hx⟩
  · have : lastPending { s with pc := Function.update s.pc i p } order = lastPending s order := by
      unfold lastPending
      cases order.getLast? with
      | none => rfl
      | some x =>
        by_cases hx : x = i
        · subst hx
          simp only [Function.update_same, hp, WritePc_pending_of_not_inCS _ holdcs]
        · simp only [Function.update_noteq hx]
    rw [this]
    exact h6

/-- A step of the goroutine that holds the mutex and keeps it. -/
theorem WriteInv_inside [FmtPrinter] (es : List Entry) (s : WriteState) (order : List Nat)
    (h : WriteInv es s order) (i : Nat) (p : WritePc) (sink : Str)
    (hold : (s.pc i).inCS = true) (hnew : p.inCS = true)
    (hsink : sink ++ p.pending = s.sink ++ (s.pc i).pending) :
    WriteInv es { s with sink := sink, pc := Function.update s.pc i p } order := by
  obtain ⟨h1, h2, h3, h4, h5, h6⟩ := h
  obtain ⟨hm, hlast⟩ := h4 i hold
  have holdacq : (s.pc i).acquired = true := by
    cases hpc : s.pc i <;> simp_all [WritePc.inCS, WritePc.acquired]
  have hnewacq : p.acquired = true := by
    cases p <;> simp_all [WritePc.inCS, WritePc.acquired]
  refine ⟨h1, ?_, ?_, ?_, ?_, ?_⟩
  · intro j
    by_cases hj : j = i
    · subst hj
      simp only [Function.update_same, hnewacq]
      rw [h2, holdacq]
      simp
    · simp only [Function.update_noteq hj]
      exact h2 j
  · intro j b hb
    by_cases hj : j = i
    · subst hj
      simp only [Function.update_same] at hb
      rw [hb] at hnew
      simp [WritePc.inCS] at hnew
    · simp only [Function.update_noteq hj] at hb
      exact h3 j b hb
  · intro j hjcs
    by_cases hj : j = i
    · subst hj
      exact ⟨hm, hlast⟩
    · simp only [Function.update_noteq hj] at hjcs
      exact h4 j hjcs
  · intro _
    exact ⟨i, by simp only [Function.update_same, hnew]⟩
  · rw [lastPending_eq _ _ i hlast] at h6 ⊢
    simp only [Function.update_same]
    rw [hsink, h6]

theorem WriteInv_step [FmtPrinter] (es : List Entry) (s : WriteState) (order : List Nat)
    (h : WriteInv es s order) (i : Nat) :
    ∃ order1, WriteInv es (TextWriter.step es s i) order1 := by
  unfold TextWriter.step
  cases hget : es[i]? with
  | none => exact ⟨order, h⟩
  | some e =>
    have hi : i < es.length := by
      by_contra hn
      have := List.getElem?_eq_none (not_lt.1 hn)
      rw [this] at hget
      exact absurd hget (by simp)
    have hrender : renderAt es i = TextWriter.Write e := by simp [renderAt, hget]
    simp only []
    cases hpc : s.pc i with
    | start =>
      refine ⟨order, WriteInv_local es s order h i _ (by rw [hpc]; rfl) rfl rfl rfl ?_⟩
      intro b hb
      simp only [WritePc.filled.injEq] at hb
      rw [← hb, hrender]
    | filled buf =>
      simp only []
      by_cases hm : s.mutex = true
      · simp only [hm, if_true]
        exact ⟨order, h⟩
      · have hmf : s.mutex = false := by simpa using hm
        simp only [hmf, Bool.false_eq_true, ↓reduceIte]
        obtain ⟨h1, h2, h3, h4, h5, h6⟩ := h
        have hnocs : ∀ j, (s.pc j).inCS = false := by
          intro j
          cases hj : (s.pc j).inCS with
          | false => rfl
          | true => exact absurd (h4 j hj).1 hm
        have hinot : i ∉ order := by
          intro hin
          have := ((h2 i).1 hin).2
          rw [hpc] at this
          simp [WritePc.acquired] at this
        refine ⟨order ++ [i], ?_, ?_, ?_, ?_, ?_, ?_⟩
        · rw [List.nodup_append]
          refine ⟨h1, List.nodup_singleton i, ?_⟩
          intro a ha hb
          rw [List.mem_singleton] at hb
          subst hb
          exact hinot ha
        · intro j
          rw [List.mem_append, List.mem_singleton]
          by_cases hj : j = i
          · subst hj
            simp [Function.update_same, WritePc.acquired, hi]
          · simp only [Function.update_noteq hj, hj, or_false]
            exact h2 j
        · intro j b hb
          by_cases hj : j = i
          · subst hj
            simp only [Function.update_same] at hb
            exact absurd hb (by simp)
          · simp only [Function.update_noteq hj] at hb
            exact h3 j b hb
        · intro j hjcs
          by_cases hj : j = i
          · subst hj
            exact ⟨rfl, List.getLast?_concat _⟩
          · simp only [Function.update_noteq hj] at hjcs
            rw [hnocs j] at hjcs
            exact absurd hjcs (by decide)
        · intro _
          exact ⟨i, by simp only [Function.update_same]; rfl⟩
        · have hold : lastPending s order = [] := by
            unfold lastPending
            cases order.getLast? with
            | none => rfl
            | some x => exact WritePc_pending_of_not_inCS _ (hnocs x)
          rw [hold, List.append_nil] at h6
          rw [lastPending_eq _ _ i (List.getLast?_concat _)]
          simp only [Function.update_same, WritePc.pending]
          rw [h6, h3 i buf hpc]
          simp
    | locked buf =>
      cases buf with
      | nil =>
        exact ⟨order, WriteInv_inside es s order h i .written s.sink (by rw [hpc]; rfl) rfl
          (by rw [hpc]; rfl)⟩
      | cons c cs =>
        exact ⟨order, WriteInv_inside es s order h i (.locked cs) (s.sink ++ [c])
          (by rw [hpc]; rfl) rfl (by rw [hpc]; simp [WritePc.pending])⟩
    | written =>
      obtain ⟨h1, h2, h3, h4, h5, h6⟩ := h
      obtain ⟨hm, hlast⟩ := h4 i (by rw [hpc]; rfl)
      refine ⟨order, h1, ?_, ?_, ?_, ?_, ?_⟩
      · intro j
        by_cases hj : j = i
        · subst hj
          simp only [Function.update_same]
          rw [h2, hpc]
          simp [WritePc.acquired]
        · simp only [Function.update_noteq hj]
          exact h2 j
      · intro j b hb
        by_cases hj : j = i
        · subst hj
          simp only [Function.update_same] at hb
          exact absurd hb (by simp)
        · simp only [Function.update_noteq hj] at hb
          exact h3 j b hb
      · intro j hjcs
        by_cases hj : j = i
        · subst hj
          simp only [Function.update_same] at hjcs
          exact absurd hjcs (by decide)
        · simp only [Function.update_noteq hj] at hjcs
          have := (h4 j hjcs).2
          rw [hlast] at this
          exact absurd (Option.some.inj this).symm hj
      · intro hmm
        exact absurd hmm (by simp)
      · rw [lastPending_eq _ _ i hlast] at h6 ⊢
        simp only [Function.update_same, WritePc.pending]
        rw [hpc] at h6
        exact h6
    | done => exact ⟨order, h⟩

theorem WriteInv_foldl [FmtPrinter] (es : List Entry) : ∀ (schedule : List Nat) (s : WriteState)
    (order : List Nat), WriteInv es s order →
    ∃ order1, WriteInv es (schedule.foldl (TextWriter.step es) s) order1 := by
  intro schedule
  induction schedule with
  | nil => intro s order h; exact ⟨order, h⟩
  | cons i rest ih =>
    intro s order h
    obtain ⟨o1, h1⟩ := WriteInv_step es s order h i
    exact ih _ o1 h1

theorem WriteInv_run [FmtPrinter] (es : List Entry) (schedule : List Nat) :
    ∃ order, WriteInv es (TextWriter.run es schedule) order :=
  WriteInv_foldl es schedule _ [] (WriteInv_init es)

theorem range_filterMap_getElem? (es : List Entry) :
    (List.range es.length).filterMap (fun i => es[i]?) = es := by
  induction es using List.reverseRecOn with
  | nil => rfl
  | append_singleton es a ih =>
    rw [List.length_append, List.length_singleton, List.range_succ, List.filterMap_append]
    have h1 : (List.range es.length).filterMap (fun i => (es ++ [a])[i]?) =
        (List.range es.length).filterMap (fun i => es[i]?) := by
      apply List.filterMap_congr
      intro i hi
      rw [List.mem_range] at hi
      rw [List.getElem?_append_left hi]
    rw [h1, ih]
    simp

theorem map_renderAt [FmtPrinter] (es : List Entry) : ∀ (order : List Nat), (∀ i ∈ order, i < es.length) →
    order.map (renderAt es) = (order.filterMap (fun i => es[i]?)).map TextWriter.Write := by
  intro order
  induction order with
  | nil => intro _; rfl
  | cons i rest ih =>
    intro h
    have hi : i < es.length := h i (by simp)
    have hget : es[i]? = some es[i] := List.getElem?_eq_getElem hi
    rw [List.map_cons, ih (fun j hj => h j (by simp [hj])), List.filterMap_cons, hget]
    simp [renderAt, hget]

theorem splitLines_line : ∀ (b rest : Str), '\n' ∉ b →
    splitLines (b ++ '\n' :: rest) = (b ++ ['\n']) :: splitLines rest := by
  intro b
  induction b with
  | nil => intro rest _; simp [splitLines]
  | cons c cs ih =>
    intro rest h
    have hc : c ≠ '\n' := fun e => h (by simp [e])
    have hcs : '\n' ∉ cs := fun e => h (by simp [e])
    simp [splitLines, hc, ih rest hcs]

theorem splitLines_blocks : ∀ (ls : List Str),
    (∀ x ∈ ls, ∃ l, x = l ++ ['\n'] ∧ '\n' ∉ l) → splitLines ls.flatten = ls := by
  intro ls
  induction ls with
  | nil => intro _; rfl
  | cons x rest ih =>
    intro h
    obtain ⟨l, rfl, hl⟩ := h x (by simp)
    rw [List.flatten_cons, List.append_assoc, List.singleton_append, splitLines_line l _ hl,
      ih (fun y hy => h y (by simp [hy]))]

/-- The goroutine that holds the mutex can write its block to the end and
release the mutex, and no other goroutine moves meanwhile. -/
theorem finish_locked [FmtPrinter] (es : List Entry) (i : Nat) (e : Entry) (hget : es[i]? = some e) :
    ∀ (b : Str) (s : WriteState), s.pc i = .locked b →
    ∃ k, ((List.replicate k i).foldl (TextWriter.step es) s).pc i = .done ∧
      ((List.replicate k i).foldl (TextWriter.step es) s).mutex = false ∧
      ∀ j, j ≠ i → ((List.replicate k i).foldl (TextWriter.step es) s).pc j = s.pc j := by
  intro b
  induction b with
  | nil =>
    intro s hpc
    refine ⟨2, ?_⟩
    simp only [List.replicate, List.foldl_cons, List.foldl_nil]
    have h1 : TextWriter.step es s i = { s with pc := Function.update s.pc i .written } := by
      simp [TextWriter.step, hget, hpc]
    rw [h1]
    simp only [TextWriter.step, hget, Function.update_same]
    refine ⟨by simp, by simp, ?_⟩
    intro j hj
    simp [Function.update_noteq hj]
  | cons c cs ih =>
    intro s hpc
    have h1 : TextWriter.step es s i =
        { s with sink := s.sink ++ [c], pc := Function.update s.pc i (.locked cs) } := by
      simp [TextWriter.step, hget, hpc]
    obtain ⟨k, hk1, hk2, hk3⟩ := ih (TextWriter.step es s i) (by rw [h1]; simp)
    refine ⟨k + 1, ?_⟩
    simp only [List.replicate, List.foldl_cons]
    refine ⟨hk1, hk2, ?_⟩
    intro j hj
    rw [hk3 j hj, h1]
    simp [Function.update_noteq hj]

/-- A goroutine can run to its return when the mutex is free or its own. -/
theorem finish_one [FmtPrinter] (es : List Entry) (i : Nat) (hi : i < es.length) (s : WriteState)
    (h : s.mutex = false ∨ (s.pc i).inCS = true) :
    ∃ k, ((List.replicate k i).foldl (TextWriter.step es) s).pc i = .done ∧
      ((List.replicate k i).foldl (TextWriter.step es) s).mutex = false ∧
      ∀ j, j ≠ i → ((List.replicate k i).foldl (TextWriter.step es) s).pc j = s.pc j := by
  have hget : es[i]? = some es[i] := List.getElem?_eq_getElem hi
  have hfilled : ∀ (s : WriteState) (b : Str), s.mutex = false → s.pc i = .filled b →
      ∃ k, ((List.replicate k i).foldl (TextWriter.step es) s).pc i = .done ∧
        ((List.replicate k i).foldl (TextWriter.step es) s).mutex = false ∧
        ∀ j, j ≠ i → ((List.replicate k i).foldl (TextWriter.step es) s).pc j = s.pc j := by
    intro s b hm hpc
    have h1 : TextWriter.step es s i =
        { s with mutex := true, pc := Function.update s.pc i (.locked b) } := by
      simp [TextWriter.step, hget, hpc, hm]
    obtain ⟨k, hk1, hk2, hk3⟩ := finish_locked es i _ hget b (TextWriter.step es s i)
      (by rw [h1]; simp)
    refine ⟨k + 1, ?_⟩
    simp only [List.replicate, List.foldl_cons]
    refine ⟨hk1, hk2, ?_⟩
    intro j hj
    rw [hk3 j hj, h1]
    simp [Function.update_noteq hj]
  cases hpc : s.pc i with
  | start =>
    have hm : s.mutex = false := by
      rcases h with h | h
      · exact h
      · rw [hpc] at h; simp [WritePc.inCS] at h
    have h1 : TextWriter.step es s i =
        { s with pc := Function.update s.pc i (.filled (TextWriter.Write es[i])) } := by
      simp [TextWriter.step, hget, hpc]
    obtain ⟨k, hk1, hk2, hk3⟩ := hfilled (TextWriter.step es s i) (TextWriter.Write es[i])
      (by rw [h1]; exact hm) (by rw [h1]; simp)
    refine ⟨k + 1, ?_⟩
    simp only [List.replicate, List.foldl_cons]
    refine ⟨hk1, hk2, ?_⟩
    intro j hj
    rw [hk3 j hj, h1]
    simp [Function.update_noteq hj]
  | filled b =>
    have hm : s.mutex = false := by
      rcases h with h | h
      · exact h
      · rw [hpc] at h; simp [WritePc.inCS] at h
    exact hfilled s b hm hpc
  | locked b => exact finish_locked es i _ hget b s hpc
  | written =>
    refine ⟨1, ?_⟩
    simp only [List.replicate, List.foldl_cons, List.foldl_nil]
    have h1 : TextWriter.step es s i =
        { s with mutex := false, pc := Function.update s.pc i .done } := by
      simp [TextWriter.step, hget, hpc]
    rw [h1]
    refine ⟨by simp, rfl, ?_⟩
    intro j hj
    simp [Function.update_noteq hj]
  | done =>
    have hm : s.mutex = false := by
      rcases h with h | h
      · exact h
      · rw [hpc] at h; simp [WritePc.inCS] at h
    exact ⟨0, by simpa using hpc, by simpa using hm, fun j _ => rfl⟩

/-- With the mutex free, the goroutines of a list can return one after the other. -/
theorem finish_all [FmtPrinter] (es : List Entry) : ∀ (l : List Nat) (s : WriteState),
    (∀ i ∈ l, i < es.length) → s.mutex = false →
    ∃ more : List Nat, (more.foldl (TextWriter.step es) s).mutex = false ∧
      (∀ i ∈ l, (more.foldl (TextWriter.step es) s).pc i = .done) ∧
      ∀ j, s.pc j = .done → (more.foldl (TextWriter.step es) s).pc j = .done := by
  intro l
  induction l with
  | nil => intro s _ hm; exact ⟨[], hm, by simp, fun j hj => hj⟩
  | cons i rest ih =>
    intro s hl hm
    obtain ⟨k, hk1, hk2, hk3⟩ := finish_one es i (hl i (by simp)) s (Or.inl hm)
    obtain ⟨more, hm1, hm2, hm3⟩ := ih ((List.replicate k i).foldl (TextWriter.step es) s)
      (fun j hj => hl j (by simp [hj])) hk2
    refine ⟨List.replicate k i ++ more, ?_, ?_, ?_⟩
    · rw [List.foldl_append]; exact hm1
    · intro j hj
      rw [List.foldl_append]
      rcases List.mem_cons.1 hj with rfl | hj
      · exact hm3 _ hk1
      · exact hm2 j hj
    · intro j hj
      rw [List.foldl_append]
      apply hm3
      by_cases hji : j = i
      · subst hji; exact hk1
      · rw [hk3 j hji]; exact hj

/-- No schedule leads the goroutines into a state they cannot leave: after any
steps there are further steps after which all of them have returned. -/
theorem write_completes [FmtPrinter] (es : List Entry) (schedule : List Nat) :
    ∃ more : List Nat, ∀ i, i < es.length →
      (TextWriter.run es (schedule ++ more)).pc i = .done := by
  obtain ⟨order, h1, h2, _, h4, h5, _⟩ := WriteInv_run es schedule
  have hfree : ∃ m1 : List Nat,
      (m1.foldl (TextWriter.step es) (TextWriter.run es schedule)).mutex = false := by
    cases hm : (TextWriter.run es schedule).mutex with
    | false => exact ⟨[], hm⟩
    | true =>
      obtain ⟨x, hx⟩ := h5 hm
      have hxo : x ∈ order := List.mem_of_getLast?_eq_some (h4 x hx).2
      obtain ⟨k, _, hk2, _⟩ := finish_one es x ((h2 x).1 hxo).1 _ (Or.inr hx)
      exact ⟨List.replicate k x, hk2⟩
  obtain ⟨m1, hm1⟩ := hfree
  obtain ⟨m2, _, hm2, _⟩ := finish_all es (List.range es.length) _
    (fun i hi => List.mem_range.1 hi) hm1
  refine ⟨m1 ++ m2, ?_⟩
  intro i hi
  unfold TextWriter.run
  rw [List.foldl_append, List.foldl_append]
  exact hm2 i (List.mem_range.2 hi)

/-- C26: goroutines that each write one entry through the same `TextWriter`
can always all return, whatever steps they have made so far; and when every one
has returned, whatever the order of their steps was, the sink holds the blocks
of the entries one after the other, each whole, in the order in which the
goroutines took the mutex; when each block is one line that ends in a newline,
the lines of the sink are these blocks, as many as there are entries. -/
theorem write_atomic [FmtPrinter] (es : List Entry) (schedule : List Nat) :
    (∃ more : List Nat, ∀ i, i < es.length →
      (TextWriter.run es (schedule ++ more)).pc i = .done) ∧
    ((∀ i, i < es.length → (TextWriter.run es schedule).pc i = .done) →
      ∃ p : List Entry, p.Perm es ∧
        (TextWriter.run es schedule).sink = (p.map TextWriter.Write).flatten ∧
        ((∀ e ∈ es, ∃ l, TextWriter.Write e = l ++ ['\n'] ∧ '\n' ∉ l) →
          splitLines (TextWriter.run es schedule).sink = p.map TextWriter.Write ∧
          (splitLines (TextWriter.run es schedule).sink).length = es.length)) := by
  refine ⟨write_completes es schedule, ?_⟩
  intro hdone
  obtain ⟨order, h1, h2, _, _, _, h6⟩ := WriteInv_run es schedule
  have hmem : ∀ i, i ∈ order ↔ i < es.length := by
    intro i
    rw [h2]
    constructor
    · exact fun h => h.1
    · intro h
      exact ⟨h, by rw [hdone i h]; rfl⟩
  have hperm : order.Perm (List.range es.length) :=
    (List.perm_ext_iff_of_nodup h1 (List.nodup_range _)).2
      (fun i => by rw [hmem, List.mem_range])
  have hpend : lastPending (TextWriter.run es schedule) order = [] := by
    unfold lastPending
    cases hl : order.getLast? with
    | none => rfl
    | some x =>
      have hx : x ∈ order := List.mem_of_getLast?_eq_some hl
      simp only [hdone x ((hmem x).1 hx)]
      rfl
  rw [hpend, List.append_nil, map_renderAt es order (fun i hi => (hmem i).1 hi)] at h6
  have hp : (order.filterMap (fun i => es[i]?)).Perm es := by
    have := hperm.filterMap (fun i => es[i]?)
    rwa [range_filterMap_getElem?] at this
  refine ⟨order.filterMap (fun i => es[i]?), hp, h6, ?_⟩
  intro hlines
  have hsplit : splitLines (TextWriter.run es schedule).sink =
      (order.filterMap (fun i => es[i]?)).map TextWriter.Write := by
    rw [h6]
    apply splitLines_blocks
    intro x hx
    obtain ⟨e, he, rfl⟩ := List.mem_map.1 hx
    exact hlines e (hp.mem_iff.1 he)
  refine ⟨hsplit, ?_⟩
  rw [hsplit, List.length_map, hp.length_eq]

set_option maxRecDepth 1000000 in
/-- C26 witness: two goroutines write the two entries of `TestTextWriter`; the
second takes the mutex while the first waits, and the sink holds its line
first, followed by the line of the first. -/
theorem write_atomic_witness :
    (TextWriter.run twoWriters twoWritersSchedule).sink =
        TextWriter.Write entryFormat ++ TextWriter.Write entryHiThere ∧
      ∃ p : List Entry, p.Perm twoWriters ∧
        splitLines (TextWriter.run twoWriters twoWritersSchedule).sink =
          p.map TextWriter.Write ∧
        (splitLines (TextWriter.run twoWriters twoWritersSchedule).sink).length = 2 := by
  refine ⟨by decide, ?_⟩
  obtain ⟨p, hp, _, hl⟩ := (write_atomic twoWriters twoWritersSchedule).2 (by decide)
  have hyp : ∀ e ∈ twoWriters, ∃ l, TextWriter.Write e = l ++ ['\n'] ∧ '\n' ∉ l := by
    intro e he
    simp only [twoWriters, List.mem_cons, List.mem_singleton, List.not_mem_nil, or_false] at he
    rcases he with rfl | rfl
    · exact ⟨(TextWriter.Write entryHiThere).dropLast, by decide, by decide⟩
    · exact ⟨(TextWriter.Write entryFormat).dropLast, by decide, by decide⟩
  exact ⟨p, hp, (hl hyp).1, (hl hyp).2⟩

/-! ## Log calls beside `Cancel` -/

theorem readers_update (n : Nat) (pc : Nat → CallPc) (i : Nat) (hi : i < n) (p : CallPc) :
    (∑ j in Finset.range n, (if (Function.update pc i p j).reading = true then 1 else 0)) +
        (if (pc i).reading = true then 1 else 0) =
      (∑ j in Finset.range n, (if (pc j).reading = true then 1 else 0)) +
        (if p.reading = true then 1 else 0) := by
  have hmem : i ∈ Finset.range n := Finset.mem_range.2 hi
  rw [← Finset.add_sum_erase _ _ hmem,
    ← Finset.add_sum_erase _ (fun j => if (pc j).reading = true then 1 else 0) hmem]
  have hrest : (∑ j in (Finset.range n).erase i,
        (if (Function.update pc i p j).reading = true then 1 else 0)) =
      ∑ j in (Finset.range n).erase i, (if (pc j).reading = true then 1 else 0) := by
    apply Finset.sum_congr rfl
    intro j hj
    rw [Function.update_noteq (Finset.ne_of_mem_erase hj)]
  rw [hrest, Function.update_same]
  omega

theorem CancelInv_init (n : Nat) : CancelInv n CancelState.init := by
  refine ⟨?_, fun _ _ => rfl, ?_, ?_, ?_, ?_, ?_, List.nodup_nil, ?_⟩
  · simp [CancelState.init]
  · simp [CancelState.init, CallPc.reading]
  · simp [CancelState.init]
  · simp [CancelState.init]
  · simp [CancelState.init]
  · intro i d h; simp [CancelState.init] at h
  · intro i h; simp [CancelState.init] at h

/-- While `Cancel` holds the write lock no log call holds a read lock. -/
theorem CancelInv_exclusive (n : Nat) (s : CancelState) (h : CancelInv n s)
    (hw : s.writer = true) (i : Nat) : (s.pc i).reading = false := by
  obtain ⟨_, k0, k1, _, k3, _⟩ := h
  by_cases hi : i < n
  · have h0 := k3 hw
    rw [k1, Finset.sum_eq_zero_iff] at h0
    have := h0 i (Finset.mem_range.2 hi)
    cases hr : (s.pc i).reading with
    | false => rfl
    | true => simp [hr] at this
  · rw [k0 i (not_lt.1 hi)]
    rfl

/-- A step of a log call: its place changes, and with it the count of read
locks and the calls the original logger has handled. -/
theorem CancelInv_caller (n : Nat) (s : CancelState) (h : CancelInv n s) (i : Nat) (hi : i < n)
    (p : CallPc) (readers : Nat) (handled : List Nat)
    (hr : readers + (if (s.pc i).reading = true then 1 else 0) =
      s.readers + (if p.reading = true then 1 else 0))
    (hw : s.writer = true → readers = 0)
    (hcall : ∀ d, p = .calling d → d = s.Logger)
    (hnd : handled.Nodup)
    (hh : ∀ j ∈ handled, (j = i ∧ (p = .called ∨ p = .done)) ∨
      (j ≠ i ∧ (s.pc j = .called ∨ s.pc j = .done))) :
    CancelInv n { s with readers := readers, handled := handled,
                         pc := Function.update s.pc i p } := by
  obtain ⟨kp, k0, k1, k2, k3, k4, k5, k6, k7⟩ := h
  refine ⟨kp, ?_, ?_, k2, hw, k4, ?_, hnd, ?_⟩
  · intro j hj
    dsimp only
    rw [Function.update_noteq (by omega)]
    exact k0 j hj
  · dsimp only
    have := readers_update n s.pc i hi p
    omega
  · intro j d hj
    dsimp only at hj ⊢
    by_cases hji : j = i
    · subst hji
      rw [Function.update_same] at hj
      exact hcall d hj
    · rw [Function.update_noteq hji] at hj
      exact k5 j d hj
  · intro j hj
    dsimp only at hj ⊢
    rcases hh j hj with ⟨rfl, h1⟩ | ⟨hji, h1⟩
    · rw [Function.update_same]
      exact h1
    · rw [Function.update_noteq hji]
      exact h1

theorem CancelInv_step (n : Nat) (s : CancelState) (h : CancelInv n s) (g : Goroutine) :
    CancelInv n (CancelState.step n s g) := by
  have hex := CancelInv_exclusive n s h
  have hall := h
  obtain ⟨kp, k0, k1, k2, k3, k4, k5, k6, k7⟩ := h
  cases g with
  | caller i =>
    unfold CancelState.step
    by_cases hi : i < n
    · simp only [hi, if_true]
      cases hpc : s.pc i with
      | start =>
        simp only []
        by_cases hw : s.writer = true ∨ s.pending = true
        · rw [if_pos hw]
          exact hall
        · rw [if_neg hw]
          exact CancelInv_caller n s hall i hi .rlocked (s.readers + 1) s.handled
            (by rw [hpc]; rfl) (fun h1 => absurd (Or.inl h1) hw)
            (fun d hd => absurd hd (by simp)) k6
            (by
              intro j hj
              refine Or.inr ⟨?_, k7 j hj⟩
              rintro rfl
              rcases k7 j hj with h1 | h1 <;> rw [hpc] at h1 <;> simp at h1)
      | rlocked =>
        exact CancelInv_caller n s hall i hi (.calling s.Logger) s.readers s.handled
          (by rw [hpc]; rfl) k3 (fun d hd => (CallPc.calling.inj hd).symm) k6
          (by
            intro j hj
            refine Or.inr ⟨?_, k7 j hj⟩
            rintro rfl
            rcases k7 j hj with h1 | h1 <;> rw [hpc] at h1 <;> simp at h1)
      | calling d =>
        have hnot : i ∉ s.handled := by
          intro hin
          rcases k7 i hin with h1 | h1 <;> rw [hpc] at h1 <;> simp at h1
        refine CancelInv_caller n s hall i hi .called s.readers _
          (by rw [hpc]; rfl) k3 (fun d hd => absurd hd (by simp)) ?_ ?_
        · split
          · rw [List.nodup_append]
            refine ⟨k6, List.nodup_singleton i, ?_⟩
            intro a ha hb
            rw [List.mem_singleton] at hb
            subst hb
            exact hnot ha
          · exact k6
        · intro j hj
          have hj1 : j ∈ s.handled ∨ j = i := by
            split at hj
            · simpa using hj
            · exact Or.inl hj
          by_cases hji : j = i
          · exact Or.inl ⟨hji, Or.inl rfl⟩
          · rcases hj1 with h1 | h1
            · exact Or.inr ⟨hji, k7 j h1⟩
            · exact absurd h1 hji
      | called =>
        have hpos : 1 ≤ s.readers := by
          rw [k1]
          have hmem : i ∈ Finset.range n := Finset.mem_range.2 hi
          rw [← Finset.add_sum_erase _ _ hmem, hpc]
          simp [CallPc.reading]
        refine CancelInv_caller n s hall i hi .done (s.readers - 1) s.handled
          ?_ (fun h1 => by rw [k3 h1]) (fun d hd => absurd hd (by simp)) k6 ?_
        · rw [hpc]
          simp only [CallPc.reading, if_true, Bool.false_eq_true, if_false]
          omega
        · intro j hj
          by_cases hji : j = i
          · exact Or.inl ⟨hji, Or.inr rfl⟩
          · exact Or.inr ⟨hji, k7 j hj⟩
      | done => exact hall
    · simp only [hi, if_false]
      exact hall
  | canceller =>
    unfold CancelState.step
    cases hc : s.cancel with
    | start =>
      simp only []
      by_cases hfree : s.writer = false ∧ s.readers = 0
      · rw [if_pos hfree]
        refine ⟨by simp, k0, k1, by simp, fun _ => hfree.2, ?_, k5, k6, k7⟩
        dsimp only
        rw [k4, hc]
        simp
      · rw [if_neg hfree]
        exact ⟨fun _ => rfl, k0, k1, by rw [hc] at k2; exact k2, k3, by rw [hc] at k4; exact k4,
          k5, k6, k7⟩
    | locked =>
      have hw : s.writer = true := k2.2 (Or.inl hc)
      have hnp : ¬ s.pending = true := fun hp => by
        have := kp hp
        rw [hc] at this
        exact absurd this (by simp)
      refine ⟨fun hp => absurd hp hnp, k0, k1, ?_, k3, by simp, ?_, k6, k7⟩
      · dsimp only
        simp [hw]
      · intro j d hj
        have := hex hw j
        dsimp only at hj
        rw [hj] at this
        simp [CallPc.reading] at this
    | assigned =>
      have hnp : ¬ s.pending = true := fun hp => by
        have := kp hp
        rw [hc] at this
        exact absurd this (by simp)
      refine ⟨fun hp => absurd hp hnp, k0, k1, by simp, by simp, ?_, k5, k6, k7⟩
      dsimp only
      rw [k4, hc]
      simp
    | done => exact hall

theorem CancelInv_foldl (n : Nat) : ∀ (schedule : List Goroutine) (s : CancelState),
    CancelInv n s → CancelInv n (schedule.foldl (CancelState.step n) s) := by
  intro schedule
  induction schedule with
  | nil => intro s h; exact h
  | cons g rest ih => intro s h; exact ih _ (CancelInv_step n s h g)

theorem CancelInv_run (n : Nat) (schedule : List Goroutine) :
    CancelInv n (CancelState.run n schedule) :=
  CancelInv_foldl n schedule _ (CancelInv_init n)

theorem caller_chain (n i : Nat) (s s1 : CancelState)
    (hstep : CancelState.step n s (.caller i) = s1)
    (hpc : ∀ j, j ≠ i → s1.pc j = s.pc j) (hw : s1.writer = s.writer)
    (hp : s1.pending = s.pending) (hc : s1.cancel = s.cancel)
    (hrest : ∃ k, ((List.replicate k (Goroutine.caller i)).foldl (CancelState.step n) s1).pc i = .done ∧
      (∀ j, j ≠ i → ((List.replicate k (Goroutine.caller i)).foldl (CancelState.step n) s1).pc j = s1.pc j) ∧
      ((List.replicate k (Goroutine.caller i)).foldl (CancelState.step n) s1).writer = s1.writer ∧
      ((List.replicate k (Goroutine.caller i)).foldl (CancelState.step n) s1).pending = s1.pending ∧
      ((List.replicate k (Goroutine.caller i)).foldl (CancelState.step n) s1).cancel = s1.cancel) :
    ∃ k, ((List.replicate k (Goroutine.caller i)).foldl (CancelState.step n) s).pc i = .done ∧
      (∀ j, j ≠ i → ((List.replicate k (Goroutine.caller i)).foldl (CancelState.step n) s).pc j = s.pc j) ∧
      ((List.replicate k (Goroutine.caller i)).foldl (CancelState.step n) s).writer = s.writer ∧
      ((List.replicate k (Goroutine.caller i)).foldl (CancelState.step n) s).pending = s.pending ∧
      ((List.replicate k (Goroutine.caller i)).foldl (CancelState.step n) s).cancel = s.cancel := by
  obtain ⟨k, h1, h2, h3, h4, h5⟩ := hrest
  refine ⟨k + 1, ?_⟩
  simp only [List.replicate, List.foldl_cons, hstep]
  exact ⟨h1, fun j hj => (h2 j hj).trans (hpc j hj), h3.trans hw, h4.trans hp, h5.trans hc⟩

/-- A log call that holds its read lock, or finds the write lock free and no
`Lock` call waiting, can run to its return, and no other goroutine moves
meanwhile. -/
theorem finish_caller (n i : Nat) (hi : i < n) (s : CancelState)
    (h : (s.pc i).reading = true ∨ (s.writer = false ∧ s.pending = false)) :
    ∃ k, ((List.replicate k (Goroutine.caller i)).foldl (CancelState.step n) s).pc i = .done ∧
      (∀ j, j ≠ i → ((List.replicate k (Goroutine.caller i)).foldl (CancelState.step n) s).pc j = s.pc j) ∧
      ((List.replicate k (Goroutine.caller i)).foldl (CancelState.step n) s).writer = s.writer ∧
      ((List.replicate k (Goroutine.caller i)).foldl (CancelState.step n) s).pending = s.pending ∧
      ((List.replicate k (Goroutine.caller i)).foldl (CancelState.step n) s).cancel = s.cancel := by
  have hcalled : ∀ s : CancelState, s.pc i = .called →
      ∃ k, ((List.replicate k (Goroutine.caller i)).foldl (CancelState.step n) s).pc i = .done ∧
        (∀ j, j ≠ i → ((List.replicate k (Goroutine.caller i)).foldl (CancelState.step n) s).pc j = s.pc j) ∧
        ((List.replicate k (Goroutine.caller i)).foldl (CancelState.step n) s).writer = s.writer ∧
        ((List.replicate k (Goroutine.caller i)).foldl (CancelState.step n) s).pending = s.pending ∧
        ((List.replicate k (Goroutine.caller i)).foldl (CancelState.step n) s).cancel = s.cancel := by
    intro s hpc
    refine caller_chain n i s _ rfl ?_ ?_ ?_ ?_ ⟨0, ?_, fun _ _ => rfl, rfl, rfl, rfl⟩
    · intro j hj
      simp [CancelState.step, hi, hpc, Function.update_noteq hj]
    · simp [CancelState.step, hi, hpc]
    · simp [CancelState.step, hi, hpc]
    · simp [CancelState.step, hi, hpc]
    · simp [CancelState.step, hi, hpc]
  have hcalling : ∀ (s : CancelState) (d : Delegate), s.pc i = .calling d →
      ∃ k, ((List.replicate k (Goroutine.caller i)).foldl (CancelState.step n) s).pc i = .done ∧
        (∀ j, j ≠ i → ((List.replicate k (Goroutine.caller i)).foldl (CancelState.step n) s).pc j = s.pc j) ∧
        ((List.replicate k (Goroutine.caller i)).foldl (CancelState.step n) s).writer = s.writer ∧
        ((List.replicate k (Goroutine.caller i)).foldl (CancelState.step n) s).pending = s.pending ∧
        ((List.replicate k (Goroutine.caller i)).foldl (CancelState.step n) s).cancel = s.cancel := by
    intro s d hpc
    refine caller_chain n i s _ rfl ?_ ?_ ?_ ?_ (hcalled _ ?_)
    · intro j hj
      simp [CancelState.step, hi, hpc, Function.update_noteq hj]
    · simp [CancelState.step, hi, hpc]
    · simp [CancelState.step, hi, hpc]
    · simp [CancelState.step, hi, hpc]
    · simp [CancelState.step, hi, hpc]
  have hrlocked : ∀ (s : CancelState), s.pc i = .rlocked →
      ∃ k, ((List.replicate k (Goroutine.caller i)).foldl (CancelState.step n) s).pc i = .done ∧
        (∀ j, j ≠ i → ((List.replicate k (Goroutine.caller i)).foldl (CancelState.step n) s).pc j = s.pc j) ∧
        ((List.replicate k (Goroutine.caller i)).foldl (CancelState.step n) s).writer = s.writer ∧
        ((List.replicate k (Goroutine.caller i)).foldl (CancelState.step n) s).pending = s.pending ∧
        ((List.replicate k (Goroutine.caller i)).foldl (CancelState.step n) s).cancel = s.cancel := by
    intro s hpc
    refine caller_chain n i s _ rfl ?_ ?_ ?_ ?_ (hcalling _ s.Logger ?_)
    · intro j hj
      simp [CancelState.step, hi, hpc, Function.update_noteq hj]
    · simp [CancelState.step, hi, hpc]
    · simp [CancelState.step, hi, hpc]
    · simp [CancelState.step, hi, hpc]
    · simp [CancelState.step, hi, hpc]
  cases hpc : s.pc i with
  | start =>
    have hw : s.writer = false ∧ s.pending = false := by
      rcases h with h | h
      · rw [hpc] at h; simp [CallPc.reading] at h
      · exact h
    refine caller_chain n i s _ rfl ?_ ?_ ?_ ?_ (hrlocked _ ?_)
    · intro j hj
      simp [CancelState.step, hi, hpc, hw.1, hw.2, Function.update_noteq hj]
    · simp [CancelState.step, hi, hpc, hw.1, hw.2]
    · simp [CancelState.step, hi, hpc, hw.1, hw.2]
    · simp [CancelState.step, hi, hpc, hw.1, hw.2]
    · simp [CancelState.step, hi, hpc, hw.1, hw.2]
  | rlocked => exact hrlocked s hpc
  | calling d => exact hcalling s d hpc
  | called => exact hcalled s hpc
  | done => exact ⟨0, by simpa using hpc, fun _ _ => rfl, rfl, rfl, rfl⟩

/-- The log calls that hold a read lock can all return. -/
theorem finish_readers (n : Nat) : ∀ (l : List Nat) (s : CancelState), (∀ i ∈ l, i < n) →
    ∃ more : List Goroutine,
      (∀ i ∈ l, ((more.foldl (CancelState.step n) s).pc i).reading = false) ∧
      ∀ j, (s.pc j).reading = false → ((more.foldl (CancelState.step n) s).pc j).reading = false := by
  intro l
  induction l with
  | nil => intro s _; exact ⟨[], by simp, fun _ h => h⟩
  | cons i rest ih =>
    intro s hl
    have hone : ∃ m1 : List Goroutine,
        ((m1.foldl (CancelState.step n) s).pc i).reading = false ∧
        ∀ j, (s.pc j).reading = false → ((m1.foldl (CancelState.step n) s).pc j).reading = false := by
      cases hr : (s.pc i).reading with
      | false => exact ⟨[], hr, fun _ h => h⟩
      | true =>
        obtain ⟨k, hk1, hk2, _, _, _⟩ := finish_caller n i (hl i (by simp)) s (Or.inl hr)
        refine ⟨List.replicate k (.caller i), by rw [hk1]; rfl, ?_⟩
        intro j hj
        by_cases hji : j = i
        · subst hji; rw [hk1]; rfl
        · rw [hk2 j hji]; exact hj
    obtain ⟨m1, h1, h2⟩ := hone
    obtain ⟨m2, h3, h4⟩ := ih (m1.foldl (CancelState.step n) s) (fun j hj => hl j (by simp [hj]))
    refine ⟨m1 ++ m2, ?_, ?_⟩
    · intro j hj
      rw [List.foldl_append]
      rcases List.mem_cons.1 hj with rfl | hj
      · exact h4 _ h1
      · exact h3 j hj
    · intro j hj
      rw [List.foldl_append]
      exact h4 j (h2 j hj)

/-- With no read lock held, `Cancel` can run to its return. -/
theorem finish_cancel (n : Nat) (s : CancelState) (h : CancelInv n s) (hr : s.readers = 0) :
    ∃ k, ((List.replicate k Goroutine.canceller).foldl (CancelState.step n) s).cancel = .done ∧
      ((List.replicate k Goroutine.canceller).foldl (CancelState.step n) s).writer = false ∧
      ((List.replicate k Goroutine.canceller).foldl (CancelState.step n) s).pending = false ∧
      ((List.replicate k Goroutine.canceller).foldl (CancelState.step n) s).pc = s.pc := by
  obtain ⟨kp, _, _, k2, _⟩ := h
  have hpend : s.cancel ≠ .start → s.pending = false := by
    intro hne
    cases hp : s.pending with
    | false => rfl
    | true => exact absurd (kp hp) hne
  cases hc : s.cancel with
  | start =>
    have hw : s.writer = false := by
      cases hw : s.writer with
      | false => rfl
      | true =>
        rcases k2.1 hw with h1 | h1 <;> rw [hc] at h1 <;> simp at h1
    refine ⟨3, ?_⟩
    simp [List.replicate, CancelState.step, hc, hw, hr]
  | locked =>
    have hp := hpend (by rw [hc]; simp)
    refine ⟨2, ?_⟩
    simp [List.replicate, CancelState.step, hc, hp]
  | assigned =>
    have hp := hpend (by rw [hc]; simp)
    refine ⟨1, ?_⟩
    simp [List.replicate, CancelState.step, hc, hp]
  | done =>
    have hp := hpend (by rw [hc]; simp)
    have hwf : s.writer = false := by
      cases hw : s.writer with
      | false => rfl
      | true =>
        rcases k2.1 hw with h1 | h1 <;> rw [hc] at h1 <;> simp at h1
    exact ⟨0, by simpa using hc, by simpa using hwf, by simpa using hp, rfl⟩

/-- After `Cancel` has returned, the log calls of a list can return one after
the other. -/
theorem finish_callers (n : Nat) : ∀ (l : List Nat) (s : CancelState), (∀ i ∈ l, i < n) →
    s.writer = false → s.pending = false →
    ∃ more : List Goroutine, (∀ i ∈ l, (more.foldl (CancelState.step n) s).pc i = .done) ∧
      (∀ j, s.pc j = .done → (more.foldl (CancelState.step n) s).pc j = .done) ∧
      (more.foldl (CancelState.step n) s).writer = false ∧
      (more.foldl (CancelState.step n) s).pending = false ∧
      (more.foldl (CancelState.step n) s).cancel = s.cancel := by
  intro l
  induction l with
  | nil => intro s _ hw hp; exact ⟨[], by simp, fun _ h => h, hw, hp, rfl⟩
  | cons i rest ih =>
    intro s hl hw hp
    obtain ⟨k, hk1, hk2, hk3, hk4, hk5⟩ := finish_caller n i (hl i (by simp)) s (Or.inr ⟨hw, hp⟩)
    obtain ⟨m2, h1, h2, h3, h4, h5⟩ := ih _ (fun j hj => hl j (by simp [hj])) (hk3.trans hw)
      (hk4.trans hp)
    refine ⟨List.replicate k (.caller i) ++ m2, ?_, ?_, ?_, ?_, ?_⟩
    · intro j hj
      rw [List.foldl_append]
      rcases List.mem_cons.1 hj with rfl | hj
      · exact h2 _ hk1
      · exact h1 j hj
    · intro j hj
      rw [List.foldl_append]
      apply h2
      by_cases hji : j = i
      · subst hji; exact hk1
      · rw [hk2 j hji]; exact hj
    · rw [List.foldl_append]; exact h3
    · rw [List.foldl_append]; exact h4
    · rw [List.foldl_append, h5, hk5]

/-- No schedule leads the goroutines into a state they cannot leave. -/
theorem cancel_completes (n : Nat) (schedule : List Goroutine) :
    ∃ more : List Goroutine,
      (∀ i, i < n → (CancelState.run n (schedule ++ more)).pc i = .done) ∧
      (CancelState.run n (schedule ++ more)).cancel = .done := by
  obtain ⟨m1, h1, _⟩ := finish_readers n (List.range n) (CancelState.run n schedule)
    (fun i hi => List.mem_range.1 hi)
  have hinv1 : CancelInv n (m1.foldl (CancelState.step n) (CancelState.run n schedule)) :=
    CancelInv_foldl n m1 _ (CancelInv_run n schedule)
  have hr : (m1.foldl (CancelState.step n) (CancelState.run n schedule)).readers = 0 := by
    rw [hinv1.2.2.1]
    apply Finset.sum_eq_zero
    intro j hj
    simp [h1 j (List.mem_range.2 (Finset.mem_range.1 hj))]
  obtain ⟨k, hk1, hk2, hk3, _⟩ := finish_cancel n _ hinv1 hr
  obtain ⟨m3, h3, _, _, _, h3c⟩ := finish_callers n (List.range n) _
    (fun i hi => List.mem_range.1 hi) hk2 hk3
  refine ⟨m1 ++ (List.replicate k .canceller ++ m3), ?_, ?_⟩
  · intro i hi
    unfold CancelState.run
    rw [List.foldl_append, List.foldl_append, List.foldl_append]
    exact h3 i (List.mem_range.2 hi)
  · unfold CancelState.run
    rw [List.foldl_append, List.foldl_append, List.foldl_append]
    exact h3c.trans hk1

/-- C27: in every state that log calls and one `Cancel` can reach, whatever the
order of their steps: no log call holds a read lock while `Cancel` is between
`Lock` and `Unlock`, so the assignment of `c.Logger` never meets a read of it;
a log call runs in the logger `c.Logger` refers to for as long as it runs, and
one that runs in the original logger does so before `Cancel` has taken the
lock; the original logger handles no call twice; and all goroutines can
return, with the discard logger in place. -/
theorem cancel_race_free (n : Nat) (schedule : List Goroutine) :
    ((CancelState.run n schedule).cancel = .locked ∨
        (CancelState.run n schedule).cancel = .assigned →
      ∀ i, ((CancelState.run n schedule).pc i).reading = false) ∧
    (∀ i d, (CancelState.run n schedule).pc i = .calling d →
      (CancelState.run n schedule).Logger = d) ∧
    (∀ i, (CancelState.run n schedule).pc i = .calling .original →
      (CancelState.run n schedule).cancel = .start) ∧
    (CancelState.run n schedule).handled.Nodup ∧
    (∀ i ∈ (CancelState.run n schedule).handled, i < n) ∧
    (∃ more : List Goroutine,
      (∀ i, i < n → (CancelState.run n (schedule ++ more)).pc i = .done) ∧
      (CancelState.run n (schedule ++ more)).cancel = .done ∧
      (CancelState.run n (schedule ++ more)).Logger = .discard) := by
  have hinv := CancelInv_run n schedule
  have hex := CancelInv_exclusive n _ hinv
  obtain ⟨_, k0, k1, k2, k3, k4, k5, k6, k7⟩ := hinv
  refine ⟨fun hc i => hex (k2.2 hc) i, fun i d h => (k5 i d h).symm, ?_, k6, ?_, ?_⟩
  · intro i hpc
    have hlog := k5 i _ hpc
    have hw : (CancelState.run n schedule).writer = false := by
      cases hw : (CancelState.run n schedule).writer with
      | false => rfl
      | true =>
        have := hex hw i
        rw [hpc] at this
        simp [CallPc.reading] at this
    cases hc : (CancelState.run n schedule).cancel with
    | start => rfl
    | locked =>
      have := k2.2 (Or.inl hc)
      rw [hw] at this
      exact absurd this (by decide)
    | assigned =>
      have := k2.2 (Or.inr hc)
      rw [hw] at this
      exact absurd this (by decide)
    | done =>
      have := k4.2 (Or.inr hc)
      rw [← hlog] at this
      exact absurd this (by decide)
  · intro i hi
    by_contra hn
    have := k0 i (not_lt.1 hn)
    rcases k7 i hi with h1 | h1 <;> rw [this] at h1 <;> simp at h1
  · obtain ⟨more, h1, h2⟩ := cancel_completes n schedule
    exact ⟨more, h1, h2, (CancelInv_run n (schedule ++ more)).2.2.2.2.2.1.2 (Or.inr h2)⟩

/-- C27 witness: three log calls and a `Cancel`.  While the first call runs in
the original logger, `Cancel` has not taken the lock and `c.Logger` is the
original logger; in the end the original logger has handled the two calls that
came before `Cancel` and not the one that came after. -/
theorem cancel_race_free_witness :
    (CancelState.run 3 (raceSchedule.take 4)).cancel = .start ∧
      (CancelState.run 3 (raceSchedule.take 4)).Logger = .original ∧
      (CancelState.run 3 raceSchedule).handled = [0, 1] ∧
      (CancelState.run 3 raceSchedule).pc 2 = .done ∧
      (CancelState.run 3 raceSchedule).Logger = .discard ∧
      ∀ i, ((CancelState.run 3 (raceSchedule.take 10)).pc i).reading = false :=
  ⟨(cancel_race_free 3 (raceSchedule.take 4)).2.2.1 0 (by decide),
    (cancel_race_free 3 (raceSchedule.take 4)).2.1 0 .original (by decide),
    by decide, by decide, by decide,
    (cancel_race_free 3 (raceSchedule.take 10)).1 (Or.inl (by decide))⟩


end Logging
